import Mathlib

/-!
# dummy-cd: the reconciliation engine

A shallow embedding of the registry (`server/pkg/instance/handler.go`), the
repository configuration (`server/pkg/instance/repository.go`) and the
application life cycle (`server/pkg/instance/application.go`).

Go pointers to heap objects are embedded as the values they point to; a pointer
that can be nil is an `Option`.  Calls into go-git, Helm, the cluster and the
file system are results supplied by an environment record, and every such call
is written to a trace in the order the source makes it.
-/

namespace DummyCD

/-! ## Errors -/

/-- Errors raised by the libraries the engine calls (go-git, os, Helm, client-go).
`gitNoErrAlreadyUpToDate` is `git.NoErrAlreadyUpToDate`; every other library
error is `other` with its message. -/
inductive ExtErr where
  | gitNoErrAlreadyUpToDate
  | other (msg : String)
  deriving DecidableEq, Repr

/-- The error values of `util/errors.go`, the one error `RunLifeCycle` creates
itself, and the library errors that the engine passes on unchanged. -/
inductive Err where
  | NoErrAlreadyUpTodate
  | ErrFailedToPrepareKnownHosts
  | ErrRepositoryAlreadyExist
  | ErrFailedToCreateRepository
  | ErrRepositoryConfigNotFound
  | ErrApplicationAlreadyExist
  | ErrApplicationNotFound
  | unexpectedZeroHead
  | ext (e : ExtErr)
  deriving DecidableEq, Repr

/-! ## Data model -/

/-- The type `plumbing.Hash`, a 20-byte array, read as a number; the engine only
compares hashes and tests them against the zero hash. -/
structure Hash where
  val : Nat
  deriving DecidableEq, Repr

/-- The value `plumbing.ZeroHash`. -/
def ZeroHash : Hash := ⟨0⟩

/-- The method `Hash.IsZero`. -/
def Hash.IsZero (h : Hash) : Bool := h == ZeroHash

/-- The exported fields of `provider.HelmActionOptions` and its unexported
`actionTimeout` (in seconds). -/
structure HelmActionOptions where
  CheckValuesEqual : Bool
  ReInstallRelease : Bool
  CreateNamespace : Bool
  Atomic : Bool
  IncludeCRDs : Bool
  actionTimeout : Nat := 0
  deriving DecidableEq, Repr

/-- The declared part of `provider.HelmProvider`: the options pointer and the
value files.  Its other fields are handles into the Helm library. -/
structure HelmProvider where
  ActionOptions : Option HelmActionOptions
  ValueFiles : List String
  deriving DecidableEq, Repr

/-- Which implementation of `provider.DeliveryProvider` an application is bound to. -/
inductive ProviderKind where
  | raw
  | helm
  deriving DecidableEq, Repr

/-- The struct `Application`.  `RepositoryConfig` is the back pointer to the
owning repository, kept as the owner's URL (`none` is the nil pointer); the git
handles and option structs are library values and are left out;
`deliveryProvider` is `none` until `NewApplication` binds one. -/
structure Application where
  Name : String
  Namespace : String
  URL : String
  Reference : String
  SparsePath : String
  storagePath : String := ""
  handledPath : String := ""
  CurrentRevision : Hash := ZeroHash
  RepositoryConfig : Option String := none
  Helm : Option HelmProvider := none
  deliveryProvider : Option ProviderKind := none
  deriving DecidableEq, Repr

/-- The struct `RepositorySettings`. -/
structure RepositorySettings where
  URL : String
  PrivateKeySecret : String
  InsecureIgnoreHostKey : Bool
  deriving DecidableEq, Repr

/-- The struct `RepositoryConfig`.  `Apps` is a slice of pointers, so a slot can
hold nil. -/
structure RepositoryConfig where
  Name : String
  Settings : RepositorySettings
  Apps : List (Option Application) := []
  deriving DecidableEq, Repr

/-- The struct `RepositoryHandler`, reduced to the registry it stores. -/
structure RepositoryHandler where
  Repos : List RepositoryConfig := []
  deriving DecidableEq, Repr

/-! ## Mutexes -/

/-- The four tiers of the lock hierarchy. -/
inductive Tier where
  | Registry
  | Repository
  | Application
  | Provider
  deriving DecidableEq, Repr

/-- The height of a tier: the registry is highest, a provider lowest. -/
def Tier.rank : Tier → Nat
  | .Registry => 3
  | .Repository => 2
  | .Application => 1
  | .Provider => 0

/-- A `sync.Mutex` of the engine, named by the object it guards: the handler,
the repository with a URL, the application or the provider with a name in a
repository, or a mutex made by `new(sync.Mutex)` in the course of an operation
(which nobody else can hold). -/
inductive Mutex where
  | registry
  | repository (url : String)
  | application (url name : String)
  | provider (url name : String)
  | created (tier : Tier) (label : String)
  deriving DecidableEq, Repr

/-- The tier of a mutex. -/
def Mutex.tier : Mutex → Tier
  | .registry => Tier.Registry
  | .repository _ => Tier.Repository
  | .application _ _ => Tier.Application
  | .provider _ _ => Tier.Provider
  | .created tier _ => tier

/-- One step of a task on a mutex: a call of `TryLock` with its answer, a loop
`for !m.TryLock() {}` that ends with the mutex taken, a `Lock`, an `Unlock`, or
the hand-over of a taken mutex to a task that is started and releases it. -/
inductive LockOp where
  | TryLock (m : Mutex) (ok : Bool)
  | Spin (m : Mutex)
  | Lock (m : Mutex)
  | Unlock (m : Mutex)
  | handOver (m : Mutex)
  deriving DecidableEq, Repr

/-- The mutex that the step attempts to acquire, if it is an attempt. -/
def LockOp.attempts : LockOp → Option Mutex
  | .TryLock m _ => some m
  | .Spin m => some m
  | .Lock m => some m
  | .Unlock _ => none
  | .handOver _ => none

/-- The mutexes that the task holds after the step. -/
def LockOp.apply (mine : List Mutex) : LockOp → List Mutex
  | .TryLock m ok => if ok then m :: mine else mine
  | .Spin m => m :: mine
  | .Lock m => m :: mine
  | .Unlock m => mine.erase m
  | .handOver m => mine.erase m

/-- The mutexes that a task holds after a sequence of steps. -/
def heldAfter (mine : List Mutex) (ops : List LockOp) : List Mutex :=
  ops.foldl LockOp.apply mine

/-- The steps keep the lock hierarchy: no step attempts a mutex of a higher tier
than one of the mutexes the task holds at that moment. -/
def topDown (mine : List Mutex) : List LockOp → Bool
  | [] => true
  | op :: rest =>
    (match op.attempts with
      | none => true
      | some m => mine.all (fun h => decide (m.tier.rank ≤ h.tier.rank))) &&
    topDown (op.apply mine) rest

/-- How a call that takes mutexes ends: it returns an error value (`none` is
nil), it panics, or it never returns because it spins on a mutex that stays
held. -/
inductive Ending where
  | returns (err : Option Err)
  | panics
  | spins
  deriving DecidableEq, Repr

/-! ## Taking an application down (`Application.Uninstall`) -/

/-- How a Go call ends: with a value, with a non-nil error, or in a run-time
panic (a nil pointer dereference). -/
inductive Go (α : Type) where
  | ok (value : α)
  | err (e : Err)
  | panic
  deriving DecidableEq

/-- What the provider and the file system answer when an application is taken
down: the error of `deliveryProvider.Uninstall()` for the application, and the
error of `os.RemoveAll` for a path. -/
structure TeardownEnv where
  Uninstall : Application → Option Err
  RemoveAll : String → Option ExtErr

/-- One call made while an application is taken down. -/
inductive TeardownEvent where
  | Uninstall (appName : String) (err : Option Err)
  | RemoveAll (path : String) (err : Option ExtErr)
  deriving DecidableEq, Repr

/-- The method `Application.Uninstall`: the provider's `Uninstall`, then the
removal of the storage directory; calling the provider through a nil interface
panics. -/
def Application.Uninstall (a : Application) (env : TeardownEnv) : Go Unit × List TeardownEvent :=
  match a.deliveryProvider with
  | none => (Go.panic, [])
  | some _ =>
    match env.Uninstall a with
    | some e => (Go.err e, [TeardownEvent.Uninstall a.Name (some e)])
    | none =>
      match env.RemoveAll a.storagePath with
      | some e =>
        (Go.err (Err.ext e),
          [TeardownEvent.Uninstall a.Name none, TeardownEvent.RemoveAll a.storagePath (some e)])
      | none =>
        (Go.ok (),
          [TeardownEvent.Uninstall a.Name none, TeardownEvent.RemoveAll a.storagePath none])

/-- The steps of the provider's `Uninstall` on its own mutex: the Raw provider
spins on it and `cleanResources` unlocks it on return; the Helm provider takes no
mutex. -/
def providerUninstallLocks (url name : String) : Option ProviderKind → List LockOp
  | some ProviderKind.raw => [LockOp.Spin (Mutex.provider url name),
      LockOp.Unlock (Mutex.provider url name)]
  | _ => []

/-! ## Registry operations (`handler.go`) -/

/-- The loop of `RepositoryHandler.GetRepositoryConfig`: the first entry with the
URL, or nil. -/
def GetRepositoryConfig.scan (URL : String) : List RepositoryConfig → Option RepositoryConfig
  | [] => none
  | r :: rest => if r.Settings.URL = URL then some r else GetRepositoryConfig.scan URL rest

/-- The method `RepositoryHandler.GetRepositoryConfig`. -/
def RepositoryHandler.GetRepositoryConfig (h : RepositoryHandler) (URL : String) :
    Option RepositoryConfig :=
  GetRepositoryConfig.scan URL h.Repos

/-- The loop of `AddRepository`: true when some entry has the new URL. -/
def AddRepository.scan (URL : String) : List RepositoryConfig → Bool
  | [] => false
  | repo :: rest => if repo.Settings.URL = URL then true else AddRepository.scan URL rest

/-- The method `RepositoryHandler.AddRepository`: the returned error (`none` is nil) and the
handler afterwards. -/
def RepositoryHandler.AddRepository (h : RepositoryHandler) (newRepository : RepositoryConfig) :
    Option Err × RepositoryHandler :=
  if AddRepository.scan newRepository.Settings.URL h.Repos then
    (some Err.ErrRepositoryAlreadyExist, h)
  else
    (none, { h with Repos := h.Repos ++ [newRepository] })

/-- The loop of `DeleteRepository` over `h.Repos` from index `i` on: it has no
`break`, so every match overwrites `repoIndex` (`none` is the initial `-1`). -/
def DeleteRepository.scan (name : String) : List RepositoryConfig → Nat → Option Nat → Option Nat
  | [], _, repoIndex => repoIndex
  | repo :: rest, i, repoIndex =>
      DeleteRepository.scan name rest (i + 1) (if repo.Name = name then some i else repoIndex)

/-- The two statements `s[i] = s[len(s)-1]; s = s[:len(s)-1]`. -/
def swapPop {α : Type} (s : List α) (i : Nat) : List α :=
  match s.getLast? with
  | none => s
  | some last => (s.set i last).dropLast

/-- What `DeleteRepository` leaves: how it ends, the handler, the slots of the
deleted repository for which an uninstall task was started, and the calls the
tasks made, the tasks taken in the order they were started.  Each task runs in
its own goroutine and `DeleteRepository` only waits for them, never reading
their outcome. -/
structure DeleteRepositoryResult where
  ending : Ending
  handler : RepositoryHandler
  dispatched : List (Option Application)
  trace : List TeardownEvent
  deriving DecidableEq, Repr

/-- One uninstall task of `DeleteRepository` for a slot of the repository at
`url`, while the mutexes `held` are locked by others and stay so: reading the
mutex of a nil slot panics; the task spins on the mutex of the application, then
runs `app.Uninstall()`, whose Raw provider spins on its own mutex; an error of
`Uninstall` is only logged.  `Ending.returns none` is the end of the task. -/
def DeleteRepository.task (env : TeardownEnv) (held : List Mutex) (url : String) :
    Option Application → Ending × List TeardownEvent
  | none => (Ending.panics, [])
  | some app =>
    if Mutex.application url app.Name ∈ held then (Ending.spins, [])
    else if app.deliveryProvider = some ProviderKind.raw ∧ Mutex.provider url app.Name ∈ held then
      (Ending.spins, [])
    else
      match (app.Uninstall env).1 with
      | Go.panic => (Ending.panics, (app.Uninstall env).2)
      | _ => (Ending.returns none, (app.Uninstall env).2)

/-- The part of `DeleteRepository` after the scan has ended on `repository` at
`repoIndex`: it spins on the mutex of the repository, starts one task for every
slot and waits for all of them.  A task that panics ends the process; when a
task spins for ever, `wg.Wait()` never returns; when all tasks end, the entry is
swapped out and nil is returned. -/
def DeleteRepository.teardown (env : TeardownEnv) (held : List Mutex) (h : RepositoryHandler)
    (repoIndex : Nat) (repository : RepositoryConfig) : DeleteRepositoryResult :=
  if Mutex.repository repository.Settings.URL ∈ held then
    { ending := Ending.spins, handler := h, dispatched := [], trace := [] }
  else
    let tasks := repository.Apps.map (DeleteRepository.task env held repository.Settings.URL)
    { ending :=
        if Ending.panics ∈ tasks.map Prod.fst then Ending.panics
        else if Ending.spins ∈ tasks.map Prod.fst then Ending.spins
        else Ending.returns none
      handler :=
        if Ending.panics ∈ tasks.map Prod.fst ∨ Ending.spins ∈ tasks.map Prod.fst then h
        else { h with Repos := swapPop h.Repos repoIndex }
      dispatched := repository.Apps
      trace := (tasks.map Prod.snd).flatten }

/-- The method `RepositoryHandler.DeleteRepository`, called while the mutexes
`held` are locked by others and stay so. -/
def RepositoryHandler.DeleteRepository (env : TeardownEnv) (held : List Mutex)
    (h : RepositoryHandler) (name : String) : DeleteRepositoryResult :=
  match DeleteRepository.scan name h.Repos 0 none with
  | none =>
    { ending := Ending.returns (some Err.ErrRepositoryConfigNotFound), handler := h
      dispatched := [], trace := [] }
  | some repoIndex =>
    match h.Repos.get? repoIndex with
    | some repository => DeleteRepository.teardown env held h repoIndex repository
    | none => { ending := Ending.panics, handler := h, dispatched := [], trace := [] }

/-- The uninstall tasks of the repository can all run to their end: its mutex is
free, no slot of its list is nil, every application has its provider, and the
mutexes of the applications and of their providers are free. -/
def RepositoryConfig.idle (held : List Mutex) (r : RepositoryConfig) : Prop :=
  Mutex.repository r.Settings.URL ∉ held ∧
  ∀ slot ∈ r.Apps, ∃ a kind, slot = some a ∧ a.deliveryProvider = some kind ∧
    Mutex.application r.Settings.URL a.Name ∉ held ∧
    Mutex.provider r.Settings.URL a.Name ∉ held

/-- One call on the registry, with the answers of its environment. -/
inductive RegistryCall where
  | add (newRepository : RepositoryConfig)
  | delete (env : TeardownEnv) (held : List Mutex) (name : String)

/-- The handler after one call, however the call ended. -/
def RegistryCall.run (h : RepositoryHandler) : RegistryCall → RepositoryHandler
  | .add newRepository => (h.AddRepository newRepository).2
  | .delete env held name => (h.DeleteRepository env held name).handler

/-- The handler after a sequence of calls, made one after the other. -/
def runCalls (h : RepositoryHandler) (calls : List RegistryCall) : RepositoryHandler :=
  calls.foldl RegistryCall.run h

/-- The URLs of the registry, in list order. -/
def RepositoryHandler.urls (h : RepositoryHandler) : List String :=
  h.Repos.map (fun r => r.Settings.URL)

/-! ## Strings -/

/-- Go's `len` on a string: its length in bytes. -/
def len (s : String) : Nat := s.utf8ByteSize

/-- Go's `strings.HasPrefix(s, p)`: `s` starts with `p`.  Both strings are read
as their sequences of code points; on well-formed UTF-8 a string starts with the
bytes of `p` exactly when it starts with the code points of `p`. -/
def strings.HasPrefix (s p : String) : Bool := p.data.isPrefixOf s.data

/-- The pieces of a character sequence between the occurrences of `sep`; there
is always at least one piece. -/
def splitOn (sep : Char) : List Char → List (List Char)
  | [] => [[]]
  | c :: cs =>
    if c = sep then [] :: splitOn sep cs
    else
      match splitOn sep cs with
      | [] => [[c]]
      | piece :: pieces => (c :: piece) :: pieces

/-- One step of `path.Clean` over the elements of a path, with the elements
kept so far, the last one first: an empty element and `.` are dropped; `..`
takes away the element before it, is dropped at the root, and is kept at the
start of a path that is not rooted; every other element is kept. -/
def path.Clean.step (rooted : Bool) (kept : List (List Char)) (e : List Char) :
    List (List Char) :=
  if e = [] ∨ e = ['.'] then kept
  else if e = ['.', '.'] then
    match kept with
    | [] => if rooted then [] else [e]
    | last :: before => if last = ['.', '.'] then e :: kept else before
  else e :: kept

/-- The elements of a path written with a slash between them. -/
def path.slashed : List (List Char) → List Char
  | [] => []
  | [e] => e
  | e :: rest => e ++ '/' :: path.slashed rest

/-- Go's `path.Clean`, by the rules of its documentation: the shortest path that
names the same place, found by going through the elements between the slashes;
the empty path and a path without elements left become `.`, a rooted path keeps
its leading slash. -/
def path.Clean (p : String) : String :=
  if p = "" then "."
  else if p.data.head? = some '/' then
    String.mk ('/' :: path.slashed ((splitOn '/' p.data).foldl (path.Clean.step true) []).reverse)
  else if (splitOn '/' p.data).foldl (path.Clean.step false) [] = [] then "."
  else String.mk (path.slashed ((splitOn '/' p.data).foldl (path.Clean.step false) []).reverse)

/-- Go's `path.Join` of two elements: an empty first element is ignored, the
elements are joined with a slash and the result is cleaned; two empty elements
give the empty string. -/
def path.Join (a b : String) : String :=
  if a = "" then (if b = "" then "" else path.Clean b) else path.Clean (a ++ "/" ++ b)

/-- The string is one element of a path: it is not empty, has no slash, and is
neither `.` nor `..`. -/
def path.isElement (n : String) : Prop :=
  n.data ≠ [] ∧ '/' ∉ n.data ∧ n.data ≠ ['.'] ∧ n.data ≠ ['.', '.']

instance (n : String) : Decidable (path.isElement n) := by
  unfold path.isElement
  infer_instance

/-! ## The reconciliation pass (`application.go`) -/

deriving instance DecidableEq for Except

/-- What each library call of one pass answers: `none` is a nil error.
`worktree` and `checkout` are the first calls of `repo.Worktree` and
`worktree.Checkout`, `worktreeAgain` and `checkoutAgain` the calls after the
worktree has been aligned.  `Log` is `repo.Log`, which is handed the path filter
and answers with the hashes its iterator yields.  `Delivery` is the provider,
which reads the revision through the pointer it was built with. -/
structure LifeCycleEnv where
  Fetch : Option ExtErr
  localReference : Except ExtErr Hash
  remoteReference : Except ExtErr Hash
  worktree : Option ExtErr
  ResetSparsely : Option ExtErr
  checkout : Option ExtErr
  Pull : Option ExtErr
  worktreeAgain : Option ExtErr
  checkoutAgain : Option ExtErr
  Log : (String → Bool) → Except ExtErr (List Hash)
  Delivery : Hash → Option Err

/-- One library or provider call of a pass, with what it was given and what it
answered.  `Delivery` carries the value of `CurrentRevision` at the call. -/
inductive Event where
  | Fetch (err : Option ExtErr)
  | Reference (name : String) (res : Except ExtErr Hash)
  | Worktree (err : Option ExtErr)
  | ResetSparsely (commit : Hash) (dirs : List String) (err : Option ExtErr)
  | Checkout (err : Option ExtErr)
  | Pull (err : Option ExtErr)
  | Log (res : Except ExtErr (List Hash))
  | Delivery (revision : Hash) (err : Option Err)
  deriving DecidableEq

/-- What a pass returns, the application it leaves, and the calls it made. -/
structure PassResult where
  err : Option Err
  app : Application
  trace : List Event
  deriving DecidableEq

/-- The method `Application.getLocalReferenceName`. -/
def Application.getLocalReferenceName (a : Application) : String :=
  "refs/heads/" ++ a.Reference

/-- The method `Application.getRemoteReferenceName`. -/
def Application.getRemoteReferenceName (a : Application) : String :=
  "refs/remotes/origin/" ++ a.Reference

/-- The `PathFilter` closure of `getRevisionsWithPathFilter` (the same closure is
stored in `logOptions` by `NewApplication`). -/
def Application.PathFilter (a : Application) (s : String) : Bool :=
  if len a.SparsePath = 0 then true else strings.HasPrefix s a.SparsePath

/-- The method `Application.getRevisionHashList`: the error of `repo.Log`, or the hashes the
iterator yields, in order. -/
def Application.getRevisionHashList (a : Application) (env : LifeCycleEnv) :
    Except ExtErr (List Hash) :=
  env.Log a.PathFilter

/-- The method `Application.getApplicationHeadRevision`: the zero hash on an error or on a
nil list, else the first hash. -/
def Application.getApplicationHeadRevision (a : Application) (env : LifeCycleEnv) : Hash :=
  match a.getRevisionHashList env with
  | .error _ => ZeroHash
  | .ok [] => ZeroHash
  | .ok (h :: _) => h

/-- The pass result with the calls `t` made before it. -/
def PassResult.after (t : List Event) (r : PassResult) : PassResult :=
  { r with trace := t ++ r.trace }

/-- The call `a.deliveryProvider.Delivery()` and the return of its result. -/
def RunLifeCycle.deliver (a : Application) (env : LifeCycleEnv) : PassResult :=
  { err := env.Delivery a.CurrentRevision
    app := a
    trace := [Event.Delivery a.CurrentRevision (env.Delivery a.CurrentRevision)] }

/-- The part of `RunLifeCycle` from the computation of the head revision to the end. -/
def RunLifeCycle.head (a : Application) (env : LifeCycleEnv) : PassResult :=
  let t := [Event.Log (a.getRevisionHashList env)]
  let headMatchedRevision := a.getApplicationHeadRevision env
  if headMatchedRevision.IsZero then
    { err := some Err.unexpectedZeroHead, app := a, trace := t }
  else if a.CurrentRevision = headMatchedRevision then
    { err := none, app := a, trace := t }
  else
    (RunLifeCycle.deliver { a with CurrentRevision := headMatchedRevision } env).after t

/-- The part of `RunLifeCycle` from the second `a.repo.Worktree()` to the computation of the
head revision. -/
def RunLifeCycle.finish (a : Application) (env : LifeCycleEnv) : PassResult :=
  match env.worktreeAgain with
  | some e => { err := some (Err.ext e), app := a, trace := [Event.Worktree (some e)] }
  | none =>
    match env.checkoutAgain with
    | some e =>
      { err := some (Err.ext e), app := a
        trace := [Event.Worktree none, Event.Checkout (some e)] }
    | none => (RunLifeCycle.head a env).after [Event.Worktree none, Event.Checkout none]

/-- The part of `RunLifeCycle` from the comparison of the two reference hashes to the second
`a.repo.Worktree()`. -/
def RunLifeCycle.align (a : Application) (env : LifeCycleEnv) (localHash remoteHash : Hash) :
    PassResult :=
  if localHash ≠ remoteHash then
    match env.ResetSparsely with
    | some e =>
      { err := some (Err.ext e), app := a
        trace := [Event.ResetSparsely remoteHash [a.SparsePath] (some e)] }
    | none =>
      (RunLifeCycle.finish a env).after [Event.ResetSparsely remoteHash [a.SparsePath] none]
  else
    match env.checkout with
    | some e => { err := some (Err.ext e), app := a, trace := [Event.Checkout (some e)] }
    | none =>
      let t := [Event.Checkout none, Event.Pull env.Pull]
      if !a.CurrentRevision.IsZero && env.Pull = some ExtErr.gitNoErrAlreadyUpToDate then
        { err := none, app := a, trace := t }
      else
        match env.Pull with
        | some e =>
          if e ≠ ExtErr.gitNoErrAlreadyUpToDate then
            { err := some (Err.ext e), app := a, trace := t }
          else (RunLifeCycle.finish a env).after t
        | none => (RunLifeCycle.finish a env).after t

/-- The part of `RunLifeCycle` from the resolution of the local reference to the comparison
of the hashes. -/
def RunLifeCycle.update (a : Application) (env : LifeCycleEnv) : PassResult :=
  match env.localReference with
  | .error e =>
    { err := some (Err.ext e), app := a
      trace := [Event.Reference a.getLocalReferenceName (.error e)] }
  | .ok localHash =>
    match env.remoteReference with
    | .error e =>
      { err := some (Err.ext e), app := a
        trace := [Event.Reference a.getLocalReferenceName (.ok localHash),
          Event.Reference a.getRemoteReferenceName (.error e)] }
    | .ok remoteHash =>
      match env.worktree with
      | some e =>
        { err := some (Err.ext e), app := a
          trace := [Event.Reference a.getLocalReferenceName (.ok localHash),
            Event.Reference a.getRemoteReferenceName (.ok remoteHash),
            Event.Worktree (some e)] }
      | none =>
        (RunLifeCycle.align a env localHash remoteHash).after
          [Event.Reference a.getLocalReferenceName (.ok localHash),
            Event.Reference a.getRemoteReferenceName (.ok remoteHash),
            Event.Worktree none]

/-- The method `Application.RunLifeCycle`. -/
def Application.RunLifeCycle (a : Application) (env : LifeCycleEnv) : PassResult :=
  match env.Fetch with
  | some e =>
    if e = ExtErr.gitNoErrAlreadyUpToDate then
      if !a.CurrentRevision.IsZero then
        (RunLifeCycle.deliver a env).after [Event.Fetch (some e)]
      else (RunLifeCycle.update a env).after [Event.Fetch (some e)]
    else { err := some (Err.ext e), app := a, trace := [Event.Fetch (some e)] }
  | none => (RunLifeCycle.update a env).after [Event.Fetch none]

/-- A sequence of passes of one application, each with its own answers: the
application after the last pass and all calls made, in order. -/
def runPasses (a : Application) : List LifeCycleEnv → Application × List Event
  | [] => (a, [])
  | env :: envs =>
    let r := a.RunLifeCycle env
    let rest := runPasses r.app envs
    (rest.1, r.trace ++ rest.2)

/-- The head revision that `getApplicationHeadRevision` derives from an answer
of `getRevisionHashList`. -/
def headOf : Except ExtErr (List Hash) → Hash
  | .error _ => ZeroHash
  | .ok [] => ZeroHash
  | .ok (h :: _) => h

/-- The event is a call of the provider's `Delivery`. -/
def Event.isDelivery : Event → Bool
  | .Delivery _ _ => true
  | _ => false

/-- The event is the computation of the head revision. -/
def Event.isLog : Event → Bool
  | .Log _ => true
  | _ => false

/-- The event is a failed step of a pass: a fetch or a pull with an error other
than `git.NoErrAlreadyUpToDate`, a reference, worktree, reset or checkout with an
error, or a head revision computed as zero. -/
def Event.failed : Event → Bool
  | .Fetch (some e) => e ≠ ExtErr.gitNoErrAlreadyUpToDate
  | .Pull (some e) => e ≠ ExtErr.gitNoErrAlreadyUpToDate
  | .Reference _ (.error _) => true
  | .Worktree (some _) => true
  | .ResetSparsely _ _ (some _) => true
  | .Checkout (some _) => true
  | .Log res => (headOf res).IsZero
  | _ => false

/-- The revisions handed to the calls of `Delivery` that returned nil, in order. -/
def deliveredOk : List Event → List Hash
  | [] => []
  | .Delivery revision none :: rest => revision :: deliveredOk rest
  | _ :: rest => deliveredOk rest

/-- The revisions handed to all calls of `Delivery`, in order. -/
def deliveryCalls : List Event → List Hash
  | [] => []
  | .Delivery revision _ :: rest => revision :: deliveryCalls rest
  | _ :: rest => deliveryCalls rest

/-- No event of the trace is the head computation, a call of `Delivery`, or a
failed step. -/
def quiet (t : List Event) : Prop :=
  ∀ ev ∈ t, ev.isLog = false ∧ ev.isDelivery = false ∧ ev.failed = false

/-- The pass ended before the head computation: the application is as it was,
the provider was not called, and the pass returned an error unless none of its
steps failed. -/
def Stopped (a : Application) (r : PassResult) : Prop :=
  r.app = a ∧ (∀ ev ∈ r.trace, ev.isLog = false ∧ ev.isDelivery = false) ∧
    (r.err ≠ none ∨ ∀ ev ∈ r.trace, ev.failed = false)

/-- The pass went through to the head computation after steps that all
succeeded. -/
def ReachedHead (a : Application) (env : LifeCycleEnv) (r : PassResult) : Prop :=
  ∃ t, quiet t ∧ r = (RunLifeCycle.head a env).after t

/-! ## Applications of a repository (`repository.go`, `NewApplication`) -/

/-- What the file system, go-git and the provider constructors answer while an
application is built or torn down.  `Workspace` is the package variable of that
name.  `IsChartDir` is the error of `chartutil.IsChartDir` (`none` on a chart
directory).  `NewRawProvider` answers with how `provider.NewRawProvider` ends:
with a provider, with an error, or in the panic on a manifest it cannot read.
`NewHelmProvider` answers with the provider it has filled in, which is the
declared one with its own fields set. -/
structure BuildEnv where
  Workspace : String
  NewGitRepository : String → Option ExtErr
  IsChartDir : String → Option ExtErr
  NewRawProvider : String → String → String → Go Unit
  NewHelmProvider : String → String → String → HelmProvider → Except ExtErr HelmProvider
  RemoveAll : String → Option ExtErr

/-- One call made while an application is built or torn down. -/
inductive BuildEvent where
  | NewGitRepository (path : String) (err : Option ExtErr)
  | IsChartDir (path : String) (err : Option ExtErr)
  | NewRawProvider (appName resourcePath ns : String) (res : Go Unit)
  | NewHelmProvider (releaseName chartPath ns : String) (err : Option ExtErr)
  | RemoveAll (path : String) (err : Option ExtErr)
  deriving DecidableEq

/-- The function `NewApplication`: the application it returns, or its error, and the calls it
made.  The option structs need the owning repository, and the Helm constructor
writes through the `Helm` pointer and its `ActionOptions` pointer. -/
def NewApplication (env : BuildEnv) (app : Application) : Go Application × List BuildEvent :=
  let storagePath := path.Join env.Workspace app.Name
  let handledPath := path.Join storagePath app.SparsePath
  match app.RepositoryConfig with
  | none => (Go.panic, [])
  | some _ =>
    match env.NewGitRepository storagePath with
    | some e => (Go.err (Err.ext e), [BuildEvent.NewGitRepository storagePath (some e)])
    | none =>
      match env.IsChartDir handledPath with
      | some e =>
        let t := [BuildEvent.NewGitRepository storagePath none,
          BuildEvent.IsChartDir handledPath (some e),
          BuildEvent.NewRawProvider app.Name handledPath app.Namespace
            (env.NewRawProvider app.Name handledPath app.Namespace)]
        match env.NewRawProvider app.Name handledPath app.Namespace with
        | Go.panic => (Go.panic, t)
        | Go.err e1 => (Go.err e1, t)
        | Go.ok _ =>
          (Go.ok { app with storagePath := storagePath, handledPath := handledPath,
                            deliveryProvider := some ProviderKind.raw }, t)
      | none =>
        let t := [BuildEvent.NewGitRepository storagePath none,
          BuildEvent.IsChartDir handledPath none]
        match app.Helm with
        | none => (Go.panic, t)
        | some helm =>
          match helm.ActionOptions with
          | none => (Go.panic, t)
          | some _ =>
            match env.NewHelmProvider app.Name handledPath app.Namespace helm with
            | .error e1 =>
              (Go.err (Err.ext e1),
                t ++ [BuildEvent.NewHelmProvider app.Name handledPath app.Namespace (some e1)])
            | .ok built =>
              (Go.ok { app with storagePath := storagePath, handledPath := handledPath,
                                Helm := some built, deliveryProvider := some ProviderKind.helm },
                t ++ [BuildEvent.NewHelmProvider app.Name handledPath app.Namespace none])

/-- The comparison `cmp.Equal(x, y, IgnoreUnexported(Application{}),
IgnoreTypes(RepositoryConfig{}, plumbing.Hash{}, provider.HelmProvider{}))` of two
non-nil applications: the exported string fields are compared; `CurrentRevision`
is a `plumbing.Hash` and is ignored; the pointers `RepositoryConfig` and `Helm`
are compared for being nil and the values they point to are ignored. -/
def cmpEqual (x y : Application) : Bool :=
  x.Name == y.Name && x.Namespace == y.Namespace && x.URL == y.URL &&
    x.Reference == y.Reference && x.SparsePath == y.SparsePath &&
    (x.RepositoryConfig.isSome == y.RepositoryConfig.isSome) &&
    (x.Helm.isSome == y.Helm.isSome)

/-- The loop of `AddOrUpdateApplication` over `r.Apps` from index `i` on: it
stops at the first application with the name (`some none` is the initial `-1`);
reading the name of a nil slot panics (`none`). -/
def AddOrUpdateApplication.scan (name : String) : List (Option Application) → Nat →
    Option (Option Nat)
  | [], _ => some none
  | none :: _, _ => none
  | some app :: rest, i =>
      if app.Name = name then some (some i) else AddOrUpdateApplication.scan name rest (i + 1)

/-- What `AddOrUpdateApplication` leaves: how it ends, the repository, the
calls it made, its steps on mutexes, and the mutexes that are locked
afterwards. -/
structure AddOrUpdateResult where
  ending : Ending
  repo : RepositoryConfig
  trace : List BuildEvent
  locks : List LockOp
  held : List Mutex
  deriving DecidableEq

/-- The part of `AddOrUpdateApplication` for a name that the scan did not meet:
the application is built first; only then the method spins on the mutex of the
repository and appends. -/
def AddOrUpdateApplication.add (env : BuildEnv) (held : List Mutex) (r : RepositoryConfig)
    (application : Application) : AddOrUpdateResult :=
  match NewApplication env application with
  | (Go.err e, t) =>
    { ending := Ending.returns (some e), repo := r, trace := t, locks := [], held := held }
  | (Go.panic, t) => { ending := Ending.panics, repo := r, trace := t, locks := [], held := held }
  | (Go.ok newApplication, t) =>
    if Mutex.repository r.Settings.URL ∈ held then
      { ending := Ending.spins, repo := r, trace := t
        locks := [LockOp.TryLock (Mutex.repository r.Settings.URL) false], held := held }
    else
      { ending := Ending.returns none
        repo := { r with Apps := r.Apps ++ [some newApplication] }
        trace := t
        locks := [LockOp.Spin (Mutex.repository r.Settings.URL),
          LockOp.Unlock (Mutex.repository r.Settings.URL)]
        held := held }

/-- The part of `AddOrUpdateApplication` for an application `existing` at
`appIndex` that differs from the declaration: the method spins on the mutex of
the repository and on the mutex of the existing application, removes the storage
directory and builds the application anew; the result of `NewApplication`, nil
on an error, is stored in the slot.  The two deferred calls unlock the mutexes
on every way out. -/
def AddOrUpdateApplication.rebuild (env : BuildEnv) (held : List Mutex) (r : RepositoryConfig)
    (application : Application) (appIndex : Nat) (existing : Application) : AddOrUpdateResult :=
  let repoMutex := Mutex.repository r.Settings.URL
  let appMutex := Mutex.application r.Settings.URL existing.Name
  let locks := [LockOp.Spin repoMutex, LockOp.Spin appMutex, LockOp.Unlock appMutex,
    LockOp.Unlock repoMutex]
  if repoMutex ∈ held then
    { ending := Ending.spins, repo := r, trace := []
      locks := [LockOp.TryLock repoMutex false], held := held }
  else if appMutex ∈ held then
    { ending := Ending.spins, repo := r, trace := []
      locks := [LockOp.Spin repoMutex, LockOp.TryLock appMutex false]
      held := repoMutex :: held }
  else
    match env.RemoveAll existing.storagePath with
    | some e =>
      { ending := Ending.returns (some (Err.ext e)), repo := r
        trace := [BuildEvent.RemoveAll existing.storagePath (some e)]
        locks := locks, held := held }
    | none =>
      match NewApplication env application with
      | (Go.ok newApplication, t) =>
        { ending := Ending.returns none
          repo := { r with Apps := r.Apps.set appIndex (some newApplication) }
          trace := BuildEvent.RemoveAll existing.storagePath none :: t
          locks := locks, held := held }
      | (Go.err e, t) =>
        { ending := Ending.returns (some e)
          repo := { r with Apps := r.Apps.set appIndex none }
          trace := BuildEvent.RemoveAll existing.storagePath none :: t
          locks := locks, held := held }
      | (Go.panic, t) =>
        { ending := Ending.panics, repo := r
          trace := BuildEvent.RemoveAll existing.storagePath none :: t
          locks := locks, held := held }

/-- The method `RepositoryConfig.AddOrUpdateApplication`, called while the
mutexes `held` are locked by others and stay so. -/
def RepositoryConfig.AddOrUpdateApplication (env : BuildEnv) (held : List Mutex)
    (r : RepositoryConfig) (application : Application) : AddOrUpdateResult :=
  match AddOrUpdateApplication.scan application.Name r.Apps 0 with
  | none => { ending := Ending.panics, repo := r, trace := [], locks := [], held := held }
  | some none => AddOrUpdateApplication.add env held r application
  | some (some appIndex) =>
    match r.Apps.get? appIndex with
    | some (some existing) =>
      if cmpEqual existing application then
        { ending := Ending.returns (some Err.NoErrAlreadyUpTodate), repo := r, trace := []
          locks := [], held := held }
      else AddOrUpdateApplication.rebuild env held r application appIndex existing
    | _ => { ending := Ending.panics, repo := r, trace := [], locks := [], held := held }

/-- Agreement of an existing application and a declaration on all declared
fields, as the specification words it: name, url, namespace, reference,
sparsePath, the Helm options and the value-files list. -/
def declaredEqual (x y : Application) : Prop :=
  x.Name = y.Name ∧ x.URL = y.URL ∧ x.Namespace = y.Namespace ∧ x.Reference = y.Reference ∧
    x.SparsePath = y.SparsePath ∧
    x.Helm.map (fun h => h.ActionOptions.map (fun o =>
        (o.CheckValuesEqual, o.ReInstallRelease, o.CreateNamespace, o.Atomic, o.IncludeCRDs))) =
      y.Helm.map (fun h => h.ActionOptions.map (fun o =>
        (o.CheckValuesEqual, o.ReInstallRelease, o.CreateNamespace, o.Atomic, o.IncludeCRDs))) ∧
    x.Helm.map (fun h => h.ValueFiles) = y.Helm.map (fun h => h.ValueFiles)

instance (x y : Application) : Decidable (declaredEqual x y) := by
  unfold declaredEqual
  infer_instance

/-! ## The Helm provider (`provider/helm.go`) -/

/-- The digits of `n` in base 16, lowest `width` places, highest first. -/
def hexDigits (n : Nat) : Nat → List Char
  | 0 => []
  | width + 1 => hexDigits (n / 16) width ++ [Nat.digitChar (n % 16)]

/-- The method `Hash.String`: the 20 bytes in 40 lowercase hexadecimal digits. -/
def Hash.String (h : Hash) : String := String.mk (hexDigits h.val 40)

/-- A `map[string]interface{}` of chart values: `none` is the nil map, and a
non-nil map is the sorted list of its flattened keys with their rendered
values, so that `reflect.DeepEqual` of two maps is equality here. -/
abbrev Values := Option (List (String × String))

/-- The parts of a Helm `chart.Chart` the provider reads or writes:
`Metadata.Description` and `Values`. -/
structure Chart where
  Description : String
  Values : Values
  deriving DecidableEq, Repr

/-- The parts of a Helm `release.Release` the provider reads: its name and its
chart. -/
structure Release where
  Name : String
  Chart : Chart
  deriving DecidableEq, Repr

/-- What the Helm library answers during one delivery: the errors of listing,
of `manager.Update`, of the three actions, and the results of loading the chart
and of the two calls of `NewHelmChartValues`. -/
structure HelmEnv where
  List : Option ExtErr
  Update : Option ExtErr
  Load : Except ExtErr Chart
  MergeValues : Except ExtErr Values
  MergeValuesAgain : Except ExtErr Values
  install : Option ExtErr
  upgrade : Option ExtErr
  uninstall : Option ExtErr

/-- One call of a Helm action (or of the loaders) with what it answered;
`install` and `upgrade` carry the chart and the values they were run with. -/
inductive HelmEvent where
  | List (err : Option ExtErr)
  | Update (err : Option ExtErr)
  | Load (err : Option ExtErr)
  | MergeValues (err : Option ExtErr)
  | install (releaseName : String) (chart : Chart) (values : Values) (err : Option ExtErr)
  | upgrade (releaseName : String) (chart : Chart) (values : Values) (err : Option ExtErr)
  | uninstall (releaseName : String) (err : Option ExtErr)
  deriving DecidableEq

/-- The event is one of the three actions that change the cluster. -/
def HelmEvent.mutating : HelmEvent → Bool
  | .install _ _ _ _ => true
  | .upgrade _ _ _ _ => true
  | .uninstall _ _ => true
  | _ => false

/-- The loop of `getCurrentRelease`: the first listed release with the name, or
nil. -/
def getCurrentRelease.scan (releaseName : String) : List Release → Option Release
  | [] => none
  | r :: rest => if r.Name = releaseName then some r else getCurrentRelease.scan releaseName rest

/-- What a Helm delivery returns, the release store it leaves (newest release
first), and the calls it made. -/
structure HelmResult where
  ret : Go Unit
  store : List Release
  trace : List HelmEvent
  deriving DecidableEq

/-- The method `HelmProvider.install`: on success Helm stores a release of the
chart under the release name; on failure the store is taken as left alone. -/
def HelmProvider.install (releaseName : String) (chart : Chart) (values : Values)
    (env : HelmEnv) (store : List Release) (t : List HelmEvent) : HelmResult :=
  match env.install with
  | some e =>
    { ret := Go.err (Err.ext e), store := store
      trace := t ++ [HelmEvent.install releaseName chart values (some e)] }
  | none =>
    { ret := Go.ok (), store := { Name := releaseName, Chart := chart } :: store
      trace := t ++ [HelmEvent.install releaseName chart values none] }

/-- The method `HelmProvider.upgrade`: on success Helm stores a new release of
the chart under the release name, which becomes the newest one. -/
def HelmProvider.upgrade (releaseName : String) (chart : Chart) (values : Values)
    (env : HelmEnv) (store : List Release) (t : List HelmEvent) : HelmResult :=
  match env.upgrade with
  | some e =>
    { ret := Go.err (Err.ext e), store := store
      trace := t ++ [HelmEvent.upgrade releaseName chart values (some e)] }
  | none =>
    { ret := Go.ok (), store := { Name := releaseName, Chart := chart } :: store
      trace := t ++ [HelmEvent.upgrade releaseName chart values none] }

/-- The release store after a successful `uninstall.Run` without history: no
release of the name is left. -/
def uninstalled (releaseName : String) (store : List Release) : List Release :=
  store.filter (fun r => r.Name ≠ releaseName)

/-- The method `HelmProvider.Delivery` of the provider `h` built for the release
name and reading the revision `appRevision` through its pointer.  The chart that
is installed or upgraded is the loaded chart with `Metadata.Description` set to
the revision string by `loadHelmChartWithValues`.  Reading an option through a
nil `ActionOptions` panics. -/
def HelmProvider.Delivery (h : HelmProvider) (releaseName : String) (appRevision : Hash)
    (env : HelmEnv) (store : List Release) : HelmResult :=
  match env.List with
  | some e => { ret := Go.err (Err.ext e), store := store, trace := [HelmEvent.List (some e)] }
  | none =>
    let currentRelease := getCurrentRelease.scan releaseName store
    match env.Update with
    | some e =>
      { ret := Go.err (Err.ext e), store := store
        trace := [HelmEvent.List none, HelmEvent.Update (some e)] }
    | none =>
      match env.Load with
      | .error e =>
        { ret := Go.err (Err.ext e), store := store
          trace := [HelmEvent.List none, HelmEvent.Update none, HelmEvent.Load (some e)] }
      | .ok loaded =>
        match env.MergeValues with
        | .error e =>
          { ret := Go.err (Err.ext e), store := store
            trace := [HelmEvent.List none, HelmEvent.Update none, HelmEvent.Load none,
              HelmEvent.MergeValues (some e)] }
        | .ok chartValues =>
          let chart : Chart := { loaded with Description := appRevision.String }
          let t := [HelmEvent.List none, HelmEvent.Update none, HelmEvent.Load none,
            HelmEvent.MergeValues none]
          match currentRelease with
          | none =>
            match h.ActionOptions with
            | none => { ret := Go.panic, store := store, trace := t }
            | some _ => HelmProvider.install releaseName chart chartValues env store t
          | some current =>
            match env.MergeValuesAgain with
            | .error e =>
              { ret := Go.err (Err.ext e), store := store
                trace := t ++ [HelmEvent.MergeValues (some e)] }
            | .ok chartValuesAgain =>
              let t1 := t ++ [HelmEvent.MergeValues none]
              if current.Chart.Description = appRevision.String then
                { ret := Go.ok (), store := store, trace := t1 }
              else
                match h.ActionOptions with
                | none => { ret := Go.panic, store := store, trace := t1 }
                | some options =>
                  if options.CheckValuesEqual ∧ current.Chart.Values = chartValuesAgain then
                    { ret := Go.ok (), store := store, trace := t1 }
                  else if options.ReInstallRelease then
                    match env.uninstall with
                    | some e =>
                      { ret := Go.err (Err.ext e), store := store
                        trace := t1 ++ [HelmEvent.uninstall releaseName (some e)] }
                    | none =>
                      HelmProvider.install releaseName chart chartValuesAgain env
                        (uninstalled releaseName store)
                        (t1 ++ [HelmEvent.uninstall releaseName none])
                  else
                    HelmProvider.upgrade releaseName chart chartValuesAgain env store t1

/-! ## Manifest files (`util/utils.go`, `NewUnstructuredResource`) -/

/-- Go's `strings.Split(s, sep)` for a separator of one character. -/
def strings.Split (s : String) (sep : Char) : List String :=
  (splitOn sep s.data).map String.mk

/-- Go's `unicode.ToLower`: a rune of ASCII is mapped by arithmetic on the
letters `A` to `Z`, a rune beyond ASCII through the case tables of the `unicode`
package, which are given as `lowerCase`. -/
def unicode.ToLower (lowerCase : Char → Char) (r : Char) : Char :=
  if r.val ≤ 0x7F then r.toLower else lowerCase r

/-- Go's `strings.ToLower`: the string mapped rune by rune through
`unicode.ToLower`. -/
def strings.ToLower (lowerCase : Char → Char) (s : String) : String :=
  String.mk (s.data.map (unicode.ToLower lowerCase))

/-- A `map[string]string` of labels as the list of its entries, each key once. -/
abbrev Labels := List (String × String)

/-- The index expression `m[k]` on a map of strings: the empty string for a
missing key. -/
def Labels.get (m : Labels) (k : String) : String := (List.lookup k m).getD ""

/-- The second result of `_, exist := m[k]`. -/
def Labels.exist (m : Labels) (k : String) : Bool := (List.lookup k m).isSome

/-- The assignment `m[k] = v`. -/
def Labels.set : Labels → String → String → Labels
  | [], k, v => [(k, v)]
  | (k1, v1) :: rest, k, v =>
    if k1 = k then (k, v) :: rest else (k1, v1) :: Labels.set rest k v

/-- An `unstructured.Unstructured` object as seen through the accessors the
provider uses (`GetAPIVersion`, `GetKind`, `GetName`, `GetLabels`,
`GetResourceVersion`), with the remaining content of the document. -/
structure Unstructured where
  apiVersion : String
  kind : String
  name : String
  labels : Labels := []
  resourceVersion : String := ""
  content : String := ""
  deriving DecidableEq, Repr

/-- The struct `Resource`. -/
structure Resource where
  group : String
  version : String
  resource : String
  filePath : String
  obj : Unstructured
  deriving DecidableEq, Repr

/-- What `yaml.Unmarshal` into a fresh map leaves: an error, a map without
entries, or a map with entries. -/
inductive Unmarshalled where
  | failed (e : ExtErr)
  | empty
  | document (obj : Unstructured)
  deriving DecidableEq

/-- One call of the walk function by `filepath.Walk`: the path of the entry, the
name `info.Name()` (its last element), and whether the walk passed an error. -/
structure WalkEntry where
  path : String
  name : String
  failed : Bool := false
  deriving DecidableEq, Repr

/-- The file system and the libraries as the provider uses them:
`filepath.Walk`, `os.ReadFile` (`none` on an error), `yaml.Unmarshal` of the
bytes read, `filepath.Join`, and the lower-case mapping of the `unicode` case
tables, which `strings.ToLower` consults for a rune beyond ASCII. -/
structure FsEnv where
  Walk : String → List WalkEntry
  ReadFile : String → Option String
  Unmarshal : String → Unmarshalled
  Join : String → String → String
  LowerCase : Char → Char

/-- The regular expression `^.+\.(yaml|yml)$` as a test: the name has no line
break, ends in `.yaml` or `.yml`, and has at least one character before that. -/
def rxResourceFile (name : String) : Bool :=
  !name.data.contains '\n' &&
    ((".yaml".data.isSuffixOf name.data && decide (5 < name.data.length)) ||
     (".yml".data.isSuffixOf name.data && decide (4 < name.data.length)))

/-- The function `util.FindFilesWithRegex` for an expression that compiles, given
as its `MatchString`: the names of the walked entries that match. -/
def FindFilesWithRegex (fs : FsEnv) (root : String) (rx : String → Bool) : List String :=
  ((fs.Walk root).filter (fun entry => !entry.failed && rx entry.name)).map (fun entry => entry.name)

/-- The function `util.GetFilesFullPath`. -/
def GetFilesFullPath (fs : FsEnv) (path : String) (fileNames : List String) : List String :=
  fileNames.map (fun file => fs.Join path file)

/-- The method `RawProvider.getResourceFiles` (its error is always nil). -/
def getResourceFiles (fs : FsEnv) (resourcePath : String) : List String :=
  GetFilesFullPath fs resourcePath (FindFilesWithRegex fs resourcePath rxResourceFile)

/-- The group and version taken from the pieces of `apiVersion`. -/
def groupVersionOf : List String → String × String
  | [] => ("", "")
  | [version] => ("", version)
  | group :: version :: _ => (group, version)

/-- The function `NewUnstructuredResource`: `some none` is the nil result; the
outer `none` is the panic on the nil pointer that `util.ReadFile` returns for a
file it cannot read. -/
def NewUnstructuredResource (fs : FsEnv) (path : String) : Option (Option Resource) :=
  match fs.ReadFile path with
  | none => none
  | some file =>
    match fs.Unmarshal file with
    | .failed _ => some none
    | .empty => some none
    | .document obj =>
      let apiVersionTokens := strings.Split obj.apiVersion '/'
      some (some { filePath := path
                   group := (groupVersionOf apiVersionTokens).1
                   version := (groupVersionOf apiVersionTokens).2
                   resource := strings.ToLower fs.LowerCase (obj.kind ++ "s")
                   obj := obj })

/-- The function `NewUnstructuredResources`; `none` is a panic of one of the
calls. -/
def NewUnstructuredResources (fs : FsEnv) : List String → Option (List Resource)
  | [] => some []
  | path :: rest =>
    match NewUnstructuredResource fs path with
    | none => none
    | some none => NewUnstructuredResources fs rest
    | some (some resource) =>
      match NewUnstructuredResources fs rest with
      | none => none
      | some resources => some (resource :: resources)

/-! ## The Raw provider (`provider/raw.go`) -/

/-- The type `schema.GroupVersionResource`. -/
structure GVR where
  Group : String
  Version : String
  Resource : String
  deriving DecidableEq, Repr

/-- The operators of `selection` that the provider uses. -/
inductive Operator where
  | Equals
  | NotEquals
  deriving DecidableEq, Repr

/-- A `labels.Requirement`. -/
structure Requirement where
  key : String
  operator : Operator
  values : List String
  deriving DecidableEq, Repr

/-- A `metav1.GroupVersionForDiscovery`. -/
structure GroupVersionForDiscovery where
  GroupVersion : String
  Version : String
  deriving DecidableEq, Repr

/-- A `metav1.APIGroup`. -/
structure APIGroup where
  Name : String
  Versions : List GroupVersionForDiscovery
  deriving DecidableEq, Repr

/-- The answer of a `Get`: the object, an error for which `IsNotFound` holds, or
another error. -/
inductive GetAnswer (α : Type) where
  | found (a : α)
  | notFound
  | failed (e : ExtErr)
  deriving DecidableEq

/-- What the cluster and the client libraries answer.  `validate` is the check
of the values inside `labels.NewRequirement`; `TryLock` is the answer of the
mutex when a delivery wants to start its prune. -/
structure ClusterEnv where
  NewForConfig : Option ExtErr
  NamespaceGet : String → GetAnswer Unit
  NamespaceCreate : String → Option ExtErr
  NewDynamic : Option ExtErr
  Get : GVR → String → String → GetAnswer Unstructured
  Create : GVR → String → Unstructured → Option ExtErr
  Update : GVR → String → Unstructured → Option ExtErr
  ServerGroups : Except ExtErr (List APIGroup)
  ServerResourcesForGroupVersion : String → Except ExtErr (List String)
  validate : List String → Option ExtErr
  TryLock : Bool
  Delete : GVR → String → String → Option ExtErr
  List : GVR → String → List Requirement → Except ExtErr (List Unstructured)

/-- One call to the cluster, with what it was given and, for the calls that
change the cluster, the error it answered. -/
inductive RawEvent where
  | Get (gvr : GVR) (ns name : String)
  | Create (gvr : GVR) (ns : String) (obj : Unstructured) (err : Option ExtErr)
  | Update (gvr : GVR) (ns : String) (obj : Unstructured) (err : Option ExtErr)
  | ServerGroups
  | ServerResourcesForGroupVersion (groupVersion : String)
  | List (gvr : GVR) (ns : String) (selector : List Requirement)
  | Delete (gvr : GVR) (ns name : String) (err : Option ExtErr)
  deriving DecidableEq

/-- The object handed to a `Create` or an `Update`. -/
def RawEvent.sent : RawEvent → Option Unstructured
  | .Create _ _ obj _ => some obj
  | .Update _ _ obj _ => some obj
  | _ => none

/-- The error answered to a `Create` or an `Update`. -/
def RawEvent.applyError : RawEvent → Option ExtErr
  | .Create _ _ _ err => err
  | .Update _ _ _ err => err
  | _ => none

/-- The struct `RawProvider`: `appRevision` is the value behind the pointer at
the time of a call. -/
structure RawProvider where
  appName : String
  resourcePath : String
  ns : String
  appRevision : Hash
  resources : List Resource
  labels : Labels
  deriving DecidableEq, Repr

/-- The group, version and resource of a record. -/
def Resource.gvr (r : Resource) : GVR :=
  { Group := r.group, Version := r.version, Resource := r.resource }

/-- The method `Resource.Delivery`: the record afterwards (its object carries
the labels of the provider) and the calls made. -/
def Resource.Delivery (r : Resource) (p : RawProvider) (env : ClusterEnv) :
    Resource × List RawEvent :=
  let labelled : Unstructured := { r.obj with labels := p.labels }
  let get := RawEvent.Get r.gvr p.ns r.obj.name
  match env.Get r.gvr p.ns r.obj.name with
  | .notFound =>
    ({ r with obj := labelled },
      [get, RawEvent.Create r.gvr p.ns labelled (env.Create r.gvr p.ns labelled)])
  | .failed _ => ({ r with obj := labelled }, [get])
  | .found remoteResource =>
    if !Labels.exist remoteResource.labels "dummy.cd/revision" then
      ({ r with obj := labelled }, [get])
    else if Labels.get p.labels "dummy.cd/revision" ≠
        Labels.get remoteResource.labels "dummy.cd/revision" then
      let versioned : Unstructured :=
        { labelled with resourceVersion := remoteResource.resourceVersion }
      ({ r with obj := versioned },
        [get, RawEvent.Update r.gvr p.ns versioned (env.Update r.gvr p.ns versioned)])
    else ({ r with obj := labelled }, [get])

/-- The function `labels.NewRequirement`, whose check of the values is answered
by the environment. -/
def NewRequirement (env : ClusterEnv) (key : String) (op : Operator) (vals : List String) :
    Except ExtErr Requirement :=
  match env.validate vals with
  | some e => .error e
  | none => .ok { key := key, operator := op, values := vals }

/-- The task that `cleanResources` starts for one resource type: it lists the
objects that match the selector and deletes each of them; when the list fails
nothing is deleted. -/
def cleanResources.task (p : RawProvider) (env : ClusterEnv) (selector : List Requirement)
    (gvr : GVR) : List RawEvent :=
  RawEvent.List gvr p.ns selector ::
    match env.List gvr p.ns selector with
    | .error _ => []
    | .ok items =>
      items.map (fun remoteResource =>
        RawEvent.Delete gvr p.ns remoteResource.name (env.Delete gvr p.ns remoteResource.name))

/-- The body of the loop of `cleanResources` over the versions of one group: a
version whose resources cannot be discovered is skipped. -/
def cleanResources.version (p : RawProvider) (env : ClusterEnv) (selector : List Requirement)
    (apiGroupName : String) (apiGroupVersion : GroupVersionForDiscovery) : List RawEvent :=
  RawEvent.ServerResourcesForGroupVersion apiGroupVersion.GroupVersion ::
    match env.ServerResourcesForGroupVersion apiGroupVersion.GroupVersion with
    | .error _ => []
    | .ok apiResources =>
      (apiResources.map (fun apiResourceName =>
        cleanResources.task p env selector
          { Group := apiGroupName, Version := apiGroupVersion.Version,
            Resource := apiResourceName })).flatten

/-- The label selector of `cleanResources`, or the error of a requirement. -/
def cleanResources.selector (p : RawProvider) (env : ClusterEnv) (cleanAll : Bool) :
    Except ExtErr (List Requirement) :=
  match NewRequirement env "dummy.cd/app" Operator.Equals [p.appName] with
  | .error e => .error e
  | .ok labelAppNameRequirement =>
    if !cleanAll then
      match NewRequirement env "dummy.cd/revision" Operator.NotEquals [p.appRevision.String] with
      | .error e => .error e
      | .ok labelAppRevisionRequirement =>
        .ok [labelAppNameRequirement, labelAppRevisionRequirement]
    else .ok [labelAppNameRequirement]

/-- The method `RawProvider.cleanResources`: its error and the calls made, the
tasks taken in the order they are started. -/
def RawProvider.cleanResources (p : RawProvider) (env : ClusterEnv) (cleanAll : Bool) :
    Option Err × List RawEvent :=
  if p.appRevision.IsZero then (none, [])
  else
    match env.ServerGroups with
    | .error e => (some (Err.ext e), [RawEvent.ServerGroups])
    | .ok apiGroupList =>
      match cleanResources.selector p env cleanAll with
      | .error e => (some (Err.ext e), [RawEvent.ServerGroups])
      | .ok labelsSelector =>
        (none, RawEvent.ServerGroups ::
          (apiGroupList.map (fun apiGroup =>
            (apiGroup.Versions.map (fun apiGroupVersion =>
              cleanResources.version p env labelsSelector apiGroup.Name apiGroupVersion)).flatten)).flatten)

/-- The method `RawProvider.Uninstall`, once the mutex is taken. -/
def RawProvider.Uninstall (p : RawProvider) (env : ClusterEnv) : Option Err × List RawEvent :=
  p.cleanResources env true

/-- The loop of `RawProvider.Delivery` over the records, one task after the
other: the records afterwards and the calls made. -/
def RawProvider.applyAll (p : RawProvider) (env : ClusterEnv) :
    List Resource → List Resource × List RawEvent
  | [] => ([], [])
  | resource :: rest =>
    let one := resource.Delivery p env
    let others := RawProvider.applyAll p env rest
    (one.1 :: others.1, one.2 ++ others.2)

/-- What a Raw delivery returns, the provider it leaves, the calls of the apply
tasks, and the calls of the prune when one was started (`none` when the mutex
was held). -/
structure RawResult where
  ret : Go Unit
  provider : RawProvider
  applied : List RawEvent
  pruned : Option (List RawEvent)
  deriving DecidableEq

/-- The method `RawProvider.Delivery`. -/
def RawProvider.Delivery (p : RawProvider) (fs : FsEnv) (env : ClusterEnv) : RawResult :=
  let reread : Option (List Resource) :=
    if Labels.exist p.labels "dummy.cd/revision" then
      NewUnstructuredResources fs (getResourceFiles fs p.resourcePath)
    else some p.resources
  match reread with
  | none => { ret := Go.panic, provider := p, applied := [], pruned := none }
  | some resources =>
    let p1 : RawProvider :=
      { p with resources := resources
               labels := Labels.set p.labels "dummy.cd/revision" p.appRevision.String }
    let done := RawProvider.applyAll p1 env p1.resources
    let p2 : RawProvider := { p1 with resources := done.1 }
    { ret := Go.ok ()
      provider := p2
      applied := done.2
      pruned := if env.TryLock then some (p2.cleanResources env false).2 else none }

/-- The function `NewRawProvider`. -/
def NewRawProvider (fs : FsEnv) (env : ClusterEnv) (appName resourcePath ns : String)
    (appRevision : Hash) : Go RawProvider :=
  let target := if len ns = 0 then "default" else ns
  match env.NewForConfig with
  | some e => Go.err (Err.ext e)
  | none =>
    let namespaceReady : Option ExtErr :=
      match env.NamespaceGet target with
      | .found _ => none
      | .notFound => env.NamespaceCreate target
      | .failed e => some e
    match namespaceReady with
    | some e => Go.err (Err.ext e)
    | none =>
      match env.NewDynamic with
      | some e => Go.err (Err.ext e)
      | none =>
        let resourceFiles := getResourceFiles fs resourcePath
        if resourceFiles.length = 0 then
          Go.err (Err.ext (ExtErr.other "no one resource file found"))
        else
          match NewUnstructuredResources fs resourceFiles with
          | none => Go.panic
          | some resources =>
            Go.ok { appName := appName, resourcePath := resourcePath, ns := target
                    appRevision := appRevision, resources := resources
                    labels := [("dummy.cd/app", appName)] }

/-- The event is a call that changes the cluster. -/
def RawEvent.mutating : RawEvent → Bool
  | .Create _ _ _ _ => true
  | .Update _ _ _ _ => true
  | .Delete _ _ _ _ => true
  | _ => false

/-- A run of deliveries of one provider: before each call the revision behind
the pointer is the given one; a panic ends the run. -/
def RawProvider.deliveries (p : RawProvider) :
    List (Hash × FsEnv × ClusterEnv) → List (Hash × RawResult)
  | [] => []
  | (revision, fs, env) :: rest =>
    let r := ({ p with appRevision := revision } : RawProvider).Delivery fs env
    if r.ret = Go.panic then [(revision, r)]
    else (revision, r) :: RawProvider.deliveries r.provider rest

/-- The labels of a provider built by `NewRawProvider` and taken through
deliveries: the application label alone, or followed by a revision label. -/
def labelsOf (appName : String) (labels : Labels) : Prop :=
  labels = [("dummy.cd/app", appName)] ∨
    ∃ revision, labels = [("dummy.cd/app", appName), ("dummy.cd/revision", revision)]

/-- The requirement `dummy.cd/app == <app>`. -/
def appRequirement (appName : String) : Requirement :=
  { key := "dummy.cd/app", operator := Operator.Equals, values := [appName] }

/-- The requirement `dummy.cd/revision != <revision>`. -/
def revisionRequirement (revision : Hash) : Requirement :=
  { key := "dummy.cd/revision", operator := Operator.NotEquals, values := [revision.String] }

/-! ## Removing an application (`DeleteApplication`) -/

/-- The loop of `DeleteApplication` over `r.Apps` from index `i` on: it has no
`break`, so every match overwrites `appIndex` (`some none` is the initial `-1`);
reading the name of a nil slot panics (`none`). -/
def DeleteApplication.scan (name : String) :
    List (Option Application) → Nat → Option Nat → Option (Option Nat)
  | [], _, appIndex => some appIndex
  | none :: _, _, _ => none
  | some app :: rest, i, appIndex =>
      DeleteApplication.scan name rest (i + 1) (if app.Name = name then some i else appIndex)

/-- What `DeleteApplication` leaves: how it ends, the repository, the calls it
made, its steps on mutexes, and the mutexes that are locked afterwards. -/
structure DeleteApplicationResult where
  ending : Ending
  repo : RepositoryConfig
  trace : List TeardownEvent
  locks : List LockOp
  held : List Mutex
  deriving DecidableEq, Repr

/-- The method `RepositoryConfig.DeleteApplication`, called while the mutexes
`held` are locked by others and stay so.  The two deferred calls are `TryLock`,
not `Unlock`: they run last, in reverse order, on mutexes that are then held, so
they answer false and release nothing.  The error of the provider's `Uninstall`
is only logged. -/
def RepositoryConfig.DeleteApplication (env : TeardownEnv) (held : List Mutex)
    (r : RepositoryConfig) (name : String) : DeleteApplicationResult :=
  match DeleteApplication.scan name r.Apps 0 none with
  | none => { ending := Ending.panics, repo := r, trace := [], locks := [], held := held }
  | some none =>
    { ending := Ending.returns none, repo := r, trace := [], locks := [], held := held }
  | some (some appIndex) =>
    match r.Apps.get? appIndex with
    | some (some application) =>
      let repoMutex := Mutex.repository r.Settings.URL
      let appMutex := Mutex.application r.Settings.URL application.Name
      let providerMutex := Mutex.provider r.Settings.URL application.Name
      if repoMutex ∈ held then
        { ending := Ending.spins, repo := r, trace := []
          locks := [LockOp.TryLock repoMutex false], held := held }
      else if appMutex ∈ held then
        { ending := Ending.spins, repo := r, trace := []
          locks := [LockOp.Spin repoMutex, LockOp.TryLock appMutex false]
          held := repoMutex :: held }
      else
        let deferred := [LockOp.TryLock appMutex false, LockOp.TryLock repoMutex false]
        match application.deliveryProvider with
        | none =>
          { ending := Ending.panics, repo := r, trace := []
            locks := [LockOp.Spin repoMutex, LockOp.Spin appMutex] ++ deferred
            held := appMutex :: repoMutex :: held }
        | some kind =>
          if kind = ProviderKind.raw ∧ providerMutex ∈ held then
            { ending := Ending.spins, repo := r, trace := []
              locks := [LockOp.Spin repoMutex, LockOp.Spin appMutex,
                LockOp.TryLock providerMutex false]
              held := appMutex :: repoMutex :: held }
          else
            { ending := Ending.returns none
              repo := { r with Apps := swapPop r.Apps appIndex }
              trace := [TeardownEvent.Uninstall application.Name (env.Uninstall application)]
              locks := [LockOp.Spin repoMutex, LockOp.Spin appMutex] ++
                providerUninstallLocks r.Settings.URL application.Name (some kind) ++ deferred
              held := appMutex :: repoMutex :: held }
    | _ => { ending := Ending.panics, repo := r, trace := [], locks := [], held := held }

/-! ## Sequences of calls on the applications of a repository -/

/-- One call on the applications of a repository, with the answers of its
environment and the mutexes that others hold. -/
inductive AppCall where
  | addOrUpdate (env : BuildEnv) (held : List Mutex) (application : Application)
  | delete (env : TeardownEnv) (held : List Mutex) (name : String)

/-- The call came back to its caller. -/
def Ending.returned : Ending → Bool
  | .returns _ => true
  | _ => false

/-- The repository after one call, and whether the process goes on: it does not
after a panic or when the call never returns. -/
def AppCall.run (r : RepositoryConfig) : AppCall → RepositoryConfig × Bool
  | .addOrUpdate env held application =>
    ((r.AddOrUpdateApplication env held application).repo,
      (r.AddOrUpdateApplication env held application).ending.returned)
  | .delete env held name =>
    ((r.DeleteApplication env held name).repo, (r.DeleteApplication env held name).ending.returned)

/-- The repository after a sequence of calls, made one after the other for as
long as the process goes on. -/
def runAppCalls (r : RepositoryConfig) : List AppCall → RepositoryConfig
  | [] => r
  | call :: rest => if (call.run r).2 then runAppCalls (call.run r).1 rest else (call.run r).1

/-- No two applications in the slots share a name. -/
def distinctNames (apps : List (Option Application)) : Prop :=
  apps.Pairwise (fun x y => ∀ a b, x = some a → y = some b → a.Name ≠ b.Name)

/-- No two applications in the slots share a storage directory. -/
def distinctStorage (apps : List (Option Application)) : Prop :=
  apps.Pairwise (fun x y => ∀ a b, x = some a → y = some b → a.storagePath ≠ b.storagePath)

/-- The call builds its application under the workspace `w`, and the declared
name is one element of a path. -/
def AppCall.uses (w : String) : AppCall → Prop
  | .addOrUpdate env _ application => env.Workspace = w ∧ path.isElement application.Name
  | .delete _ _ _ => True

/-- Every application in the slots has a name that is one element of a path,
and its storage directory is the workspace `w` joined with that name. -/
def storageUnder (w : String) (apps : List (Option Application)) : Prop :=
  ∀ b, some b ∈ apps → path.isElement b.Name ∧ b.storagePath = path.Join w b.Name

/-! ## The scheduler tick (`RepositoryHandler.Handle`) -/

/-- The state of one tick as the scheduler walks the registry: whether a panic
has ended it, the wait-group counter, the values the counter took after each
`Add` and `Done`, the applications whose task was started, the busy
applications met, the steps on mutexes, and the mutexes that are locked. -/
structure TickState where
  panicked : Bool := false
  counter : Int := 0
  counters : List Int := []
  dispatched : List (String × String) := []
  busy : List (String × String) := []
  locks : List LockOp := []
  held : List Mutex := []
  deriving DecidableEq, Repr

/-- The call `wg.Add(delta)` (`wg.Done()` is `wg.Add(-1)`): a counter that would
drop below zero panics. -/
def TickState.Add (st : TickState) (delta : Int) : TickState :=
  { st with panicked := decide (st.counter + delta < 0)
            counter := st.counter + delta
            counters := st.counters ++ [st.counter + delta] }

/-- The loop of the tick over the applications of a repository it has locked.  A
free application mutex is taken, the counter is raised and the task is started
with the mutex; for a busy one the source calls `wg.Done()` although no task was
added.  Reading the mutex of a nil slot panics. -/
def tickApps (url : String) : List (Option Application) → TickState → TickState
  | [], st => st
  | none :: _, st => { st with panicked := true }
  | some a :: rest, st =>
    if Mutex.application url a.Name ∈ st.held then
      let st1 : TickState :=
        ({ st with busy := st.busy ++ [(url, a.Name)]
                   locks := st.locks ++ [LockOp.TryLock (Mutex.application url a.Name) false] }
          : TickState).Add (-1)
      if st1.panicked then st1 else tickApps url rest st1
    else
      tickApps url rest
        (({ st with dispatched := st.dispatched ++ [(url, a.Name)]
                    locks := st.locks ++ [LockOp.TryLock (Mutex.application url a.Name) true,
                      LockOp.handOver (Mutex.application url a.Name)]
                    held := Mutex.application url a.Name :: st.held } : TickState).Add 1)

/-- The loop of the tick over the repositories: a busy repository is skipped, a
free one is locked, walked and unlocked. -/
def tickRepos : List RepositoryConfig → TickState → TickState
  | [], st => st
  | r :: rest, st =>
    if Mutex.repository r.Settings.URL ∈ st.held then
      tickRepos rest
        { st with locks := st.locks ++ [LockOp.TryLock (Mutex.repository r.Settings.URL) false] }
    else
      let st1 := tickApps r.Settings.URL r.Apps
        { st with locks := st.locks ++ [LockOp.TryLock (Mutex.repository r.Settings.URL) true]
                  held := Mutex.repository r.Settings.URL :: st.held }
      if st1.panicked then st1
      else
        tickRepos rest
          { st1 with locks := st1.locks ++ [LockOp.Unlock (Mutex.repository r.Settings.URL)]
                     held := st1.held.erase (Mutex.repository r.Settings.URL) }

/-- The end of the started tasks, awaited by `wg.Wait()`: every task calls
`wg.Done()` and unlocks the mutex of its application. -/
def tickJoin : List (String × String) → TickState → TickState
  | [], st => st
  | (url, name) :: rest, st =>
    let st1 : TickState :=
      ({ st with held := st.held.erase (Mutex.application url name) } : TickState).Add (-1)
    if st1.panicked then st1 else tickJoin rest st1

/-- One tick of `Handle`, with the wait group at zero and the mutexes `held`
locked: a busy registry skips the tick; otherwise the registry is locked, the
repositories are walked, the tasks are joined and the registry is unlocked. -/
def RepositoryHandler.tick (h : RepositoryHandler) (held : List Mutex) : TickState :=
  if Mutex.registry ∈ held then
    { held := held, locks := [LockOp.TryLock Mutex.registry false] }
  else
    let walked := tickRepos h.Repos
      { held := Mutex.registry :: held, locks := [LockOp.TryLock Mutex.registry true] }
    if walked.panicked then walked
    else
      let joined := tickJoin walked.dispatched walked
      if joined.panicked then joined
      else
        { joined with locks := joined.locks ++ [LockOp.Unlock Mutex.registry]
                      held := joined.held.erase Mutex.registry }

/-- The counter of a tick that has not panicked is the number of tasks started
less the number of busy applications met, and is not negative. -/
def TickState.balanced (st : TickState) : Prop :=
  st.panicked = false →
    st.counter = (st.dispatched.length : Int) - (st.busy.length : Int) ∧ 0 ≤ st.counter

/-! ## Sample data -/

/-- The application of scenario S1, not yet delivered. -/
def appS1 : Application :=
  { Name := "a", Namespace := "ns", URL := "ssh://git@h/r.git", Reference := "main"
    SparsePath := "deploy" }

/-- A pass in which every Git step succeeds, the two references agree, the log
yields the single revision `7`, and `Delivery` answers `delivery`. -/
def envHead (delivery : Option Err) : LifeCycleEnv :=
  { Fetch := none
    localReference := .ok ⟨1⟩
    remoteReference := .ok ⟨1⟩
    worktree := none
    ResetSparsely := none
    checkout := none
    Pull := none
    worktreeAgain := none
    checkoutAgain := none
    Log := fun _ => .ok [⟨7⟩]
    Delivery := fun _ => delivery }

/-- A pass whose fetch answers `fetch` and whose later steps, if reached, go as in
`envHead`. -/
def envFetch (fetch : Option ExtErr) : LifeCycleEnv :=
  { envHead none with Fetch := fetch }

/-- The owner of the sample applications. -/
def repoS1 : RepositoryConfig :=
  { Name := "r"
    Settings := { URL := "ssh://git@h/r.git", PrivateKeySecret := "k", InsecureIgnoreHostKey := false } }

/-- Helm options with everything off but `Atomic`, which is as given. -/
def helmOptions (atomic : Bool) : HelmProvider :=
  { ActionOptions := some { CheckValuesEqual := false, ReInstallRelease := false,
                            CreateNamespace := false, Atomic := atomic, IncludeCRDs := false }
    ValueFiles := [] }

/-- The declaration of scenario S1 with Helm options, as the server builds it. -/
def declS1 (atomic : Bool) : Application :=
  { appS1 with RepositoryConfig := some "ssh://git@h/r.git", Helm := some (helmOptions atomic) }

/-- The declaration `declS1 false` after it was built as a raw application. -/
def storedS1 : Application :=
  { declS1 false with storagePath := "/root/.dummycd/storage/a"
                      handledPath := "/root/.dummycd/storage/a/deploy"
                      deliveryProvider := some ProviderKind.raw }

/-- The repository of scenario S1 holding the built application. -/
def repoWithS1 : RepositoryConfig := { repoS1 with Apps := [some storedS1] }

/-- A build environment in which every call succeeds and the directory is not a
chart. -/
def envBuild : BuildEnv :=
  { Workspace := "/root/.dummycd/storage"
    NewGitRepository := fun _ => none
    IsChartDir := fun _ => some (ExtErr.other "Chart.yaml file is missing")
    NewRawProvider := fun _ _ _ => Go.ok ()
    NewHelmProvider := fun _ _ _ helm => .ok helm
    RemoveAll := fun _ => none }

/-- A repository named `r` at the URL `ssh://git@h/a.git`. -/
def repoA : RepositoryConfig :=
  { Name := "r"
    Settings := { URL := "ssh://git@h/a.git", PrivateKeySecret := "k", InsecureIgnoreHostKey := false } }

/-- A second repository named `r`, at the URL `ssh://git@h/b.git`. -/
def repoB : RepositoryConfig :=
  { Name := "r"
    Settings := { URL := "ssh://git@h/b.git", PrivateKeySecret := "k", InsecureIgnoreHostKey := false } }

/-- A registry of two repositories with the same name and different URLs. -/
def twoNamesakes : RepositoryHandler := { Repos := [repoA, repoB] }

/-- Helm options with everything off but `CheckValuesEqual` and
`ReInstallRelease`, which are as given. -/
def helmWith (checkValuesEqual reInstallRelease : Bool) : HelmProvider :=
  { ActionOptions := some { CheckValuesEqual := checkValuesEqual
                            ReInstallRelease := reInstallRelease
                            CreateNamespace := false, Atomic := false, IncludeCRDs := false
                            actionTimeout := 360 }
    ValueFiles := [] }

/-- A release of the application `a` delivered at an older revision, with
values `replicas: 1`. -/
def releaseOld : Release :=
  { Name := "a", Chart := { Description := "old", Values := some [("replicas", "1")] } }

/-- A Helm environment in which every call succeeds; the chart on disk has the
values `replicas: 1` and the merged value files are `merged`. -/
def helmEnvOk (merged : Values) : HelmEnv :=
  { List := none
    Update := none
    Load := .ok { Description := "", Values := some [("replicas", "1")] }
    MergeValues := .ok merged
    MergeValuesAgain := .ok merged
    install := none
    upgrade := none
    uninstall := none }

/-- The manifest of the config map `cm-a`. -/
def cmA : Unstructured := { apiVersion := "v1", kind := "ConfigMap", name := "cm-a" }

/-- The record of the manifest `cm-a.yaml`. -/
def cmARecord : Resource :=
  { group := "", version := "v1", resource := "configmaps"
    filePath := "/root/.dummycd/storage/a/deploy/cm-a.yaml", obj := cmA }

/-- The Raw provider of the application `a` at revision `revision`, before its
first delivery in this process. -/
def rawS5 (revision : Hash) : RawProvider :=
  { appName := "a", resourcePath := "/root/.dummycd/storage/a/deploy", ns := "ns"
    appRevision := revision, resources := [cmARecord], labels := [("dummy.cd/app", "a")] }

/-- A cluster that holds none of the manifests (every `Get` is not found) and one
labelled config map `cm-b` left from an earlier revision; `Create` answers
`create`, everything else succeeds. -/
def clusterS5 (create : Option ExtErr) : ClusterEnv :=
  { NewForConfig := none
    NamespaceGet := fun _ => .found ()
    NamespaceCreate := fun _ => none
    NewDynamic := none
    Get := fun _ _ _ => .notFound
    Create := fun _ _ _ => create
    Update := fun _ _ _ => none
    ServerGroups := .ok [{ Name := "", Versions := [{ GroupVersion := "v1", Version := "v1" }] }]
    ServerResourcesForGroupVersion := fun _ => .ok ["configmaps"]
    validate := fun _ => none
    TryLock := true
    Delete := fun _ _ _ => none
    List := fun _ _ _ =>
      .ok [{ apiVersion := "v1", kind := "ConfigMap", name := "cm-b"
             labels := [("dummy.cd/app", "a"), ("dummy.cd/revision", "old")] }] }

/-- The lower-case mapping of the Unicode case tables on the letters of
Latin-1, `À` to `Þ` without the sign `×`; the samples hold no other rune beyond
ASCII. -/
def latin1Lower (r : Char) : Char :=
  if 0xC0 ≤ r.toNat ∧ r.toNat ≤ 0xDE ∧ r.toNat ≠ 0xD7 then Char.ofNat (r.toNat + 32) else r

/-- A directory `deploy` with the single manifest `sub/cm.yaml` in a
subdirectory. -/
def fsNested : FsEnv :=
  { Walk := fun _ =>
      [{ path := "deploy", name := "deploy" }, { path := "deploy/sub", name := "sub" },
       { path := "deploy/sub/cm.yaml", name := "cm.yaml" }]
    ReadFile := fun path => if path = "deploy/sub/cm.yaml" then some "kind: ConfigMap" else none
    Unmarshal := fun _ => .document cmA
    Join := path.Join
    LowerCase := latin1Lower }

/-- A directory `deploy` with the single file `empty.yaml`, which holds an empty
document. -/
def fsEmptyDocument : FsEnv :=
  { Walk := fun _ =>
      [{ path := "deploy", name := "deploy" }, { path := "deploy/empty.yaml", name := "empty.yaml" }]
    ReadFile := fun _ => some ""
    Unmarshal := fun _ => .empty
    Join := path.Join
    LowerCase := latin1Lower }

/-- A directory `deploy` with the single manifest `cm-a.yaml` at its top. -/
def fsFlat : FsEnv :=
  { Walk := fun _ =>
      [{ path := "deploy", name := "deploy" }, { path := "deploy/cm-a.yaml", name := "cm-a.yaml" }]
    ReadFile := fun _ => some "kind: ConfigMap"
    Unmarshal := fun _ => .document cmA
    Join := path.Join
    LowerCase := latin1Lower }

/-- The provider that `NewRawProvider` builds over `fsFlat` for the application
`a`. -/
def rawFlat : RawProvider :=
  { appName := "a", resourcePath := "deploy", ns := "ns", appRevision := ZeroHash
    resources := [{ group := "", version := "v1", resource := "configmaps"
                    filePath := "deploy/cm-a.yaml", obj := cmA }]
    labels := [("dummy.cd/app", "a")] }

/-- The manifest `cm-a` with the two labels of revision `7`. -/
def cmALabelled : Unstructured :=
  { cmA with labels := [("dummy.cd/app", "a"), ("dummy.cd/revision", Hash.String ⟨7⟩)] }

/-- The manifest of the deployment `web`. -/
def webDeployment : Unstructured := { apiVersion := "apps/v1", kind := "Deployment", name := "web" }

/-- A directory `deploy` with the single manifest `web.yaml` at its top. -/
def fsWeb : FsEnv :=
  { Walk := fun _ =>
      [{ path := "deploy", name := "deploy" }, { path := "deploy/web.yaml", name := "web.yaml" }]
    ReadFile := fun _ => some "kind: Deployment"
    Unmarshal := fun _ => .document webDeployment
    Join := path.Join
    LowerCase := latin1Lower }

/-- The manifest of a custom resource whose kind starts with a letter beyond
ASCII. -/
def unitManifest : Unstructured := { apiVersion := "example.org/v1", kind := "Ünit", name := "u" }

/-- A directory `deploy` with the single manifest `unit.yaml` at its top. -/
def fsUnit : FsEnv :=
  { Walk := fun _ =>
      [{ path := "deploy", name := "deploy" }, { path := "deploy/unit.yaml", name := "unit.yaml" }]
    ReadFile := fun _ => some "kind: Ünit"
    Unmarshal := fun _ => .document unitManifest
    Join := path.Join
    LowerCase := latin1Lower }

/-- A teardown in which the provider's `Uninstall` and `os.RemoveAll` succeed. -/
def teardownOk : TeardownEnv := { Uninstall := fun _ => none, RemoveAll := fun _ => none }

/-- A build environment in which cloning the repository fails. -/
def envCloneFails : BuildEnv :=
  { envBuild with NewGitRepository := fun _ => some (ExtErr.other "authentication required") }

/-- The manifest `cm-a` with a label of its own. -/
def cmAOwnLabel : Unstructured := { cmA with labels := [("team", "payments")] }

/-- A directory `deploy` with the single manifest `cm-a.yaml`, which declares the
label `team`. -/
def fsOwnLabel : FsEnv := { fsFlat with Unmarshal := fun _ => .document cmAOwnLabel }

/-- The provider that `NewRawProvider` builds over `fsOwnLabel` for the
application `a`. -/
def rawOwnLabel : RawProvider :=
  { rawFlat with resources := [{ group := "", version := "v1", resource := "configmaps"
                                 filePath := "deploy/cm-a.yaml", obj := cmAOwnLabel }] }

/-- A second repository, at another URL. -/
def repoS2 : RepositoryConfig :=
  { Name := "r2"
    Settings := { URL := "ssh://git@h/other.git", PrivateKeySecret := "k", InsecureIgnoreHostKey := false } }

/-- A declaration of an application named `a`, like that of scenario S1, in the
second repository. -/
def declS2 : Application :=
  { declS1 false with URL := "ssh://git@h/other.git", RepositoryConfig := some "ssh://git@h/other.git" }

/-- The repository of scenario S1 after a rebuild of `a` that failed: the slot
of `a` holds nil. -/
def repoNilSlot : RepositoryConfig := { repoS1 with Apps := [none] }

/-! ## Registry: lemmas -/

theorem AddRepository.scan_true_iff (URL : String) (l : List RepositoryConfig) :
    AddRepository.scan URL l = true ↔ ∃ x ∈ l, x.Settings.URL = URL := by
  induction l with
  | nil => simp [AddRepository.scan]
  | cons r rest ih =>
    unfold AddRepository.scan
    by_cases hr : r.Settings.URL = URL
    · simp [hr]
    · simp [hr, ih]

theorem GetRepositoryConfig.scan_none_iff (URL : String) (l : List RepositoryConfig) :
    GetRepositoryConfig.scan URL l = none ↔ ∀ x ∈ l, x.Settings.URL ≠ URL := by
  induction l with
  | nil => simp [GetRepositoryConfig.scan]
  | cons r rest ih =>
    unfold GetRepositoryConfig.scan
    by_cases hr : r.Settings.URL = URL
    · simp [hr]
    · simp [hr, ih]

/-- The scan of `DeleteRepository` either meets no entry with the name and keeps
the index it started with, or ends on the position of the last such entry. -/
theorem DeleteRepository.scan_spec (name : String) (l : List RepositoryConfig) :
    ∀ (i : Nat) (acc : Option Nat),
      ((∀ x ∈ l, x.Name ≠ name) ∧ DeleteRepository.scan name l i acc = acc) ∨
      ∃ pre r post, l = pre ++ r :: post ∧ r.Name = name ∧ (∀ x ∈ post, x.Name ≠ name) ∧
        DeleteRepository.scan name l i acc = some (i + pre.length) := by
  induction l with
  | nil => intro i acc; left; simp [DeleteRepository.scan]
  | cons repo rest ih =>
    intro i acc
    rcases ih (i + 1) (if repo.Name = name then some i else acc) with ⟨hno, hs⟩ | ⟨pre, r, post, hl, hr, hpost, hs⟩
    · by_cases hrepo : repo.Name = name
      · right
        refine ⟨[], repo, rest, rfl, hrepo, hno, ?_⟩
        rw [if_pos hrepo] at hs
        simp [DeleteRepository.scan, hs, hrepo]
      · left
        refine ⟨?_, ?_⟩
        · intro x hx
          rcases List.mem_cons.1 hx with rfl | hx
          · exact hrepo
          · exact hno x hx
        · rw [if_neg hrepo] at hs
          simp [DeleteRepository.scan, hs, hrepo]
    · right
      refine ⟨repo :: pre, r, post, by simp [hl], hr, hpost, ?_⟩
      simp only [DeleteRepository.scan, hs, List.length_cons]
      congr 1
      omega

/-- Swap-and-pop at position `pre.length` removes exactly the entry at that
position, up to the order of the others. -/
theorem swapPop_perm {α : Type} (pre : List α) (r : α) (post : List α) :
    (swapPop (pre ++ r :: post) pre.length).Perm (pre ++ post) := by
  rcases List.eq_nil_or_concat post with rfl | ⟨post1, b, hpost⟩
  · simp [swapPop]
  · rw [List.concat_eq_append] at hpost
    subst hpost
    have h1 : (pre ++ r :: (post1 ++ [b])).getLast? = some b := by
      rw [show pre ++ r :: (post1 ++ [b]) = (pre ++ r :: post1) ++ [b] by simp]
      exact List.getLast?_concat _
    have h2 : ((pre ++ r :: (post1 ++ [b])).set pre.length b).dropLast = pre ++ b :: post1 := by
      rw [List.set_append_right _ _ (le_refl _)]
      simp only [Nat.sub_self, List.set_cons_zero]
      rw [show pre ++ b :: (post1 ++ [b]) = (pre ++ b :: post1) ++ [b] by simp]
      exact List.dropLast_concat
    simp only [swapPop, h1, h2]
    refine List.Perm.append_left pre ?_
    exact (List.perm_append_singleton b post1).symm

theorem get?_append_cons_length {α : Type} (pre : List α) (r : α) (post : List α) :
    (pre ++ r :: post).get? pre.length = some r := by
  induction pre with
  | nil => rfl
  | cons a pre ih => simpa using ih

theorem set_append_cons_length {α : Type} (pre : List α) (x y : α) (post : List α) :
    (pre ++ x :: post).set pre.length y = pre ++ y :: post := by
  induction pre with
  | nil => rfl
  | cons a pre ih => simp [ih]

theorem DeleteRepository_found (env : TeardownEnv) (held : List Mutex) (h : RepositoryHandler)
    (pre post : List RepositoryConfig)
    (r : RepositoryConfig) (hl : h.Repos = pre ++ r :: post)
    (hpost : ∀ x ∈ post, x.Name ≠ r.Name) :
    h.DeleteRepository env held r.Name = DeleteRepository.teardown env held h pre.length r := by
  have hs : DeleteRepository.scan r.Name h.Repos 0 none = some pre.length := by
    rcases DeleteRepository.scan_spec r.Name h.Repos 0 none with ⟨hno, _⟩ | ⟨pre1, r1, post1, hl1, hr1, hpost1, hs1⟩
    · exact absurd rfl (hno r (by simp [hl]))
    · rw [hs1, Nat.zero_add]
      have hlen : pre1.length = pre.length := by
        rcases Nat.lt_trichotomy pre1.length pre.length with hlt | heq | hgt
        · exfalso
          have h2 : (pre1 ++ r1 :: post1).drop (pre1.length + 1) = post1 := by simp
          have h3 : r ∈ (pre ++ r :: post).drop (pre1.length + 1) := by
            rw [List.drop_append_of_le_length (by omega)]
            simp
          rw [← hl, hl1, h2] at h3
          exact hpost1 r h3 rfl
        · exact heq
        · exfalso
          have h2 : (pre ++ r :: post).drop (pre.length + 1) = post := by simp
          have h3 : r1 ∈ (pre1 ++ r1 :: post1).drop (pre.length + 1) := by
            rw [List.drop_append_of_le_length (by omega)]
            simp
          rw [← hl1, hl, h2] at h3
          exact hpost r1 h3 hr1
      rw [hlen]
  have hg := get?_append_cons_length pre r post
  rw [hl] at hs
  simp only [RepositoryHandler.DeleteRepository, hl, hs, hg]

theorem DeleteRepository.task_idle (env : TeardownEnv) (held : List Mutex) (url : String)
    (a : Application) (kind : ProviderKind) (hk : a.deliveryProvider = some kind)
    (ha : Mutex.application url a.Name ∉ held) (hp : Mutex.provider url a.Name ∉ held) :
    (DeleteRepository.task env held url (some a)).1 = Ending.returns none := by
  simp only [DeleteRepository.task, ha, hp, and_false, if_false, Application.Uninstall, hk]
  cases env.Uninstall a with
  | some e => rfl
  | none =>
    cases env.RemoveAll a.storagePath with
    | some e => rfl
    | none => rfl

theorem DeleteRepository.teardown_idle (env : TeardownEnv) (held : List Mutex)
    (h : RepositoryHandler) (i : Nat) (r : RepositoryConfig) (hidle : r.idle held) :
    DeleteRepository.teardown env held h i r =
      { ending := Ending.returns none
        handler := { h with Repos := swapPop h.Repos i }
        dispatched := r.Apps
        trace := ((r.Apps.map (DeleteRepository.task env held r.Settings.URL)).map Prod.snd).flatten } := by
  obtain ⟨hrepo, hslots⟩ := hidle
  have hends : ∀ e ∈ (r.Apps.map (DeleteRepository.task env held r.Settings.URL)).map Prod.fst,
      e = Ending.returns none := by
    intro e he
    simp only [List.map_map, List.mem_map, Function.comp] at he
    obtain ⟨slot, hslot, rfl⟩ := he
    obtain ⟨a, kind, rfl, hk, ha, hp⟩ := hslots slot hslot
    exact DeleteRepository.task_idle env held _ a kind hk ha hp
  have hpan : Ending.panics ∉ (r.Apps.map (DeleteRepository.task env held r.Settings.URL)).map Prod.fst :=
    fun hin => by cases hends _ hin
  have hspin : Ending.spins ∉ (r.Apps.map (DeleteRepository.task env held r.Settings.URL)).map Prod.fst :=
    fun hin => by cases hends _ hin
  simp only [DeleteRepository.teardown, hrepo, if_false, hpan, hspin, or_self]

theorem DeleteRepository.teardown_handler (env : TeardownEnv) (held : List Mutex)
    (h : RepositoryHandler) (i : Nat) (r : RepositoryConfig) :
    ((DeleteRepository.teardown env held h i r).ending = Ending.returns none ∧
      (DeleteRepository.teardown env held h i r).handler = { h with Repos := swapPop h.Repos i }) ∨
    ((DeleteRepository.teardown env held h i r).ending ≠ Ending.returns none ∧
      (DeleteRepository.teardown env held h i r).handler = h) := by
  unfold DeleteRepository.teardown
  split
  · right
    exact ⟨by simp, rfl⟩
  · by_cases hpan : Ending.panics ∈
        (r.Apps.map (DeleteRepository.task env held r.Settings.URL)).map Prod.fst
    · right
      simp only [hpan, if_true, true_or]
      exact ⟨by simp, trivial⟩
    · by_cases hspin : Ending.spins ∈
          (r.Apps.map (DeleteRepository.task env held r.Settings.URL)).map Prod.fst
      · right
        simp only [hpan, hspin, if_true, if_false, or_true]
        exact ⟨by simp, trivial⟩
      · left
        simp only [hpan, hspin, if_false, or_self]
        exact ⟨trivial, trivial⟩

/-! ## Registry: theorems -/

/-- C1: `AddRepository` returns `ErrRepositoryAlreadyExist` and leaves the
repository list as it was when some repository already has the new URL;
otherwise it returns nil and the list is the old list followed by the new
repository. -/
theorem C1_AddRepository (h : RepositoryHandler) (r : RepositoryConfig) :
    ((∃ x ∈ h.Repos, x.Settings.URL = r.Settings.URL) →
        h.AddRepository r = (some Err.ErrRepositoryAlreadyExist, h)) ∧
    ((¬ ∃ x ∈ h.Repos, x.Settings.URL = r.Settings.URL) →
        (h.AddRepository r).1 = none ∧ (h.AddRepository r).2.Repos = h.Repos ++ [r]) := by
  constructor
  · intro hex
    have hs := (AddRepository.scan_true_iff r.Settings.URL h.Repos).2 hex
    simp [RepositoryHandler.AddRepository, hs]
  · intro hno
    have hs : AddRepository.scan r.Settings.URL h.Repos = false := by
      cases hb : AddRepository.scan r.Settings.URL h.Repos with
      | false => rfl
      | true => exact absurd ((AddRepository.scan_true_iff _ _).1 hb) hno
    simp [RepositoryHandler.AddRepository, hs]

/-- URL uniqueness is kept by every single registry call. -/
theorem RegistryCall.run_urls_nodup (h : RepositoryHandler) (c : RegistryCall)
    (hn : h.urls.Nodup) : (RegistryCall.run h c).urls.Nodup := by
  cases c with
  | add r =>
    by_cases hex : ∃ x ∈ h.Repos, x.Settings.URL = r.Settings.URL
    · have hs := (AddRepository.scan_true_iff r.Settings.URL h.Repos).2 hex
      simpa [RegistryCall.run, RepositoryHandler.AddRepository, hs] using hn
    · have hs : AddRepository.scan r.Settings.URL h.Repos = false := by
        cases hb : AddRepository.scan r.Settings.URL h.Repos with
        | false => rfl
        | true => exact absurd ((AddRepository.scan_true_iff _ _).1 hb) hex
      simp only [RegistryCall.run, RepositoryHandler.AddRepository, hs, RepositoryHandler.urls,
        List.map_append, List.map_cons, List.map_nil, Bool.false_eq_true, if_false]
      refine List.Nodup.append hn (List.nodup_singleton _) ?_
      intro u hu1 hu2
      rcases List.mem_map.1 hu1 with ⟨x, hx, rfl⟩
      rw [List.mem_singleton] at hu2
      exact hex ⟨x, hx, hu2⟩
  | delete env held name =>
    rcases DeleteRepository.scan_spec name h.Repos 0 none with ⟨_, hs⟩ | ⟨pre, r, post, hl, hr, hpost, _⟩
    · simpa [RegistryCall.run, RepositoryHandler.DeleteRepository, hs] using hn
    · subst hr
      have hd := DeleteRepository_found env held h pre post r hl hpost
      simp only [RegistryCall.run, hd]
      rcases DeleteRepository.teardown_handler env held h pre.length r with ⟨_, hh⟩ | ⟨_, hh⟩
      swap
      · rw [hh]
        exact hn
      rw [hh]
      simp only [RepositoryHandler.urls, hl]
      have hp := (swapPop_perm pre r post).map (fun r : RepositoryConfig => r.Settings.URL)
      refine (List.Perm.nodup_iff hp).2 ?_
      have hn1 : ((pre ++ r :: post).map (fun r : RepositoryConfig => r.Settings.URL)).Nodup := by
        simpa [RepositoryHandler.urls, hl] using hn
      refine List.Nodup.sublist ?_ hn1
      exact List.Sublist.map _ (List.Sublist.append_left (List.sublist_cons_self r post) pre)

/-- C2: starting from the empty registry, after any finite sequence of
`AddRepository` and `DeleteRepository` calls, with any arguments and any
outcomes, no two repositories of the registry share a URL. -/
theorem C2_url_unique (calls : List RegistryCall) :
    (runCalls { Repos := [] } calls).urls.Nodup := by
  have key : ∀ (cs : List RegistryCall) (h : RepositoryHandler),
      h.urls.Nodup → (runCalls h cs).urls.Nodup := by
    intro cs
    induction cs with
    | nil => intro h hn; exact hn
    | cons c cs ih =>
      intro h hn
      exact ih (RegistryCall.run h c) (RegistryCall.run_urls_nodup h c hn)
  exact key calls _ (by simp [RepositoryHandler.urls])

/-- C3, as stated, fails: a repository with the name exists and
`DeleteRepository` does not return.  With the nil slot that a failed rebuild
leaves in the list of the repository, the uninstall task of that slot panics and
the registry is as it was; with the Repository mutex that `DeleteApplication`
leaves locked, the call spins on that mutex for ever. -/
theorem C3_counterexample :
    (repoWithS1.AddOrUpdateApplication envCloneFails []
      { declS1 false with Reference := "dev" }).repo = repoNilSlot ∧
    (∃ x ∈ ({ Repos := [repoNilSlot] } : RepositoryHandler).Repos, x.Name = "r") ∧
    (({ Repos := [repoNilSlot] } : RepositoryHandler).DeleteRepository teardownOk [] "r").ending =
      Ending.panics ∧
    (({ Repos := [repoNilSlot] } : RepositoryHandler).DeleteRepository teardownOk [] "r").handler =
      { Repos := [repoNilSlot] } ∧
    (repoWithS1.DeleteApplication teardownOk [] "a").ending = Ending.returns none ∧
    (repoWithS1.DeleteApplication teardownOk [] "a").repo = repoS1 ∧
    (({ Repos := [repoS1] } : RepositoryHandler).DeleteRepository teardownOk
      (repoWithS1.DeleteApplication teardownOk [] "a").held "r").ending = Ending.spins := by
  refine ⟨?_, ⟨repoNilSlot, by simp, rfl⟩, ?_, ?_, ?_, ?_, ?_⟩ <;> decide

/-- C3, amended: `DeleteRepository` returns `ErrRepositoryConfigNotFound` and
leaves the list as it was when no repository has the name.  When `r` is the last
repository of the list with the name and its uninstall tasks can run (its mutex
and the mutexes of its applications are free, no slot is nil), it returns nil,
the list is one element shorter, and the old list is a rearrangement of `r` and
the new list.  Whenever it does not return nil the list is as it was. -/
theorem C3_DeleteRepository (env : TeardownEnv) (held : List Mutex) (h : RepositoryHandler)
    (name : String) :
    ((∀ x ∈ h.Repos, x.Name ≠ name) →
        (h.DeleteRepository env held name).ending =
          Ending.returns (some Err.ErrRepositoryConfigNotFound) ∧
        (h.DeleteRepository env held name).handler = h) ∧
    (∀ pre r post, h.Repos = pre ++ r :: post → r.Name = name → (∀ x ∈ post, x.Name ≠ name) →
        r.idle held →
        (h.DeleteRepository env held name).ending = Ending.returns none ∧
        (h.DeleteRepository env held name).handler.Repos.length + 1 = h.Repos.length ∧
        h.Repos.Perm (r :: (h.DeleteRepository env held name).handler.Repos)) ∧
    ((h.DeleteRepository env held name).ending ≠ Ending.returns none →
        (h.DeleteRepository env held name).handler = h) := by
  refine ⟨?_, ?_, ?_⟩
  · intro hno
    rcases DeleteRepository.scan_spec name h.Repos 0 none with
      ⟨_, hs⟩ | ⟨pre, r, post, hl, hr, _, _⟩
    · simp [RepositoryHandler.DeleteRepository, hs]
    · exact absurd hr (hno r (by simp [hl]))
  · intro pre r post hl hr hpost hidle
    subst hr
    rw [DeleteRepository_found env held h pre post r hl hpost,
      DeleteRepository.teardown_idle env held h pre.length r hidle]
    have hp := swapPop_perm pre r post
    refine ⟨rfl, ?_, ?_⟩
    · simp only [hl, hp.length_eq, List.length_append, List.length_cons]
      omega
    · simp only [hl]
      exact (List.perm_middle).trans (List.Perm.cons r hp.symm)
  · intro hne
    rcases DeleteRepository.scan_spec name h.Repos 0 none with
      ⟨_, hs⟩ | ⟨pre, r, post, hl, hr, hpost, _⟩
    · simp [RepositoryHandler.DeleteRepository, hs]
    · subst hr
      rw [DeleteRepository_found env held h pre post r hl hpost] at hne ⊢
      rcases DeleteRepository.teardown_handler env held h pre.length r with ⟨he, _⟩ | ⟨_, hh⟩
      · exact absurd he hne
      · exact hh

/-- C3, amended, at the registry that holds the repository of scenario S1:
deleting `r` uninstalls `a`, removes its storage directory, returns nil and
leaves the empty registry. -/
theorem C3_DeleteRepository_witness :
    (({ Repos := [repoWithS1] } : RepositoryHandler).DeleteRepository teardownOk [] "r").ending =
      Ending.returns none ∧
    (({ Repos := [repoWithS1] } : RepositoryHandler).DeleteRepository teardownOk [] "r").handler.Repos.length
      + 1 = 1 ∧
    [repoWithS1].Perm (repoWithS1 ::
      (({ Repos := [repoWithS1] } : RepositoryHandler).DeleteRepository teardownOk [] "r").handler.Repos) :=
  (C3_DeleteRepository teardownOk [] { Repos := [repoWithS1] } "r").2.1 [] repoWithS1 [] rfl rfl
    (by simp)
    ⟨by simp, fun slot hslot => ⟨storedS1, ProviderKind.raw, by simpa [repoWithS1] using hslot,
      rfl, by simp, by simp⟩⟩

/-- C4, as stated, fails: with two repositories named `r`, `DeleteRepository r`
succeeds and removes the later one, and the earlier one is still found by its
URL. -/
theorem C4_counterexample :
    twoNamesakes.urls.Nodup ∧
    (∃ x ∈ twoNamesakes.Repos, x.Name = "r" ∧ x.Settings.URL = "ssh://git@h/a.git") ∧
    (twoNamesakes.DeleteRepository teardownOk [] "r").ending = Ending.returns none ∧
    (twoNamesakes.DeleteRepository teardownOk [] "r").handler.GetRepositoryConfig "ssh://git@h/a.git"
      = some repoA := by
  refine ⟨?_, ⟨repoA, ?_, rfl, rfl⟩, ?_, ?_⟩
  · simp [twoNamesakes, RepositoryHandler.urls, repoA, repoB]
  · simp [twoNamesakes]
  · decide
  · decide

/-- C4, amended: in a registry with pairwise distinct URLs, let the repository
`r` be the last one in the list with its name.  When the uninstall tasks of `r`
can run (its mutex and the mutexes of its applications are free, no slot is
nil), `DeleteRepository` of that name returns nil; and whenever it returns nil,
`GetRepositoryConfig` of the URL of `r` returns nil afterwards. -/
theorem C4_last_namesake_vanishes (env : TeardownEnv) (held : List Mutex)
    (h : RepositoryHandler) (pre post : List RepositoryConfig)
    (r : RepositoryConfig) (hn : h.urls.Nodup) (hl : h.Repos = pre ++ r :: post)
    (hpost : ∀ x ∈ post, x.Name ≠ r.Name) :
    (r.idle held → (h.DeleteRepository env held r.Name).ending = Ending.returns none) ∧
    ((h.DeleteRepository env held r.Name).ending = Ending.returns none →
      (h.DeleteRepository env held r.Name).handler.GetRepositoryConfig r.Settings.URL = none) := by
  rw [DeleteRepository_found env held h pre post r hl hpost]
  refine ⟨fun hidle => by rw [DeleteRepository.teardown_idle env held h pre.length r hidle], ?_⟩
  intro hret
  rcases DeleteRepository.teardown_handler env held h pre.length r with ⟨_, hh⟩ | ⟨hne, _⟩
  swap
  · exact absurd hret hne
  rw [hh]
  simp only [RepositoryHandler.GetRepositoryConfig, hl]
  rw [GetRepositoryConfig.scan_none_iff]
  intro x hx
  have hx1 : x ∈ pre ++ post := (swapPop_perm pre r post).subset hx
  have hn1 : ((pre ++ r :: post).map (fun r : RepositoryConfig => r.Settings.URL)).Nodup := by
    simpa [RepositoryHandler.urls, hl] using hn
  rw [List.map_append, List.map_cons] at hn1
  have hn2 := List.nodup_middle.1 hn1
  rw [List.nodup_cons] at hn2
  intro hu
  apply hn2.1
  rw [← List.map_append, ← hu]
  exact List.mem_map_of_mem _ hx1

/-- C4, amended, at the registry of two namesakes: deleting by name returns nil
and makes the later one vanish. -/
theorem C4_last_namesake_vanishes_witness :
    (twoNamesakes.DeleteRepository teardownOk [] "r").ending = Ending.returns none ∧
    (twoNamesakes.DeleteRepository teardownOk [] "r").handler.GetRepositoryConfig "ssh://git@h/b.git"
      = none :=
  have h := C4_last_namesake_vanishes teardownOk [] twoNamesakes [repoA] [] repoB
    (by simp [twoNamesakes, RepositoryHandler.urls, repoA, repoB]) rfl (by simp)
  ⟨h.1 ⟨by simp, fun slot hslot => by simp [repoB] at hslot⟩,
    h.2 (h.1 ⟨by simp, fun slot hslot => by simp [repoB] at hslot⟩)⟩

/-! ## The reconciliation pass: lemmas -/

theorem PassResult.after_after (t1 t2 : List Event) (r : PassResult) :
    (r.after t2).after t1 = r.after (t1 ++ t2) := by
  simp [PassResult.after]

theorem quiet_append {t1 t2 : List Event} (h1 : quiet t1) (h2 : quiet t2) : quiet (t1 ++ t2) := by
  intro ev hev
  rcases List.mem_append.1 hev with h | h
  · exact h1 ev h
  · exact h2 ev h

theorem Stopped_after {a : Application} {r : PassResult} {t : List Event} (ht : quiet t)
    (h : Stopped a r) : Stopped a (r.after t) := by
  obtain ⟨happ, hno, herr⟩ := h
  refine ⟨happ, ?_, ?_⟩
  · intro ev hev
    rcases List.mem_append.1 hev with h | h
    · exact ⟨(ht ev h).1, (ht ev h).2.1⟩
    · exact hno ev h
  · rcases herr with herr | herr
    · exact Or.inl herr
    · right
      intro ev hev
      rcases List.mem_append.1 hev with h | h
      · exact (ht ev h).2.2
      · exact herr ev h

theorem ReachedHead_after {a : Application} {env : LifeCycleEnv} {r : PassResult}
    {t : List Event} (ht : quiet t) (h : ReachedHead a env r) : ReachedHead a env (r.after t) := by
  obtain ⟨t1, hq, rfl⟩ := h
  exact ⟨t ++ t1, quiet_append ht hq, PassResult.after_after _ _ _⟩

theorem RunLifeCycle.finish_cases (a : Application) (env : LifeCycleEnv) :
    Stopped a (RunLifeCycle.finish a env) ∨ ReachedHead a env (RunLifeCycle.finish a env) := by
  unfold RunLifeCycle.finish
  split
  · left
    simp [Stopped, Event.isLog, Event.isDelivery]
  · split
    · left
      simp [Stopped, Event.isLog, Event.isDelivery]
    · right
      exact ⟨_, by simp [quiet, Event.isLog, Event.isDelivery, Event.failed], rfl⟩

theorem RunLifeCycle.align_cases (a : Application) (env : LifeCycleEnv) (l r : Hash) :
    Stopped a (RunLifeCycle.align a env l r) ∨ ReachedHead a env (RunLifeCycle.align a env l r) := by
  have hq1 : quiet [Event.ResetSparsely r [a.SparsePath] none] := by
    simp [quiet, Event.isLog, Event.isDelivery, Event.failed]
  have hq2 : env.Pull = none ∨ env.Pull = some ExtErr.gitNoErrAlreadyUpToDate →
      quiet [Event.Checkout none, Event.Pull env.Pull] := by
    rintro (h | h) <;> simp [h, quiet, Event.isLog, Event.isDelivery, Event.failed]
  unfold RunLifeCycle.align
  split
  · split
    · left
      simp [Stopped, Event.isLog, Event.isDelivery]
    · rcases RunLifeCycle.finish_cases a env with h | h
      · exact Or.inl (Stopped_after hq1 h)
      · exact Or.inr (ReachedHead_after hq1 h)
  · split
    · left
      simp [Stopped, Event.isLog, Event.isDelivery]
    · split
      · rename_i hp
        simp only [Bool.and_eq_true, decide_eq_true_eq] at hp
        left
        refine ⟨rfl, ?_, Or.inr ?_⟩
        · simp [Event.isLog, Event.isDelivery]
        · intro ev hev
          exact (hq2 (Or.inr hp.2) ev hev).2.2
      · split
        · rename_i e he
          split
          · left
            simp [Stopped, Event.isLog, Event.isDelivery]
          · rename_i hne
            have he2 : env.Pull = some ExtErr.gitNoErrAlreadyUpToDate := by
              rw [he]
              simpa using hne
            rcases RunLifeCycle.finish_cases a env with h | h
            · exact Or.inl (Stopped_after (hq2 (Or.inr he2)) h)
            · exact Or.inr (ReachedHead_after (hq2 (Or.inr he2)) h)
        · rename_i he
          rcases RunLifeCycle.finish_cases a env with h | h
          · exact Or.inl (Stopped_after (hq2 (Or.inl he)) h)
          · exact Or.inr (ReachedHead_after (hq2 (Or.inl he)) h)

theorem RunLifeCycle.update_cases (a : Application) (env : LifeCycleEnv) :
    Stopped a (RunLifeCycle.update a env) ∨ ReachedHead a env (RunLifeCycle.update a env) := by
  unfold RunLifeCycle.update
  split
  · left
    simp [Stopped, Event.isLog, Event.isDelivery]
  · split
    · left
      simp [Stopped, Event.isLog, Event.isDelivery]
    · split
      · left
        simp [Stopped, Event.isLog, Event.isDelivery]
      · have hq : ∀ l r : Hash, quiet [Event.Reference a.getLocalReferenceName (.ok l),
            Event.Reference a.getRemoteReferenceName (.ok r), Event.Worktree none] := by
          intro l r
          simp [quiet, Event.isLog, Event.isDelivery, Event.failed]
        rcases RunLifeCycle.align_cases a env _ _ with h | h
        · exact Or.inl (Stopped_after (hq _ _) h)
        · exact Or.inr (ReachedHead_after (hq _ _) h)

/-- The three ways a pass can go: the early delivery after an up-to-date fetch,
an end before the head computation, or the head computation. -/
theorem RunLifeCycle_cases (a : Application) (env : LifeCycleEnv) :
    (env.Fetch = some ExtErr.gitNoErrAlreadyUpToDate ∧ a.CurrentRevision.IsZero = false ∧
      a.RunLifeCycle env = (RunLifeCycle.deliver a env).after
        [Event.Fetch (some ExtErr.gitNoErrAlreadyUpToDate)]) ∨
    Stopped a (a.RunLifeCycle env) ∨ ReachedHead a env (a.RunLifeCycle env) := by
  unfold Application.RunLifeCycle
  split
  · rename_i e he
    split
    · rename_i hup
      subst hup
      have hq : quiet [Event.Fetch (some ExtErr.gitNoErrAlreadyUpToDate)] := by
        simp [quiet, Event.isLog, Event.isDelivery, Event.failed]
      split
      · rename_i hz
        left
        exact ⟨he, by simpa using hz, rfl⟩
      · right
        rcases RunLifeCycle.update_cases a env with h | h
        · exact Or.inl (Stopped_after hq h)
        · exact Or.inr (ReachedHead_after hq h)
    · right; left
      simp [Stopped, Event.isLog, Event.isDelivery]
  · right
    have hq : quiet [Event.Fetch none] := by
      simp [quiet, Event.isLog, Event.isDelivery, Event.failed]
    rcases RunLifeCycle.update_cases a env with h | h
    · exact Or.inl (Stopped_after hq h)
    · exact Or.inr (ReachedHead_after hq h)

theorem deliveryCalls_append (t s : List Event) :
    deliveryCalls (t ++ s) = deliveryCalls t ++ deliveryCalls s := by
  induction t with
  | nil => rfl
  | cons ev t ih => cases ev <;> simp [deliveryCalls, ih]

theorem deliveryCalls_eq_nil {t : List Event} (h : ∀ ev ∈ t, ev.isDelivery = false) :
    deliveryCalls t = [] := by
  induction t with
  | nil => rfl
  | cons ev t ih =>
    have h1 := h ev (List.mem_cons_self _ _)
    have h2 := ih (fun e he => h e (List.mem_cons_of_mem _ he))
    cases ev <;> simp_all [deliveryCalls, Event.isDelivery]

theorem quiet.deliveryCalls {t : List Event} (h : quiet t) : deliveryCalls t = [] :=
  deliveryCalls_eq_nil (fun ev hev => (h ev hev).2.1)

theorem headOf_getRevisionHashList (a : Application) (env : LifeCycleEnv) :
    headOf (a.getRevisionHashList env) = a.getApplicationHeadRevision env := by
  unfold Application.getApplicationHeadRevision headOf
  rfl

theorem RunLifeCycle.update_first (a : Application) (env : LifeCycleEnv) :
    ∃ rest, (RunLifeCycle.update a env).trace =
      Event.Reference a.getLocalReferenceName env.localReference :: rest := by
  unfold RunLifeCycle.update
  split
  · rename_i e he
    exact ⟨[], by simp [he]⟩
  · rename_i l hl
    rw [hl]
    split
    · exact ⟨_, rfl⟩
    · split
      · exact ⟨_, rfl⟩
      · exact ⟨_, rfl⟩

/-- What one pass does to the application and how it calls the provider: it
either leaves the application alone and makes no call, or makes one call, handing
over the non-zero revision the application holds afterwards. -/
theorem RunLifeCycle_delivery (a : Application) (env : LifeCycleEnv) :
    ((a.RunLifeCycle env).app = a ∧ deliveryCalls (a.RunLifeCycle env).trace = []) ∨
    ((a.RunLifeCycle env).app.CurrentRevision.IsZero = false ∧
      deliveryCalls (a.RunLifeCycle env).trace = [(a.RunLifeCycle env).app.CurrentRevision]) := by
  rcases RunLifeCycle_cases a env with ⟨_, hz, hr⟩ | h | ⟨t, hq, hr⟩
  · right
    rw [hr]
    exact ⟨hz, by simp [PassResult.after, RunLifeCycle.deliver, deliveryCalls]⟩
  · left
    exact ⟨h.1, deliveryCalls_eq_nil (fun ev hev => (h.2.1 ev hev).2)⟩
  · rw [hr]
    unfold RunLifeCycle.head
    simp only
    split
    · left
      simp [PassResult.after, deliveryCalls_append, hq.deliveryCalls, deliveryCalls]
    · rename_i hz
      split
      · left
        simp [PassResult.after, deliveryCalls_append, hq.deliveryCalls, deliveryCalls]
      · right
        simp only [Bool.not_eq_true] at hz
        simp [PassResult.after, RunLifeCycle.deliver, deliveryCalls_append, hq.deliveryCalls,
          deliveryCalls, hz]

/-! ## The reconciliation pass: theorems -/

/-- C6: in a pass that reaches the head computation with a non-zero head `h`:
when `h` is `CurrentRevision` the pass returns nil, calls no `Delivery` and
leaves the application as it was; otherwise `Delivery` is called exactly once,
as the last step, with `CurrentRevision` already set to `h`, and the pass returns
what `Delivery` returned. -/
theorem C6_head_decision (a : Application) (env : LifeCycleEnv)
    (hreach : ∃ ev ∈ (a.RunLifeCycle env).trace, ev.isLog = true)
    (hh : (a.getApplicationHeadRevision env).IsZero = false) :
    (a.CurrentRevision = a.getApplicationHeadRevision env →
      (a.RunLifeCycle env).err = none ∧ (a.RunLifeCycle env).app = a ∧
      deliveryCalls (a.RunLifeCycle env).trace = []) ∧
    (a.CurrentRevision ≠ a.getApplicationHeadRevision env →
      (a.RunLifeCycle env).app = { a with CurrentRevision := a.getApplicationHeadRevision env } ∧
      (a.RunLifeCycle env).err = env.Delivery (a.getApplicationHeadRevision env) ∧
      deliveryCalls (a.RunLifeCycle env).trace = [a.getApplicationHeadRevision env] ∧
      ∃ t, (a.RunLifeCycle env).trace =
        t ++ [Event.Delivery (a.getApplicationHeadRevision env)
          (env.Delivery (a.getApplicationHeadRevision env))]) := by
  obtain ⟨ev, hev, hlog⟩ := hreach
  rcases RunLifeCycle_cases a env with ⟨_, _, hr⟩ | h | ⟨t, hq, hr⟩
  · exfalso
    rw [hr] at hev
    simp [PassResult.after, RunLifeCycle.deliver] at hev
    rcases hev with rfl | rfl <;> simp [Event.isLog] at hlog
  · exfalso
    have := (h.2.1 ev hev).1
    rw [hlog] at this
    exact Bool.noConfusion this
  · rw [hr]
    unfold RunLifeCycle.head
    simp only [hh, Bool.false_eq_true, if_false]
    constructor
    · intro heq
      simp [heq, PassResult.after, deliveryCalls_append, hq.deliveryCalls, deliveryCalls]
    · intro hne
      simp only [hne, if_false]
      refine ⟨rfl, rfl, ?_, ⟨t ++ [Event.Log (a.getRevisionHashList env)], ?_⟩⟩
      · simp [PassResult.after, RunLifeCycle.deliver, deliveryCalls_append, hq.deliveryCalls,
          deliveryCalls]
      · simp [PassResult.after, RunLifeCycle.deliver]

/-- C7: when the fetch answers `git.NoErrAlreadyUpToDate`: with a non-zero
`CurrentRevision` the pass makes the fetch and one call of `Delivery` and nothing
else, leaves the application as it was and returns what `Delivery` returned; with
a zero `CurrentRevision` the step after the fetch is the resolution of the local
reference. -/
theorem C7_fetch_up_to_date (a : Application) (env : LifeCycleEnv)
    (hf : env.Fetch = some ExtErr.gitNoErrAlreadyUpToDate) :
    (a.CurrentRevision.IsZero = false →
      a.RunLifeCycle env =
        { err := env.Delivery a.CurrentRevision
          app := a
          trace := [Event.Fetch (some ExtErr.gitNoErrAlreadyUpToDate),
            Event.Delivery a.CurrentRevision (env.Delivery a.CurrentRevision)] }) ∧
    (a.CurrentRevision.IsZero = true →
      ∃ rest, (a.RunLifeCycle env).trace =
        Event.Fetch (some ExtErr.gitNoErrAlreadyUpToDate) ::
          Event.Reference a.getLocalReferenceName env.localReference :: rest) := by
  constructor
  · intro hz
    simp [Application.RunLifeCycle, hf, hz, PassResult.after, RunLifeCycle.deliver]
  · intro hz
    obtain ⟨rest, hrest⟩ := RunLifeCycle.update_first a env
    exact ⟨rest, by simp [Application.RunLifeCycle, hf, hz, PassResult.after, hrest]⟩

/-- C8: when a step of the pass fails (the fetch or the pull with an error other
than `git.NoErrAlreadyUpToDate`, a reference, worktree, reset or checkout with any
error, or a head revision computed as zero), the pass returns a non-nil error,
calls no `Delivery`, and leaves the application, and with it `CurrentRevision`,
as it was. -/
theorem C8_first_error (a : Application) (env : LifeCycleEnv)
    (hfail : ∃ ev ∈ (a.RunLifeCycle env).trace, ev.failed = true) :
    (a.RunLifeCycle env).err ≠ none ∧ deliveryCalls (a.RunLifeCycle env).trace = [] ∧
    (a.RunLifeCycle env).app = a := by
  obtain ⟨ev, hev, hfailed⟩ := hfail
  rcases RunLifeCycle_cases a env with ⟨_, _, hr⟩ | h | ⟨t, hq, hr⟩
  · exfalso
    rw [hr] at hev
    simp [PassResult.after, RunLifeCycle.deliver] at hev
    rcases hev with rfl | rfl <;> simp [Event.failed] at hfailed
  · refine ⟨?_, deliveryCalls_eq_nil (fun e he => (h.2.1 e he).2), h.1⟩
    rcases h.2.2 with herr | hno
    · exact herr
    · have := hno ev hev
      rw [hfailed] at this
      exact Bool.noConfusion this
  · rw [hr] at hev ⊢
    have hzero : (a.getApplicationHeadRevision env).IsZero = true := by
      by_contra hnz
      simp only [Bool.not_eq_true] at hnz
      unfold RunLifeCycle.head at hev
      simp only [hnz, Bool.false_eq_true, if_false] at hev
      have hcases : ev ∈ t ∨ ev = Event.Log (a.getRevisionHashList env) ∨ ev.isDelivery = true := by
        split at hev
        · simp [PassResult.after] at hev
          rcases hev with h | h
          · exact Or.inl h
          · exact Or.inr (Or.inl h)
        · simp [PassResult.after, RunLifeCycle.deliver] at hev
          rcases hev with h | h | h
          · exact Or.inl h
          · exact Or.inr (Or.inl h)
          · exact Or.inr (Or.inr (by rw [h]; rfl))
      rcases hcases with h | h | h
      · have := (hq ev h).2.2
        rw [hfailed] at this
        exact Bool.noConfusion this
      · rw [h] at hfailed
        simp only [Event.failed, headOf_getRevisionHashList, hnz] at hfailed
        exact Bool.noConfusion hfailed
      · cases ev <;> simp [Event.isDelivery, Event.failed] at h hfailed
    unfold RunLifeCycle.head
    simp [hzero, PassResult.after, deliveryCalls_append, hq.deliveryCalls, deliveryCalls]

/-- C6 at the first pass of scenario S1: the head `7` differs from the zero
`CurrentRevision`, so it is assigned and delivered. -/
theorem C6_head_decision_witness :
    (appS1.RunLifeCycle (envHead none)).app = { appS1 with CurrentRevision := ⟨7⟩ } ∧
    (appS1.RunLifeCycle (envHead none)).err = none ∧
    deliveryCalls (appS1.RunLifeCycle (envHead none)).trace = [⟨7⟩] :=
  have h := (C6_head_decision appS1 (envHead none) ⟨Event.Log (.ok [⟨7⟩]), by decide, rfl⟩
    (by decide)).2 (by decide)
  ⟨h.1, h.2.1, h.2.2.1⟩

/-- C7 at an application holding revision `7` whose fetch finds nothing new. -/
theorem C7_fetch_up_to_date_witness :
    ({ appS1 with CurrentRevision := ⟨7⟩ } : Application).RunLifeCycle
        (envFetch (some ExtErr.gitNoErrAlreadyUpToDate)) =
      { err := none
        app := { appS1 with CurrentRevision := ⟨7⟩ }
        trace := [Event.Fetch (some ExtErr.gitNoErrAlreadyUpToDate), Event.Delivery ⟨7⟩ none] } :=
  (C7_fetch_up_to_date { appS1 with CurrentRevision := ⟨7⟩ }
    (envFetch (some ExtErr.gitNoErrAlreadyUpToDate)) rfl).1 (by decide)

/-- C8 at a pass whose fetch fails. -/
theorem C8_first_error_witness :
    (appS1.RunLifeCycle (envFetch (some (ExtErr.other "connection refused")))).err ≠ none ∧
    deliveryCalls (appS1.RunLifeCycle (envFetch (some (ExtErr.other "connection refused")))).trace
      = [] ∧
    (appS1.RunLifeCycle (envFetch (some (ExtErr.other "connection refused")))).app = appS1 :=
  C8_first_error appS1 (envFetch (some (ExtErr.other "connection refused")))
    ⟨Event.Fetch (some (ExtErr.other "connection refused")), by decide, by decide⟩

/-- The link between `CurrentRevision` and the calls of `Delivery` made so far:
either nothing was handed to the provider and the revision is zero, or the
revision is non-zero and is the one handed over last. -/
theorem runPasses_invariant (envs : List LifeCycleEnv) :
    ∀ (a : Application) (calls : List Hash),
      ((a.CurrentRevision = ZeroHash ∧ calls = []) ∨
        (a.CurrentRevision ≠ ZeroHash ∧ calls.getLast? = some a.CurrentRevision)) →
      (((runPasses a envs).1.CurrentRevision = ZeroHash ∧
          calls ++ deliveryCalls (runPasses a envs).2 = []) ∨
        ((runPasses a envs).1.CurrentRevision ≠ ZeroHash ∧
          (calls ++ deliveryCalls (runPasses a envs).2).getLast? =
            some (runPasses a envs).1.CurrentRevision)) := by
  induction envs with
  | nil =>
    intro a calls h
    simpa [runPasses, deliveryCalls] using h
  | cons env envs ih =>
    intro a calls h
    simp only [runPasses, deliveryCalls_append, ← List.append_assoc]
    apply ih
    rcases RunLifeCycle_delivery a env with ⟨happ, hno⟩ | ⟨hz, hone⟩
    · rw [happ, hno, List.append_nil]
      exact h
    · right
      rw [hone]
      refine ⟨?_, by simp⟩
      intro hzero
      rw [hzero] at hz
      exact Bool.noConfusion hz

/-! ## The delivered revision: theorems -/

/-- C9, as stated, fails: in the first pass of scenario S1 with a failing
`Delivery`, `CurrentRevision` becomes `7` although no call of `Delivery` has
returned nil. -/
theorem C9_counterexample :
    appS1.CurrentRevision = ZeroHash ∧
    (runPasses appS1 [envHead (some (Err.ext (ExtErr.other "install failed")))]).1.CurrentRevision
      = ⟨7⟩ ∧
    (⟨7⟩ : Hash) ≠ ZeroHash ∧
    deliveredOk (runPasses appS1 [envHead (some (Err.ext (ExtErr.other "install failed")))]).2
      = [] := by
  decide

/-- C9, amended: for every application and every sequence of passes starting from
a zero `CurrentRevision`, `CurrentRevision` is zero exactly as long as `Delivery`
has not been called, and once it is non-zero it is the revision handed to the
latest call of `Delivery`, whether or not that call succeeded. -/
theorem C9_revision_handed_last (a : Application) (envs : List LifeCycleEnv)
    (h0 : a.CurrentRevision = ZeroHash) :
    ((runPasses a envs).1.CurrentRevision = ZeroHash ↔ deliveryCalls (runPasses a envs).2 = []) ∧
    ((runPasses a envs).1.CurrentRevision ≠ ZeroHash →
      (deliveryCalls (runPasses a envs).2).getLast? = some (runPasses a envs).1.CurrentRevision) := by
  have h := runPasses_invariant envs a [] (Or.inl ⟨h0, rfl⟩)
  simp only [List.nil_append] at h
  rcases h with ⟨hz, hc⟩ | ⟨hnz, hl⟩
  · exact ⟨⟨fun _ => hc, fun _ => hz⟩, fun hne => absurd hz hne⟩
  · refine ⟨⟨fun hz => absurd hz hnz, fun hc => ?_⟩, fun _ => hl⟩
    rw [hc] at hl
    simp at hl

/-- C9, amended, at scenario S1 with a failing `Delivery`: the revision `7` was
handed over and is the `CurrentRevision`. -/
theorem C9_revision_handed_last_witness :
    (deliveryCalls
      (runPasses appS1 [envHead (some (Err.ext (ExtErr.other "install failed")))]).2).getLast? =
      some (runPasses appS1
        [envHead (some (Err.ext (ExtErr.other "install failed")))]).1.CurrentRevision :=
  (C9_revision_handed_last appS1 [envHead (some (Err.ext (ExtErr.other "install failed")))]
    rfl).2 (by decide)

/-! ## Applications of a repository: lemmas -/

theorem AddOrUpdateApplication.scan_found (name : String) (pre post : List (Option Application))
    (a : Application) (hpre : ∀ x ∈ pre, ∃ b, x = some b ∧ b.Name ≠ name) (ha : a.Name = name) :
    ∀ i, AddOrUpdateApplication.scan name (pre ++ some a :: post) i = some (some (i + pre.length)) := by
  induction pre with
  | nil =>
    intro i
    simp [AddOrUpdateApplication.scan, ha]
  | cons x pre ih =>
    intro i
    obtain ⟨b, rfl, hb⟩ := hpre x (List.mem_cons_self _ _)
    have h := ih (fun y hy => hpre y (List.mem_cons_of_mem _ hy)) (i + 1)
    simp only [List.cons_append, AddOrUpdateApplication.scan, hb, if_false, List.length_cons]
    change AddOrUpdateApplication.scan name (pre ++ some a :: post) (i + 1) = _
    rw [h, Nat.add_assoc, Nat.add_comm 1]

theorem cmpEqual_iff (x y : Application) :
    cmpEqual x y = true ↔
      (x.Name = y.Name ∧ x.Namespace = y.Namespace ∧ x.URL = y.URL ∧ x.Reference = y.Reference ∧
        x.SparsePath = y.SparsePath ∧ x.RepositoryConfig.isSome = y.RepositoryConfig.isSome ∧
        x.Helm.isSome = y.Helm.isSome) := by
  simp [cmpEqual, and_assoc]

/-! ## Applications of a repository: theorems -/

/-- When the scan of `AddOrUpdateApplication` ends on the application `a`, the
call reports `NoErrAlreadyUpTodate` if the comparison finds `a` and the
declaration equal, and rebuilds otherwise. -/
theorem AddOrUpdateApplication_found (env : BuildEnv) (held : List Mutex) (r : RepositoryConfig)
    (d a : Application) (pre post : List (Option Application))
    (hl : r.Apps = pre ++ some a :: post)
    (hpre : ∀ x ∈ pre, ∃ b, x = some b ∧ b.Name ≠ d.Name) (ha : a.Name = d.Name) :
    r.AddOrUpdateApplication env held d =
      if cmpEqual a d then
        { ending := Ending.returns (some Err.NoErrAlreadyUpTodate), repo := r, trace := []
          locks := [], held := held }
      else AddOrUpdateApplication.rebuild env held r d pre.length a := by
  have hs := AddOrUpdateApplication.scan_found d.Name pre post a hpre ha 0
  rw [Nat.zero_add] at hs
  have hg := get?_append_cons_length pre (some a) post
  unfold RepositoryConfig.AddOrUpdateApplication
  rw [hl, hs]
  simp only [hg]

/-- C5, as stated, fails: the declaration differs from the existing application
in the Helm option `Atomic` alone, and `AddOrUpdateApplication` returns
`NoErrAlreadyUpTodate` without tearing anything down. -/
theorem C5_counterexample :
    (∃ a, some a ∈ repoWithS1.Apps ∧ a.Name = (declS1 true).Name) ∧
    ¬ declaredEqual storedS1 (declS1 true) ∧
    repoWithS1.AddOrUpdateApplication envBuild [] (declS1 true) =
      { ending := Ending.returns (some Err.NoErrAlreadyUpTodate), repo := repoWithS1, trace := []
        locks := [], held := [] } := by
  refine ⟨⟨storedS1, ?_, ?_⟩, ?_, ?_⟩ <;> decide

/-- C5, amended: when the name scan of `AddOrUpdateApplication` ends on the
existing application `a`, it returns `NoErrAlreadyUpTodate` and changes nothing
exactly when `a` and the declaration agree on url, namespace, reference and
sparsePath and on whether the Helm block and the repository pointer are set; the
Helm options and the value files are not compared.  When one of the compared
fields differs and the mutexes of the repository and of `a` are free, it takes
both mutexes, removes the storage directory of `a` and, when that succeeded,
builds the declaration with `NewApplication`: these are all its calls; the
application built takes the slot of `a` and nil is returned; an error of the
build is returned with nil in the slot; an error of the removal is returned with
the repository as it was; both mutexes are unlocked at the end. -/
theorem C5_compared_fields (env : BuildEnv) (held : List Mutex) (r : RepositoryConfig)
    (d a : Application)
    (pre post : List (Option Application)) (hl : r.Apps = pre ++ some a :: post)
    (hpre : ∀ x ∈ pre, ∃ b, x = some b ∧ b.Name ≠ d.Name) (ha : a.Name = d.Name) :
    (((r.AddOrUpdateApplication env held d).ending =
          Ending.returns (some Err.NoErrAlreadyUpTodate) ∧
        (r.AddOrUpdateApplication env held d).repo = r ∧
        (r.AddOrUpdateApplication env held d).trace = []) ↔
      (a.URL = d.URL ∧ a.Namespace = d.Namespace ∧ a.Reference = d.Reference ∧
        a.SparsePath = d.SparsePath ∧ a.Helm.isSome = d.Helm.isSome ∧
        a.RepositoryConfig.isSome = d.RepositoryConfig.isSome)) ∧
    (¬ (a.URL = d.URL ∧ a.Namespace = d.Namespace ∧ a.Reference = d.Reference ∧
        a.SparsePath = d.SparsePath ∧ a.Helm.isSome = d.Helm.isSome ∧
        a.RepositoryConfig.isSome = d.RepositoryConfig.isSome) →
      Mutex.repository r.Settings.URL ∉ held → Mutex.application r.Settings.URL a.Name ∉ held →
      (r.AddOrUpdateApplication env held d).locks =
        [LockOp.Spin (Mutex.repository r.Settings.URL),
          LockOp.Spin (Mutex.application r.Settings.URL a.Name),
          LockOp.Unlock (Mutex.application r.Settings.URL a.Name),
          LockOp.Unlock (Mutex.repository r.Settings.URL)] ∧
      (r.AddOrUpdateApplication env held d).held = held ∧
      (∀ e, env.RemoveAll a.storagePath = some e →
        (r.AddOrUpdateApplication env held d).trace = [BuildEvent.RemoveAll a.storagePath (some e)] ∧
        (r.AddOrUpdateApplication env held d).ending = Ending.returns (some (Err.ext e)) ∧
        (r.AddOrUpdateApplication env held d).repo = r) ∧
      (env.RemoveAll a.storagePath = none →
        (r.AddOrUpdateApplication env held d).trace =
          BuildEvent.RemoveAll a.storagePath none :: (NewApplication env d).2 ∧
        (∀ built, (NewApplication env d).1 = Go.ok built →
          (r.AddOrUpdateApplication env held d).ending = Ending.returns none ∧
          (r.AddOrUpdateApplication env held d).repo.Apps = pre ++ some built :: post) ∧
        (∀ e, (NewApplication env d).1 = Go.err e →
          (r.AddOrUpdateApplication env held d).ending = Ending.returns (some e) ∧
          (r.AddOrUpdateApplication env held d).repo.Apps = pre ++ none :: post) ∧
        ((NewApplication env d).1 = Go.panic →
          (r.AddOrUpdateApplication env held d).ending = Ending.panics ∧
          (r.AddOrUpdateApplication env held d).repo = r))) := by
  have hc : cmpEqual a d = true ↔
      (a.URL = d.URL ∧ a.Namespace = d.Namespace ∧ a.Reference = d.Reference ∧
        a.SparsePath = d.SparsePath ∧ a.Helm.isSome = d.Helm.isSome ∧
        a.RepositoryConfig.isSome = d.RepositoryConfig.isSome) := by
    rw [cmpEqual_iff]
    constructor
    · rintro ⟨_, h2, h3, h4, h5, h6, h7⟩
      exact ⟨h3, h2, h4, h5, h7, h6⟩
    · rintro ⟨h3, h2, h4, h5, h7, h6⟩
      exact ⟨ha, h2, h3, h4, h5, h6, h7⟩
  rw [← hc, AddOrUpdateApplication_found env held r d a pre post hl hpre ha]
  by_cases hcmp : cmpEqual a d = true
  · simp [hcmp]
  · simp only [hcmp, if_false, Bool.false_eq_true, not_false_eq_true, true_implies, iff_false,
      not_and]
    constructor
    · unfold AddOrUpdateApplication.rebuild
      simp only
      split
      · simp
      · split
        · simp
        · cases hrm : env.RemoveAll a.storagePath with
          | some e => simp
          | none =>
            rcases hn : NewApplication env d with ⟨res, t⟩
            cases res <;> simp
    · intro hrepo happ
      simp only [AddOrUpdateApplication.rebuild, hrepo, happ, if_false]
      cases hrm : env.RemoveAll a.storagePath with
      | some e => simp
      | none =>
        rcases hn : NewApplication env d with ⟨res, t⟩
        cases res with
        | ok built => simp [hl, set_append_cons_length]
        | err e => simp [hl, set_append_cons_length]
        | panic => simp

/-- C5, amended, at scenario S1: a declaration that changes only the Helm option
`Atomic` is reported as up to date, and one that changes the reference removes
the storage directory, clones anew and puts the application built in the
slot. -/
theorem C5_compared_fields_witness :
    ((repoWithS1.AddOrUpdateApplication envBuild [] (declS1 true)).ending =
        Ending.returns (some Err.NoErrAlreadyUpTodate) ∧
      (repoWithS1.AddOrUpdateApplication envBuild [] (declS1 true)).repo = repoWithS1 ∧
      (repoWithS1.AddOrUpdateApplication envBuild [] (declS1 true)).trace = []) ∧
    (repoWithS1.AddOrUpdateApplication envBuild [] { declS1 false with Reference := "dev" }).trace =
      BuildEvent.RemoveAll storedS1.storagePath none ::
        (NewApplication envBuild { declS1 false with Reference := "dev" }).2 ∧
    (repoWithS1.AddOrUpdateApplication envBuild [] { declS1 false with Reference := "dev" }).ending =
      Ending.returns none ∧
    (repoWithS1.AddOrUpdateApplication envBuild [] { declS1 false with Reference := "dev" }).repo.Apps =
      [] ++ some { storedS1 with Reference := "dev" } :: [] :=
  have h := (C5_compared_fields envBuild [] repoWithS1 { declS1 false with Reference := "dev" }
    storedS1 [] [] rfl (by simp) rfl).2 (by decide) (by simp) (by simp)
  ⟨(C5_compared_fields envBuild [] repoWithS1 (declS1 true) storedS1 [] [] rfl (by simp) rfl).1.2
      (by decide),
    (h.2.2.2 rfl).1, ((h.2.2.2 rfl).2.1 { storedS1 with Reference := "dev" } (by decide)).1,
    ((h.2.2.2 rfl).2.1 { storedS1 with Reference := "dev" } (by decide)).2⟩

/-! ## The path filter: theorems -/

theorem len_eq_zero_iff (s : String) : len s = 0 ↔ s = "" := by
  rcases s with ⟨data⟩
  cases data with
  | nil => simp [len, String.utf8ByteSize, String.utf8ByteSize.go]
  | cons c cs =>
    have hc := Char.utf8Size_pos c
    have hne : (⟨c :: cs⟩ : String) ≠ "" := by
      intro h
      have := congrArg String.data h
      simp at this
    simp only [len, String.utf8ByteSize, String.utf8ByteSize.go, hne, iff_false]
    omega

/-- The path filter accepts every path when `SparsePath` is empty, and otherwise
exactly the paths that start with the characters of `SparsePath`. -/
theorem PathFilter_iff (a : Application) (s : String) :
    a.PathFilter s = true ↔ a.SparsePath = "" ∨ a.SparsePath.data <+: s.data := by
  unfold Application.PathFilter strings.HasPrefix
  by_cases h : a.SparsePath = ""
  · simp [h, (len_eq_zero_iff "").2 rfl]
  · have hl : ¬ len a.SparsePath = 0 := fun hz => h ((len_eq_zero_iff _).1 hz)
    simp [h, hl]

/-- C10 on the code: with `SparsePath` `deploy`, the filter accepts a file of the
sibling directory `deploy-old`, which is neither `deploy` nor under `deploy/`. -/
theorem C10_sibling_accepted :
    appS1.SparsePath = "deploy" ∧
    appS1.PathFilter "deploy-old/values.yaml" = true ∧
    "deploy-old/values.yaml" ≠ appS1.SparsePath ∧
    strings.HasPrefix "deploy-old/values.yaml" (appS1.SparsePath ++ "/") = false := by
  decide

/-! ## The Helm provider: lemmas -/

theorem getCurrentRelease.scan_absent (releaseName : String) (store : List Release)
    (h : ∀ r ∈ store, r.Name ≠ releaseName) : getCurrentRelease.scan releaseName store = none := by
  induction store with
  | nil => rfl
  | cons r rest ih =>
    have hr := h r (List.mem_cons_self _ _)
    simp [getCurrentRelease.scan, hr, ih (fun x hx => h x (List.mem_cons_of_mem _ hx))]

theorem getCurrentRelease.scan_first (releaseName : String) (pre post : List Release)
    (cur : Release) (hpre : ∀ r ∈ pre, r.Name ≠ releaseName) (hcur : cur.Name = releaseName) :
    getCurrentRelease.scan releaseName (pre ++ cur :: post) = some cur := by
  induction pre with
  | nil => simp [getCurrentRelease.scan, hcur]
  | cons r rest ih =>
    have hr := hpre r (List.mem_cons_self _ _)
    simp [getCurrentRelease.scan, hr, ih (fun x hx => hpre x (List.mem_cons_of_mem _ hx))]

theorem getCurrentRelease.scan_name (releaseName : String) (store : List Release)
    (cur : Release) (h : getCurrentRelease.scan releaseName store = some cur) :
    cur.Name = releaseName := by
  induction store with
  | nil => simp [getCurrentRelease.scan] at h
  | cons r rest ih =>
    unfold getCurrentRelease.scan at h
    by_cases hr : r.Name = releaseName
    · simp only [hr, if_true, Option.some.injEq] at h
      rw [← h]
      exact hr
    · simp only [hr, if_false] at h
      exact ih h

/-! ## The Helm provider: theorems -/

/-- C11: when listing, loading the chart and merging the values succeed, the
actions of a Helm delivery that change the cluster are: one install when no
listed release has the release name; none when the description of the current
release is the revision string; else none when `CheckValuesEqual` is on and the
values of the released chart equal the merged values; else, with
`ReInstallRelease` on, an uninstall followed by an install, or the uninstall
alone when it fails; else one upgrade. -/
theorem C11_helm_decision (h : HelmProvider) (options : HelmActionOptions) (releaseName : String)
    (appRevision : Hash) (env : HelmEnv) (store : List Release) (loaded : Chart)
    (values : Values) (hopt : h.ActionOptions = some options) (hlist : env.List = none)
    (hupdate : env.Update = none) (hload : env.Load = .ok loaded)
    (hvalues : env.MergeValues = .ok values) :
    ((∀ r ∈ store, r.Name ≠ releaseName) →
      (h.Delivery releaseName appRevision env store).trace.filter HelmEvent.mutating =
        [HelmEvent.install releaseName { loaded with Description := appRevision.String } values
          env.install]) ∧
    (∀ (pre post : List Release) (cur : Release) (again : Values),
      store = pre ++ cur :: post → (∀ r ∈ pre, r.Name ≠ releaseName) → cur.Name = releaseName →
      env.MergeValuesAgain = .ok again →
      (cur.Chart.Description = appRevision.String →
        (h.Delivery releaseName appRevision env store).trace.filter HelmEvent.mutating = []) ∧
      (cur.Chart.Description ≠ appRevision.String →
        ((options.CheckValuesEqual = true ∧ cur.Chart.Values = again) →
          (h.Delivery releaseName appRevision env store).trace.filter HelmEvent.mutating = []) ∧
        (¬ (options.CheckValuesEqual = true ∧ cur.Chart.Values = again) →
          (options.ReInstallRelease = true →
            (∀ e, env.uninstall = some e →
              (h.Delivery releaseName appRevision env store).trace.filter HelmEvent.mutating =
                [HelmEvent.uninstall releaseName (some e)]) ∧
            (env.uninstall = none →
              (h.Delivery releaseName appRevision env store).trace.filter HelmEvent.mutating =
                [HelmEvent.uninstall releaseName none,
                  HelmEvent.install releaseName { loaded with Description := appRevision.String }
                    again env.install])) ∧
          (options.ReInstallRelease = false →
            (h.Delivery releaseName appRevision env store).trace.filter HelmEvent.mutating =
              [HelmEvent.upgrade releaseName { loaded with Description := appRevision.String }
                again env.upgrade])))) := by
  constructor
  · intro hno
    have hs := getCurrentRelease.scan_absent releaseName store hno
    unfold HelmProvider.Delivery
    simp only [hlist, hupdate, hload, hvalues, hs, hopt, HelmProvider.install]
    cases env.install <;> simp [HelmEvent.mutating]
  · intro pre post cur again hstore hpre hcur hagain
    have hs := getCurrentRelease.scan_first releaseName pre post cur hpre hcur
    rw [← hstore] at hs
    unfold HelmProvider.Delivery
    simp only [hlist, hupdate, hload, hvalues, hs, hopt, hagain]
    refine ⟨fun hd => by simp [hd, HelmEvent.mutating], fun hd => ⟨fun hv => ?_, fun hv => ⟨fun hre => ⟨fun e he => ?_, fun he => ?_⟩, fun hre => ?_⟩⟩⟩
    · simp [hd, hv, HelmEvent.mutating]
    · simp [hd, hv, hre, he, HelmEvent.mutating]
    · simp only [hd, hv, hre, he, HelmProvider.install, if_true, if_false]
      cases env.install <;> simp [HelmEvent.mutating]
    · simp only [hd, hv, hre, HelmProvider.upgrade, if_false, Bool.false_eq_true]
      cases env.upgrade <;> simp [HelmEvent.mutating]

/-- C11 at scenario S4 without `CheckValuesEqual`: the release of the older
revision is upgraded, and nothing else is changed. -/
theorem C11_helm_decision_witness :
    ((helmWith false false).Delivery "a" ⟨7⟩ (helmEnvOk (some [("replicas", "1")]))
        [releaseOld]).trace.filter HelmEvent.mutating =
      [HelmEvent.upgrade "a"
        { Description := Hash.String ⟨7⟩, Values := some [("replicas", "1")] }
        (some [("replicas", "1")]) none] :=
  ((((C11_helm_decision (helmWith false false) _ "a" ⟨7⟩ (helmEnvOk (some [("replicas", "1")]))
    [releaseOld] _ _ rfl rfl rfl rfl rfl).2 [] [] releaseOld _ rfl (by simp) rfl rfl).2
      (by decide)).2 (by decide)).2 rfl

/-- C12, as stated, fails: with `CheckValuesEqual` on and unchanged values, a
delivery of revision `7` returns nil and leaves the release of the older
revision, whose description is not the revision string, as the newest one. -/
theorem C12_counterexample :
    ((helmWith true false).Delivery "a" ⟨7⟩ (helmEnvOk (some [("replicas", "1")]))
        [releaseOld]).ret = Go.ok () ∧
    getCurrentRelease.scan "a"
      ((helmWith true false).Delivery "a" ⟨7⟩ (helmEnvOk (some [("replicas", "1")]))
        [releaseOld]).store = some releaseOld ∧
    releaseOld.Chart.Description ≠ Hash.String ⟨7⟩ := by
  decide

/-- C12, amended: after a Helm delivery that returns nil, the newest release
with the release name has the revision string as its chart description, unless
the delivery skipped because `CheckValuesEqual` is on and the values of the
released chart equal the merged values; in that case the release store is left
as it was. -/
theorem C12_description_or_values_skip (h : HelmProvider) (releaseName : String)
    (appRevision : Hash) (env : HelmEnv) (store : List Release)
    (hok : (h.Delivery releaseName appRevision env store).ret = Go.ok ()) :
    (∃ cur, getCurrentRelease.scan releaseName
        (h.Delivery releaseName appRevision env store).store = some cur ∧
      cur.Chart.Description = appRevision.String) ∨
    (∃ options cur again, h.ActionOptions = some options ∧ options.CheckValuesEqual = true ∧
      getCurrentRelease.scan releaseName store = some cur ∧
      env.MergeValuesAgain = .ok again ∧ cur.Chart.Values = again ∧
      cur.Chart.Description ≠ appRevision.String ∧
      (h.Delivery releaseName appRevision env store).store = store) := by
  cases hl : env.List with
  | some e => simp [HelmProvider.Delivery, hl] at hok
  | none =>
  cases hu : env.Update with
  | some e => simp [HelmProvider.Delivery, hl, hu] at hok
  | none =>
  cases hld : env.Load with
  | error e => simp [HelmProvider.Delivery, hl, hu, hld] at hok
  | ok loaded =>
  cases hm : env.MergeValues with
  | error e => simp [HelmProvider.Delivery, hl, hu, hld, hm] at hok
  | ok values =>
  cases hs : getCurrentRelease.scan releaseName store with
  | none =>
    cases ho : h.ActionOptions with
    | none => simp [HelmProvider.Delivery, hl, hu, hld, hm, hs, ho] at hok
    | some options =>
      cases hi : env.install with
      | some e => simp [HelmProvider.Delivery, hl, hu, hld, hm, hs, ho, HelmProvider.install, hi] at hok
      | none =>
        left
        simp [HelmProvider.Delivery, hl, hu, hld, hm, hs, ho, HelmProvider.install, hi,
          getCurrentRelease.scan]
  | some cur =>
    cases hm2 : env.MergeValuesAgain with
    | error e => simp [HelmProvider.Delivery, hl, hu, hld, hm, hs, hm2] at hok
    | ok again =>
      by_cases hd : cur.Chart.Description = appRevision.String
      · left
        exact ⟨cur, by simp [HelmProvider.Delivery, hl, hu, hld, hm, hs, hm2, hd], hd⟩
      · cases ho : h.ActionOptions with
        | none => simp [HelmProvider.Delivery, hl, hu, hld, hm, hs, hm2, hd, ho] at hok
        | some options =>
          by_cases hv : options.CheckValuesEqual = true ∧ cur.Chart.Values = again
          · right
            refine ⟨options, cur, again, rfl, hv.1, rfl, rfl, hv.2, hd, ?_⟩
            simp [HelmProvider.Delivery, hl, hu, hld, hm, hs, hm2, hd, ho, hv]
          · left
            by_cases hre : options.ReInstallRelease = true
            · cases hun : env.uninstall with
              | some e =>
                simp [HelmProvider.Delivery, hl, hu, hld, hm, hs, hm2, hd, ho, hv, hre, hun] at hok
              | none =>
                cases hi : env.install with
                | some e =>
                  simp [HelmProvider.Delivery, hl, hu, hld, hm, hs, hm2, hd, ho, hv, hre, hun,
                    HelmProvider.install, hi] at hok
                | none =>
                  simp [HelmProvider.Delivery, hl, hu, hld, hm, hs, hm2, hd, ho, hv, hre, hun,
                    HelmProvider.install, hi, getCurrentRelease.scan]
            · cases hup : env.upgrade with
              | some e =>
                simp [HelmProvider.Delivery, hl, hu, hld, hm, hs, hm2, hd, ho, hv, hre,
                  HelmProvider.upgrade, hup] at hok
              | none =>
                simp [HelmProvider.Delivery, hl, hu, hld, hm, hs, hm2, hd, ho, hv, hre,
                  HelmProvider.upgrade, hup, getCurrentRelease.scan]

/-- C12, amended, at scenario S4 without `CheckValuesEqual`: after the upgrade
the newest release of `a` carries the revision string of `7`. -/
theorem C12_description_or_values_skip_witness :
    (∃ cur, getCurrentRelease.scan "a"
        ((helmWith false false).Delivery "a" ⟨7⟩ (helmEnvOk (some [("replicas", "1")]))
          [releaseOld]).store = some cur ∧
      cur.Chart.Description = Hash.String ⟨7⟩) ∨
    (∃ options cur again, (helmWith false false).ActionOptions = some options ∧
      options.CheckValuesEqual = true ∧
      getCurrentRelease.scan "a" [releaseOld] = some cur ∧
      (helmEnvOk (some [("replicas", "1")])).MergeValuesAgain = .ok again ∧
      cur.Chart.Values = again ∧
      cur.Chart.Description ≠ Hash.String ⟨7⟩ ∧
      ((helmWith false false).Delivery "a" ⟨7⟩ (helmEnvOk (some [("replicas", "1")]))
          [releaseOld]).store = [releaseOld]) :=
  C12_description_or_values_skip (helmWith false false) "a" ⟨7⟩
    (helmEnvOk (some [("replicas", "1")])) [releaseOld] (by decide)

/-! ## The Raw provider: theorems on one object -/

/-- C13: for one record, after the `Get`, `Resource.Delivery` makes a `Create`
when the `Get` reports not-found; no call when the `Get` fails otherwise; no
call when the existing object has no `dummy.cd/revision` label; an `Update` of
the local object with the `resourceVersion` of the existing one when the two
revision labels differ; no call when they are equal.  In every case at most one
call changes the cluster. -/
theorem C13_resource_decision (r : Resource) (p : RawProvider) (env : ClusterEnv) :
    (env.Get r.gvr p.ns r.obj.name = .notFound →
      (r.Delivery p env).2 =
        [RawEvent.Get r.gvr p.ns r.obj.name,
          RawEvent.Create r.gvr p.ns { r.obj with labels := p.labels }
            (env.Create r.gvr p.ns { r.obj with labels := p.labels })]) ∧
    (∀ e, env.Get r.gvr p.ns r.obj.name = .failed e →
      (r.Delivery p env).2 = [RawEvent.Get r.gvr p.ns r.obj.name]) ∧
    (∀ remote, env.Get r.gvr p.ns r.obj.name = .found remote →
      (Labels.exist remote.labels "dummy.cd/revision" = false →
        (r.Delivery p env).2 = [RawEvent.Get r.gvr p.ns r.obj.name]) ∧
      (Labels.exist remote.labels "dummy.cd/revision" = true →
        (Labels.get p.labels "dummy.cd/revision" ≠ Labels.get remote.labels "dummy.cd/revision" →
          (r.Delivery p env).2 =
            [RawEvent.Get r.gvr p.ns r.obj.name,
              RawEvent.Update r.gvr p.ns
                { r.obj with labels := p.labels, resourceVersion := remote.resourceVersion }
                (env.Update r.gvr p.ns
                  { r.obj with labels := p.labels, resourceVersion := remote.resourceVersion })]) ∧
        (Labels.get p.labels "dummy.cd/revision" = Labels.get remote.labels "dummy.cd/revision" →
          (r.Delivery p env).2 = [RawEvent.Get r.gvr p.ns r.obj.name]))) ∧
    ((r.Delivery p env).2.filter RawEvent.mutating).length ≤ 1 := by
  refine ⟨fun h => ?_, fun e h => ?_, fun remote h => ⟨fun hx => ?_, fun hx => ⟨fun hne => ?_, fun heq => ?_⟩⟩, ?_⟩
  · simp [Resource.Delivery, h]
  · simp [Resource.Delivery, h]
  · simp [Resource.Delivery, h, hx]
  · simp [Resource.Delivery, h, hx, hne]
  · simp [Resource.Delivery, h, hx, heq]
  · unfold Resource.Delivery
    simp only
    split
    · simp [RawEvent.mutating]
    · simp [RawEvent.mutating]
    · split
      · simp [RawEvent.mutating]
      · split <;> simp [RawEvent.mutating]

/-! ## The Raw provider: labels -/

theorem Resource.Delivery_sent (r : Resource) (p : RawProvider) (env : ClusterEnv)
    (ev : RawEvent) (obj : Unstructured) (hev : ev ∈ (r.Delivery p env).2)
    (hobj : ev.sent = some obj) : obj.labels = p.labels := by
  unfold Resource.Delivery at hev
  simp only at hev
  split at hev
  · simp only [List.mem_cons, List.mem_singleton, List.not_mem_nil, or_false] at hev
    rcases hev with rfl | rfl
    · simp [RawEvent.sent] at hobj
    · simp only [RawEvent.sent, Option.some.injEq] at hobj
      rw [← hobj]
  · simp only [List.mem_singleton] at hev
    subst hev
    simp [RawEvent.sent] at hobj
  · split at hev
    · simp only [List.mem_singleton] at hev
      subst hev
      simp [RawEvent.sent] at hobj
    · split at hev
      · simp only [List.mem_cons, List.mem_singleton, List.not_mem_nil, or_false] at hev
        rcases hev with rfl | rfl
        · simp [RawEvent.sent] at hobj
        · simp only [RawEvent.sent, Option.some.injEq] at hobj
          rw [← hobj]
      · simp only [List.mem_singleton] at hev
        subst hev
        simp [RawEvent.sent] at hobj

theorem RawProvider.applyAll_sent (p : RawProvider) (env : ClusterEnv) (rs : List Resource)
    (ev : RawEvent) (obj : Unstructured) (hev : ev ∈ (RawProvider.applyAll p env rs).2)
    (hobj : ev.sent = some obj) : obj.labels = p.labels := by
  induction rs with
  | nil => simp [RawProvider.applyAll] at hev
  | cons r rest ih =>
    simp only [RawProvider.applyAll, List.mem_append] at hev
    rcases hev with h | h
    · exact Resource.Delivery_sent r p env ev obj h hobj
    · exact ih h

/-- Every object sent by one delivery carries the labels of the provider with the
revision label set to the revision string, and the provider keeps these labels
and its name. -/
theorem RawProvider.Delivery_labels (p : RawProvider) (fs : FsEnv) (env : ClusterEnv) :
    (∀ ev ∈ (p.Delivery fs env).applied, ∀ obj, ev.sent = some obj →
      obj.labels = Labels.set p.labels "dummy.cd/revision" p.appRevision.String) ∧
    ((p.Delivery fs env).ret ≠ Go.panic →
      (p.Delivery fs env).provider.labels =
        Labels.set p.labels "dummy.cd/revision" p.appRevision.String) ∧
    (p.Delivery fs env).provider.appName = p.appName := by
  unfold RawProvider.Delivery
  simp only
  split
  · simp
  · refine ⟨?_, fun _ => rfl, rfl⟩
    intro ev hev obj hobj
    exact RawProvider.applyAll_sent _ env _ ev obj hev hobj

theorem labelsOf_set (appName revision : String) (labels : Labels) (h : labelsOf appName labels) :
    Labels.set labels "dummy.cd/revision" revision =
      [("dummy.cd/app", appName), ("dummy.cd/revision", revision)] := by
  have hne : ¬ ("dummy.cd/app" = "dummy.cd/revision") := by decide
  rcases h with h | ⟨old, h⟩ <;> simp [h, Labels.set, hne]

theorem RawProvider.deliveries_labels (appName : String)
    (calls : List (Hash × FsEnv × ClusterEnv)) :
    ∀ p : RawProvider, p.appName = appName → labelsOf appName p.labels →
      ∀ run ∈ p.deliveries calls, ∀ ev ∈ run.2.applied, ∀ obj, ev.sent = some obj →
        obj.labels = [("dummy.cd/app", appName), ("dummy.cd/revision", run.1.String)] := by
  induction calls with
  | nil => intro p _ _ run hrun; simp [RawProvider.deliveries] at hrun
  | cons call rest ih =>
    intro p hname hlabels run hrun ev hev obj hobj
    obtain ⟨revision, fs, env⟩ := call
    have hd := RawProvider.Delivery_labels { p with appRevision := revision } fs env
    have hset := labelsOf_set appName revision.String p.labels hlabels
    simp only [RawProvider.deliveries] at hrun
    split at hrun
    · simp only [List.mem_singleton] at hrun
      subst hrun
      rw [hd.1 ev hev obj hobj]
      exact hset
    · rename_i hnp
      simp only [List.mem_cons] at hrun
      rcases hrun with rfl | hrun
      · rw [hd.1 ev hev obj hobj]
        exact hset
      · refine ih _ ?_ ?_ run hrun ev hev obj hobj
        · rw [hd.2.2]
          exact hname
        · rw [hd.2.1 hnp]
          exact Or.inr ⟨revision.String, hset⟩

theorem NewRawProvider_labels (fs : FsEnv) (env : ClusterEnv) (appName resourcePath ns : String)
    (appRevision : Hash) (p : RawProvider)
    (h : NewRawProvider fs env appName resourcePath ns appRevision = Go.ok p) :
    p.appName = appName ∧ p.labels = [("dummy.cd/app", appName)] := by
  unfold NewRawProvider at h
  simp only at h
  split at h
  · simp at h
  · split at h
    · simp at h
    · split at h
      · simp at h
      · split at h
        · simp at h
        · split at h
          · simp at h
          · simp only [Go.ok.injEq] at h
            subst h
            exact ⟨rfl, rfl⟩

/-- C14: for a provider built by `NewRawProvider` and taken through any run of
deliveries, every object that a delivery sends to `Create` or `Update` carries
the label `dummy.cd/app` with the application name and the label
`dummy.cd/revision` with the string of the revision held when that delivery was
called. -/
theorem C14_sent_labels (fs : FsEnv) (env : ClusterEnv) (appName resourcePath ns : String)
    (appRevision : Hash) (p : RawProvider) (calls : List (Hash × FsEnv × ClusterEnv))
    (hbuilt : NewRawProvider fs env appName resourcePath ns appRevision = Go.ok p) :
    ∀ run ∈ p.deliveries calls, ∀ ev ∈ run.2.applied, ∀ obj, ev.sent = some obj →
      Labels.get obj.labels "dummy.cd/app" = appName ∧
      Labels.get obj.labels "dummy.cd/revision" = run.1.String := by
  intro run hrun ev hev obj hobj
  obtain ⟨hname, hlabels⟩ := NewRawProvider_labels fs env appName resourcePath ns appRevision p hbuilt
  have h := RawProvider.deliveries_labels appName calls p hname (Or.inl hlabels) run hrun ev hev
    obj hobj
  have hne : ¬ ("dummy.cd/app" = "dummy.cd/revision") := by decide
  rw [h]
  simp [Labels.get, List.lookup, hne]

/-- C14 at the first delivery of revision `7` by the provider built over
`fsFlat`: the config map sent to `Create` carries both labels. -/
theorem C14_sent_labels_witness :
    Labels.get cmALabelled.labels "dummy.cd/app" = "a" ∧
    Labels.get cmALabelled.labels "dummy.cd/revision" = Hash.String ⟨7⟩ :=
  C14_sent_labels fsFlat (clusterS5 none) "a" "deploy" "ns" ZeroHash rawFlat
    [(⟨7⟩, fsFlat, clusterS5 none)] (by decide)
    (⟨7⟩, ({ rawFlat with appRevision := ⟨7⟩ } : RawProvider).Delivery fsFlat (clusterS5 none))
    (by simp [RawProvider.deliveries])
    (RawEvent.Create { Group := "", Version := "v1", Resource := "configmaps" } "ns" cmALabelled none)
    (by decide) cmALabelled rfl

/-! ## The Raw provider: the prune -/

theorem cleanResources.selector_ok (p : RawProvider) (env : ClusterEnv) (cleanAll : Bool)
    (sel : List Requirement) (h : cleanResources.selector p env cleanAll = .ok sel) :
    sel = if cleanAll then [appRequirement p.appName]
      else [appRequirement p.appName, revisionRequirement p.appRevision] := by
  unfold cleanResources.selector NewRequirement at h
  cases hv : env.validate [p.appName] with
  | some e => simp [hv] at h
  | none =>
    cases cleanAll with
    | true =>
      simp only [hv, Bool.not_true, Bool.false_eq_true, if_false, Except.ok.injEq] at h
      simp [← h, appRequirement]
    | false =>
      cases hr : env.validate [p.appRevision.String] with
      | some e => simp [hv, hr] at h
      | none =>
        simp only [hv, hr, Bool.not_false, if_true, Except.ok.injEq] at h
        simp [← h, appRequirement, revisionRequirement]

theorem cleanResources.task_list (p : RawProvider) (env : ClusterEnv) (sel : List Requirement)
    (gvr g : GVR) (n : String) (s : List Requirement)
    (h : RawEvent.List g n s ∈ cleanResources.task p env sel gvr) : s = sel := by
  unfold cleanResources.task at h
  rcases List.mem_cons.1 h with h | h
  · injection h with _ _ hs
  · split at h
    · simp at h
    · simp at h

theorem cleanResources.version_list (p : RawProvider) (env : ClusterEnv)
    (sel : List Requirement) (name : String) (v : GroupVersionForDiscovery) (g : GVR)
    (n : String) (s : List Requirement)
    (h : RawEvent.List g n s ∈ cleanResources.version p env sel name v) : s = sel := by
  unfold cleanResources.version at h
  rcases List.mem_cons.1 h with h | h
  · cases h
  · split at h
    · simp at h
    · rcases List.mem_flatten.1 h with ⟨l, hl, hin⟩
      rcases List.mem_map.1 hl with ⟨res, _, rfl⟩
      exact cleanResources.task_list p env sel _ g n s hin

/-- Every `List` call of `cleanResources` carries the selector that was built. -/
theorem RawProvider.cleanResources_list (p : RawProvider) (env : ClusterEnv) (cleanAll : Bool)
    (g : GVR) (n : String) (s : List Requirement)
    (h : RawEvent.List g n s ∈ (p.cleanResources env cleanAll).2) :
    s = if cleanAll then [appRequirement p.appName]
      else [appRequirement p.appName, revisionRequirement p.appRevision] := by
  unfold RawProvider.cleanResources at h
  split at h
  · simp at h
  · split at h
    · simp at h
    · split at h
      · simp at h
      · rename_i sel hsel
        rcases List.mem_cons.1 h with h | h
        · cases h
        · rcases List.mem_flatten.1 h with ⟨l, hl, hin⟩
          rcases List.mem_map.1 hl with ⟨group, _, rfl⟩
          rcases List.mem_flatten.1 hin with ⟨l2, hl2, hin2⟩
          rcases List.mem_map.1 hl2 with ⟨v, _, rfl⟩
          rw [cleanResources.version_list p env sel _ v g n s hin2]
          exact cleanResources.selector_ok p env cleanAll sel hsel

/-- C15: every `List` call of `cleanResources` carries the selector
`dummy.cd/app == <app>, dummy.cd/revision != <revision>` when `cleanAll` is
false and the single requirement `dummy.cd/app == <app>` when it is true; the
prune that a delivery starts is `cleanResources(false)`, so it lists with both
requirements, and `Uninstall` is `cleanResources(true)`, so it lists with the
application requirement alone. -/
theorem C15_selector (p : RawProvider) (fs : FsEnv) (env : ClusterEnv) :
    (∀ cleanAll g n s, RawEvent.List g n s ∈ (p.cleanResources env cleanAll).2 →
      s = if cleanAll then [appRequirement p.appName]
        else [appRequirement p.appName, revisionRequirement p.appRevision]) ∧
    (∀ t, (p.Delivery fs env).pruned = some t →
      t = ((p.Delivery fs env).provider.cleanResources env false).2 ∧
      ∀ g n s, RawEvent.List g n s ∈ t →
        s = [appRequirement p.appName, revisionRequirement p.appRevision]) ∧
    (p.Uninstall env = p.cleanResources env true ∧
      ∀ g n s, RawEvent.List g n s ∈ (p.Uninstall env).2 → s = [appRequirement p.appName]) := by
  refine ⟨fun cleanAll g n s h => RawProvider.cleanResources_list p env cleanAll g n s h, ?_, rfl, ?_⟩
  · intro t ht
    unfold RawProvider.Delivery at ht ⊢
    simp only at ht ⊢
    split at ht
    · simp at ht
    · rename_i resources _
      simp only at ht ⊢
      split at ht
      · simp only [Option.some.injEq] at ht
        refine ⟨ht.symm, ?_⟩
        intro g n s hs
        rw [← ht] at hs
        have := RawProvider.cleanResources_list _ env false g n s hs
        simpa using this
      · simp at ht
  · intro g n s hs
    have := RawProvider.cleanResources_list p env true g n s hs
    simpa using this

theorem cleanResources.task_mem (p : RawProvider) (env : ClusterEnv) (sel : List Requirement)
    (gvr : GVR) :
    RawEvent.List gvr p.ns sel ∈ cleanResources.task p env sel gvr ∧
    ∀ items, env.List gvr p.ns sel = .ok items → ∀ item ∈ items,
      RawEvent.Delete gvr p.ns item.name (env.Delete gvr p.ns item.name) ∈
        cleanResources.task p env sel gvr := by
  unfold cleanResources.task
  refine ⟨List.mem_cons_self _ _, ?_⟩
  intro items hitems item hitem
  rw [hitems]
  exact List.mem_cons_of_mem _ (List.mem_map.2 ⟨item, hitem, rfl⟩)

theorem cleanResources.version_mem (p : RawProvider) (env : ClusterEnv) (sel : List Requirement)
    (name : String) (v : GroupVersionForDiscovery) (resources : List String)
    (hres : env.ServerResourcesForGroupVersion v.GroupVersion = .ok resources)
    (res : String) (hin : res ∈ resources) (ev : RawEvent)
    (hev : ev ∈ cleanResources.task p env sel
      { Group := name, Version := v.Version, Resource := res }) :
    ev ∈ cleanResources.version p env sel name v := by
  unfold cleanResources.version
  rw [hres]
  refine List.mem_cons_of_mem _ (List.mem_flatten.2 ⟨_, List.mem_map.2 ⟨res, hin, rfl⟩, hev⟩)

/-- C16, as stated, fails: a provider whose revision is still zero returns from
`Uninstall` without a single call, although the cluster would list the labelled
config map `cm-b`. -/
theorem C16_counterexample :
    (rawS5 ZeroHash).appRevision = ZeroHash ∧
    (clusterS5 none).List { Group := "", Version := "v1", Resource := "configmaps" } "ns"
        [appRequirement "a"] =
      .ok [{ apiVersion := "v1", kind := "ConfigMap", name := "cm-b"
             labels := [("dummy.cd/app", "a"), ("dummy.cd/revision", "old")] }] ∧
    (rawS5 ZeroHash).Uninstall (clusterS5 none) = (none, []) := by
  decide

/-- C16, amended: with a zero revision `Uninstall` returns nil and makes no
call; with a non-zero revision, when the API groups can be listed and the
application name passes as a label value, it returns nil and, for every resource
of every group version whose resources can be discovered, lists the objects of
the namespace with the selector `dummy.cd/app == <app>` and issues a delete for
every object that the list answers. -/
theorem C16_uninstall_prunes (p : RawProvider) (env : ClusterEnv) :
    (p.appRevision.IsZero = true → p.Uninstall env = (none, [])) ∧
    (p.appRevision.IsZero = false → ∀ groups, env.ServerGroups = .ok groups →
      env.validate [p.appName] = none →
      (p.Uninstall env).1 = none ∧
      ∀ group ∈ groups, ∀ v ∈ group.Versions, ∀ resources,
        env.ServerResourcesForGroupVersion v.GroupVersion = .ok resources →
        ∀ res ∈ resources,
          RawEvent.List { Group := group.Name, Version := v.Version, Resource := res } p.ns
              [appRequirement p.appName] ∈ (p.Uninstall env).2 ∧
          ∀ items,
            env.List { Group := group.Name, Version := v.Version, Resource := res } p.ns
              [appRequirement p.appName] = .ok items →
            ∀ item ∈ items,
              RawEvent.Delete { Group := group.Name, Version := v.Version, Resource := res } p.ns
                item.name
                (env.Delete { Group := group.Name, Version := v.Version, Resource := res } p.ns
                  item.name) ∈ (p.Uninstall env).2) := by
  constructor
  · intro hz
    simp [RawProvider.Uninstall, RawProvider.cleanResources, hz]
  · intro hz groups hgroups hvalid
    have hsel : cleanResources.selector p env true = .ok [appRequirement p.appName] := by
      simp [cleanResources.selector, NewRequirement, hvalid, appRequirement]
    have hrun : p.Uninstall env = (none, RawEvent.ServerGroups ::
        (groups.map (fun apiGroup =>
          (apiGroup.Versions.map (fun apiGroupVersion =>
            cleanResources.version p env [appRequirement p.appName] apiGroup.Name
              apiGroupVersion)).flatten)).flatten) := by
      simp [RawProvider.Uninstall, RawProvider.cleanResources, hz, hgroups, hsel]
    rw [hrun]
    refine ⟨rfl, ?_⟩
    intro group hgroup v hv resources hres res hin
    have hmem : ∀ ev, ev ∈ cleanResources.task p env [appRequirement p.appName]
          { Group := group.Name, Version := v.Version, Resource := res } →
        ev ∈ RawEvent.ServerGroups ::
          (groups.map (fun apiGroup =>
            (apiGroup.Versions.map (fun apiGroupVersion =>
              cleanResources.version p env [appRequirement p.appName] apiGroup.Name
                apiGroupVersion)).flatten)).flatten := by
      intro ev hev
      refine List.mem_cons_of_mem _ (List.mem_flatten.2 ⟨_, List.mem_map.2 ⟨group, hgroup, rfl⟩, ?_⟩)
      refine List.mem_flatten.2 ⟨_, List.mem_map.2 ⟨v, hv, rfl⟩, ?_⟩
      exact cleanResources.version_mem p env _ group.Name v resources hres res hin ev hev
    have htask := cleanResources.task_mem p env [appRequirement p.appName]
      { Group := group.Name, Version := v.Version, Resource := res }
    exact ⟨hmem _ htask.1, fun items hitems item hitem => hmem _ (htask.2 items hitems item hitem)⟩

/-- C16, amended, at the provider of revision `7`: `Uninstall` lists the config
maps labelled for `a` and deletes `cm-b`. -/
theorem C16_uninstall_prunes_witness :
    ((rawS5 ⟨7⟩).Uninstall (clusterS5 none)).1 = none ∧
    RawEvent.Delete { Group := "", Version := "v1", Resource := "configmaps" } "ns" "cm-b" none ∈
      ((rawS5 ⟨7⟩).Uninstall (clusterS5 none)).2 :=
  have h := (C16_uninstall_prunes (rawS5 ⟨7⟩) (clusterS5 none)).2 (by decide) _ rfl rfl
  ⟨h.1, (h.2 { Name := "", Versions := [{ GroupVersion := "v1", Version := "v1" }] }
      (by simp) { GroupVersion := "v1", Version := "v1" } (by simp) ["configmaps"] rfl
      "configmaps" (by simp)).2 _ rfl
      { apiVersion := "v1", kind := "ConfigMap", name := "cm-b"
        labels := [("dummy.cd/app", "a"), ("dummy.cd/revision", "old")] } (by simp)⟩

/-! ## Manifest files: theorems -/

theorem splitOn_not_mem (sep : Char) (l : List Char) (h : sep ∉ l) : splitOn sep l = [l] := by
  induction l with
  | nil => rfl
  | cons c cs ih =>
    have hc : ¬ c = sep := fun hc => h (by simp [hc])
    have hcs : sep ∉ cs := fun hin => h (List.mem_cons_of_mem _ hin)
    simp [splitOn, hc, ih hcs]

theorem splitOn_append_sep (sep : Char) (g rest : List Char) (h : sep ∉ g) :
    splitOn sep (g ++ sep :: rest) = g :: splitOn sep rest := by
  induction g with
  | nil => simp [splitOn]
  | cons c cs ih =>
    have hc : ¬ c = sep := fun hc => h (by simp [hc])
    have hcs : sep ∉ cs := fun hin => h (List.mem_cons_of_mem _ hin)
    simp [splitOn, hc, ih hcs]

theorem strings.ToLower_append_s (lowerCase : Char → Char) (kind : String) :
    strings.ToLower lowerCase (kind ++ "s") = strings.ToLower lowerCase kind ++ "s" := by
  have hs : unicode.ToLower lowerCase 's' = 's' := by
    unfold unicode.ToLower
    rw [if_pos (by decide)]
    rfl
  apply String.ext
  simp [strings.ToLower, String.data_append, hs]

theorem NewUnstructuredResources_readable (fs : FsEnv) (files : List String)
    (h : ∀ path ∈ files, (fs.ReadFile path).isSome = true) :
    NewUnstructuredResources fs files =
      some (files.filterMap (fun path => (NewUnstructuredResource fs path).getD none)) := by
  induction files with
  | nil => rfl
  | cons path rest ih =>
    have hrest := ih (fun q hq => h q (List.mem_cons_of_mem _ hq))
    have hpath := h path (List.mem_cons_self _ _)
    unfold NewUnstructuredResources
    rw [hrest]
    cases hr : NewUnstructuredResource fs path with
    | none =>
      exfalso
      unfold NewUnstructuredResource at hr
      cases hf : fs.ReadFile path with
      | none => simp [hf] at hpath
      | some file =>
        rw [hf] at hr
        simp only at hr
        split at hr <;> simp at hr
    | some res =>
      cases res with
      | none => simp [List.filterMap_cons, hr]
      | some resource => simp [List.filterMap_cons, hr]

/-- C17: for a file that can be read: when it parses to a non-empty document,
`NewUnstructuredResource` returns a record of that document whose resource is
the lowercased kind followed by `s`, whose group is empty and whose version is
the whole `apiVersion` when `apiVersion` has no `/`, and whose group and version
are the first and the second piece of `apiVersion` between slashes otherwise;
when the document is empty or does not parse it returns nil.  Over files that
can all be read, `NewUnstructuredResources` returns, in the order of the files,
exactly the records of the files that gave one. -/
theorem C17_records (fs : FsEnv) (path file : String) (hread : fs.ReadFile path = some file) :
    (∀ obj, fs.Unmarshal file = .document obj →
      ∃ r, NewUnstructuredResource fs path = some (some r) ∧ r.obj = obj ∧ r.filePath = path ∧
        r.resource = strings.ToLower fs.LowerCase obj.kind ++ "s" ∧
        ('/' ∉ obj.apiVersion.data → r.group = "" ∧ r.version = obj.apiVersion) ∧
        (∀ g v tail : List Char, obj.apiVersion.data = g ++ '/' :: (v ++ tail) →
          '/' ∉ g → '/' ∉ v → (tail = [] ∨ tail.head? = some '/') →
          r.group = String.mk g ∧ r.version = String.mk v)) ∧
    ((fs.Unmarshal file = .empty ∨ ∃ e, fs.Unmarshal file = .failed e) →
      NewUnstructuredResource fs path = some none) ∧
    (∀ files : List String, (∀ q ∈ files, (fs.ReadFile q).isSome = true) →
      NewUnstructuredResources fs files =
        some (files.filterMap (fun q => (NewUnstructuredResource fs q).getD none))) := by
  refine ⟨?_, ?_, fun files h => NewUnstructuredResources_readable fs files h⟩
  · intro obj hobj
    refine ⟨{ group := (groupVersionOf (strings.Split obj.apiVersion '/')).1
              version := (groupVersionOf (strings.Split obj.apiVersion '/')).2
              resource := strings.ToLower fs.LowerCase (obj.kind ++ "s"), filePath := path, obj := obj },
      by simp only [NewUnstructuredResource, hread, hobj], rfl, rfl,
      strings.ToLower_append_s fs.LowerCase obj.kind, ?_, ?_⟩
    · intro hno
      simp [strings.Split, splitOn_not_mem '/' _ hno, groupVersionOf]
    · intro g v tail hdata hg hv htail
      have hsplit : ∃ more, splitOn '/' obj.apiVersion.data = g :: v :: more := by
        rw [hdata, splitOn_append_sep '/' g _ hg]
        rcases htail with rfl | htail
        · exact ⟨[], by rw [List.append_nil, splitOn_not_mem '/' v hv]⟩
        · cases tail with
          | nil => simp at htail
          | cons c cs =>
            simp only [List.head?_cons, Option.some.injEq] at htail
            subst htail
            exact ⟨splitOn '/' cs, by rw [splitOn_append_sep '/' v cs hv]⟩
      obtain ⟨more, hmore⟩ := hsplit
      simp [strings.Split, hmore, groupVersionOf]
  · rintro (h | ⟨e, h⟩) <;> simp [NewUnstructuredResource, hread, h]

/-- C17 at a deployment manifest: `apps/v1` and `Deployment` give the group
`apps`, the version `v1` and the resource `deployments`; and at a manifest of
kind `Ünit`, whose first letter is lowered through the Unicode tables: the
resource is `ünits`. -/
theorem C17_records_witness :
    (∃ r, NewUnstructuredResource fsWeb "deploy/web.yaml" = some (some r) ∧
      r.group = "apps" ∧ r.version = "v1" ∧ r.resource = "deployments") ∧
    (∃ r, NewUnstructuredResource fsUnit "deploy/unit.yaml" = some (some r) ∧
      r.group = "example.org" ∧ r.resource = "ünits") :=
  have h := (C17_records fsWeb "deploy/web.yaml" "kind: Deployment" rfl).1 webDeployment rfl
  have hu := (C17_records fsUnit "deploy/unit.yaml" "kind: Ünit" rfl).1 unitManifest rfl
  ⟨h.elim fun r hr =>
    ⟨r, hr.1, (hr.2.2.2.2.2 "apps".data "v1".data [] rfl (by decide) (by decide) (Or.inl rfl)).1,
      (hr.2.2.2.2.2 "apps".data "v1".data [] rfl (by decide) (by decide) (Or.inl rfl)).2,
      by rw [hr.2.2.2.1]; decide⟩,
   hu.elim fun r hr =>
    ⟨r, hr.1,
      (hr.2.2.2.2.2 "example.org".data "v1".data [] rfl (by decide) (by decide) (Or.inl rfl)).1,
      by rw [hr.2.2.2.1]; decide⟩⟩

/-- C18 on the code: for the manifest `deploy/sub/cm.yaml`, which the walk visits
and whose name matches, `getResourceFiles` returns `deploy/cm.yaml`, the root
joined with the bare file name, and not the path of the file; the file is then
looked for where it is not, and building the provider panics on the nil pointer
that `util.ReadFile` returns. -/
theorem C18_nested_path_lost :
    ({ path := "deploy/sub/cm.yaml", name := "cm.yaml" } : WalkEntry) ∈ fsNested.Walk "deploy" ∧
    rxResourceFile "cm.yaml" = true ∧
    getResourceFiles fsNested "deploy" = ["deploy/cm.yaml"] ∧
    "deploy/sub/cm.yaml" ∉ getResourceFiles fsNested "deploy" ∧
    NewRawProvider fsNested (clusterS5 none) "a" "deploy" "ns" ZeroHash = Go.panic := by
  decide

/-! ## The Raw provider: construction and errors -/

/-- C19, as stated, fails: the directory holds one `.yaml` file with an empty
document, and `NewRawProvider` returns a provider, with no record at all. -/
theorem C19_counterexample :
    getResourceFiles fsEmptyDocument "deploy" = ["deploy/empty.yaml"] ∧
    NewUnstructuredResource fsEmptyDocument "deploy/empty.yaml" = some none ∧
    NewRawProvider fsEmptyDocument (clusterS5 none) "a" "deploy" "ns" ZeroHash =
      Go.ok { appName := "a", resourcePath := "deploy", ns := "ns", appRevision := ZeroHash
              resources := [], labels := [("dummy.cd/app", "a")] } := by
  decide

/-- C19, amended: `NewRawProvider` returns an error whenever no `.yaml` or `.yml`
file is found; when the clients and the namespace are ready and files are found
that can be read but are all empty or do not parse, it returns a provider whose
list of records is empty. -/
theorem C19_construction (fs : FsEnv) (env : ClusterEnv) (appName resourcePath ns : String)
    (appRevision : Hash) :
    (getResourceFiles fs resourcePath = [] →
      ∃ e, NewRawProvider fs env appName resourcePath ns appRevision = Go.err e) ∧
    (env.NewForConfig = none →
      (env.NamespaceGet (if len ns = 0 then "default" else ns) = .found () ∨
        (env.NamespaceGet (if len ns = 0 then "default" else ns) = .notFound ∧
          env.NamespaceCreate (if len ns = 0 then "default" else ns) = none)) →
      env.NewDynamic = none →
      getResourceFiles fs resourcePath ≠ [] →
      (∀ path ∈ getResourceFiles fs resourcePath, ∃ file, fs.ReadFile path = some file ∧
        (fs.Unmarshal file = .empty ∨ ∃ e, fs.Unmarshal file = .failed e)) →
      ∃ p, NewRawProvider fs env appName resourcePath ns appRevision = Go.ok p ∧
        p.resources = []) := by
  constructor
  · intro hfiles
    unfold NewRawProvider
    simp only [hfiles, List.length_nil, if_true]
    split
    · exact ⟨_, rfl⟩
    · split
      · exact ⟨_, rfl⟩
      · split
        · exact ⟨_, rfl⟩
        · exact ⟨_, rfl⟩
  · intro hcfg hns hdyn hfiles hall
    have hready : (match env.NamespaceGet (if len ns = 0 then "default" else ns) with
        | .found _ => none
        | .notFound => env.NamespaceCreate (if len ns = 0 then "default" else ns)
        | .failed e => some e) = none := by
      rcases hns with h | ⟨h, hc⟩
      · rw [h]
      · rw [h]
        exact hc
    have hlen : ¬ (getResourceFiles fs resourcePath).length = 0 := by
      intro h
      exact hfiles (List.length_eq_zero.1 h)
    have hrecords : NewUnstructuredResources fs (getResourceFiles fs resourcePath) = some [] := by
      rw [NewUnstructuredResources_readable fs _ (fun path hpath => by
        obtain ⟨file, hfile, _⟩ := hall path hpath
        simp [hfile])]
      congr 1
      apply List.filterMap_eq_nil_iff.2
      intro path hpath
      obtain ⟨file, hfile, hun⟩ := hall path hpath
      rcases hun with h | ⟨e, h⟩ <;> simp [NewUnstructuredResource, hfile, h]
    refine ⟨{ appName := appName, resourcePath := resourcePath
              ns := if len ns = 0 then "default" else ns
              appRevision := appRevision, resources := []
              labels := [("dummy.cd/app", appName)] }, ?_, rfl⟩
    unfold NewRawProvider
    simp only [hcfg, hready, hdyn, hlen, if_false, hrecords]

/-- C20, as stated, fails: the `Create` of the config map is refused, and the
delivery returns nil. -/
theorem C20_counterexample :
    (∃ ev ∈ ((rawS5 ⟨7⟩).Delivery fsFlat
        (clusterS5 (some (ExtErr.other "forbidden")))).applied, ev.applyError ≠ none) ∧
    ((rawS5 ⟨7⟩).Delivery fsFlat (clusterS5 (some (ExtErr.other "forbidden")))).ret =
      Go.ok () := by
  decide

/-- C20, amended: a Raw delivery never returns a non-nil error, whatever the
`Create` and `Update` calls answer; when it returns, it returns nil. -/
theorem C20_delivery_returns_nil (p : RawProvider) (fs : FsEnv) (env : ClusterEnv) :
    ∀ e, (p.Delivery fs env).ret ≠ Go.err e := by
  intro e
  unfold RawProvider.Delivery
  simp only
  split <;> simp

/-! ## Removing an application: lemmas -/

theorem DeleteApplication.scan_no_namesake (name : String) (l : List (Option Application))
    (h : ∀ x ∈ l, ∃ b, x = some b ∧ b.Name ≠ name) :
    ∀ i appIndex, DeleteApplication.scan name l i appIndex = some appIndex := by
  induction l with
  | nil => intro i appIndex; rfl
  | cons x rest ih =>
    intro i appIndex
    obtain ⟨b, rfl, hb⟩ := h x (List.mem_cons_self _ _)
    simp only [DeleteApplication.scan, hb, if_false]
    exact ih (fun y hy => h y (List.mem_cons_of_mem _ hy)) (i + 1) appIndex

theorem DeleteApplication.scan_last (name : String) (pre post : List (Option Application))
    (a : Application) (hpre : ∀ x ∈ pre, ∃ b, x = some b) (ha : a.Name = name)
    (hpost : ∀ x ∈ post, ∃ b, x = some b ∧ b.Name ≠ name) :
    ∀ i appIndex, DeleteApplication.scan name (pre ++ some a :: post) i appIndex =
      some (some (i + pre.length)) := by
  induction pre with
  | nil =>
    intro i appIndex
    simp only [List.nil_append, DeleteApplication.scan, ha, if_true, List.length_nil, Nat.add_zero]
    exact DeleteApplication.scan_no_namesake name post hpost (i + 1) (some i)
  | cons x rest ih =>
    intro i appIndex
    obtain ⟨b, rfl⟩ := hpre x (List.mem_cons_self _ _)
    simp only [List.cons_append, DeleteApplication.scan, List.length_cons]
    change DeleteApplication.scan name (rest ++ some a :: post) (i + 1) _ = _
    rw [ih (fun y hy => hpre y (List.mem_cons_of_mem _ hy)) (i + 1), Nat.add_assoc,
      Nat.add_comm 1]

/-- The scan of `DeleteApplication` panics on a nil slot, or meets no application
with the name and keeps the index it started with, or ends on the position of
the last application with the name. -/
theorem DeleteApplication.scan_outcome (name : String) (l : List (Option Application)) :
    ∀ i appIndex,
      (none ∈ l ∧ DeleteApplication.scan name l i appIndex = none) ∨
      ((∀ x ∈ l, ∃ b, x = some b ∧ b.Name ≠ name) ∧
        DeleteApplication.scan name l i appIndex = some appIndex) ∨
      ∃ pre a post, l = pre ++ some a :: post ∧ (∀ x ∈ pre, ∃ b, x = some b) ∧ a.Name = name ∧
        (∀ x ∈ post, ∃ b, x = some b ∧ b.Name ≠ name) ∧
        DeleteApplication.scan name l i appIndex = some (some (i + pre.length)) := by
  induction l with
  | nil => intro i appIndex; right; left; simp [DeleteApplication.scan]
  | cons x rest ih =>
    intro i appIndex
    cases x with
    | none => left; simp [DeleteApplication.scan]
    | some b =>
      rcases ih (i + 1) (if b.Name = name then some i else appIndex) with
        ⟨hn, hs⟩ | ⟨hno, hs⟩ | ⟨pre, a, post, hl, hpre, ha, hpost, hs⟩
      · left
        exact ⟨List.mem_cons_of_mem _ hn, by simp [DeleteApplication.scan, hs]⟩
      · by_cases hb : b.Name = name
        · right; right
          refine ⟨[], b, rest, rfl, by simp, hb, hno, ?_⟩
          rw [if_pos hb] at hs
          simp [DeleteApplication.scan, hs, hb]
        · right; left
          refine ⟨?_, ?_⟩
          · intro y hy
            rcases List.mem_cons.1 hy with rfl | hy
            · exact ⟨b, rfl, hb⟩
            · exact hno y hy
          · rw [if_neg hb] at hs
            simp [DeleteApplication.scan, hs, hb]
      · right; right
        refine ⟨some b :: pre, a, post, by simp [hl], ?_, ha, hpost, ?_⟩
        · intro y hy
          rcases List.mem_cons.1 hy with rfl | hy
          · exact ⟨b, rfl⟩
          · exact hpre y hy
        · simp only [DeleteApplication.scan, hs, List.length_cons]
          rw [Nat.add_assoc, Nat.add_comm 1]

/-- The found path of `DeleteApplication`, spelled out. -/
theorem DeleteApplication_found (env : TeardownEnv) (held : List Mutex) (r : RepositoryConfig)
    (pre post : List (Option Application)) (a : Application) (kind : ProviderKind)
    (hl : r.Apps = pre ++ some a :: post) (hpre : ∀ x ∈ pre, ∃ b, x = some b)
    (hpost : ∀ x ∈ post, ∃ b, x = some b ∧ b.Name ≠ a.Name)
    (hkind : a.deliveryProvider = some kind)
    (hrepo : Mutex.repository r.Settings.URL ∉ held)
    (happ : Mutex.application r.Settings.URL a.Name ∉ held)
    (hprov : Mutex.provider r.Settings.URL a.Name ∉ held) :
    r.DeleteApplication env held a.Name =
      { ending := Ending.returns none
        repo := { r with Apps := swapPop (pre ++ some a :: post) pre.length }
        trace := [TeardownEvent.Uninstall a.Name (env.Uninstall a)]
        locks := [LockOp.Spin (Mutex.repository r.Settings.URL),
            LockOp.Spin (Mutex.application r.Settings.URL a.Name)] ++
          providerUninstallLocks r.Settings.URL a.Name (some kind) ++
          [LockOp.TryLock (Mutex.application r.Settings.URL a.Name) false,
            LockOp.TryLock (Mutex.repository r.Settings.URL) false]
        held := Mutex.application r.Settings.URL a.Name ::
          Mutex.repository r.Settings.URL :: held } := by
  have hs := DeleteApplication.scan_last a.Name pre post a hpre rfl hpost 0 none
  have hg := get?_append_cons_length pre (some a) post
  rw [Nat.zero_add] at hs
  unfold RepositoryConfig.DeleteApplication
  rw [hl, hs]
  simp only [hg, hrepo, happ, hkind, hprov, if_false, and_false]

/-! ## Removing an application: theorems -/

/-- C26: when no application of the list has the name, `DeleteApplication` makes
no step on any mutex and leaves the locked mutexes as they were; when it finds
the application (no nil slot, the three mutexes free), it returns nil, its steps
are the two acquisitions, the provider's own steps, and at the end the two
deferred `TryLock` calls, both answering false, and the Repository mutex and the
Application mutex are both still locked on return. -/
theorem C26_deferred_trylock (env : TeardownEnv) (held : List Mutex) (r : RepositoryConfig)
    (name : String) :
    ((∀ b, some b ∈ r.Apps → b.Name ≠ name) →
      (r.DeleteApplication env held name).locks = [] ∧
      (r.DeleteApplication env held name).held = held) ∧
    (∀ (pre post : List (Option Application)) (a : Application) (kind : ProviderKind),
      r.Apps = pre ++ some a :: post → (∀ x ∈ pre, ∃ b, x = some b) →
      (∀ x ∈ post, ∃ b, x = some b ∧ b.Name ≠ name) → a.Name = name →
      a.deliveryProvider = some kind →
      Mutex.repository r.Settings.URL ∉ held → Mutex.application r.Settings.URL name ∉ held →
      Mutex.provider r.Settings.URL name ∉ held →
      (r.DeleteApplication env held name).ending = Ending.returns none ∧
      (r.DeleteApplication env held name).locks =
        [LockOp.Spin (Mutex.repository r.Settings.URL),
            LockOp.Spin (Mutex.application r.Settings.URL name)] ++
          providerUninstallLocks r.Settings.URL name (some kind) ++
          [LockOp.TryLock (Mutex.application r.Settings.URL name) false,
            LockOp.TryLock (Mutex.repository r.Settings.URL) false] ∧
      Mutex.repository r.Settings.URL ∈ (r.DeleteApplication env held name).held ∧
      Mutex.application r.Settings.URL name ∈ (r.DeleteApplication env held name).held) := by
  constructor
  · intro habsent
    rcases DeleteApplication.scan_outcome name r.Apps 0 none with
      ⟨_, hs⟩ | ⟨_, hs⟩ | ⟨pre, a, post, hl, _, ha, _, _⟩
    · simp [RepositoryConfig.DeleteApplication, hs]
    · simp [RepositoryConfig.DeleteApplication, hs]
    · exact absurd ha (habsent a (by simp [hl]))
  · intro pre post a kind hl hpre hpost ha hkind hrepo happ hprov
    subst ha
    rw [DeleteApplication_found env held r pre post a kind hl hpre hpost hkind hrepo happ hprov]
    exact ⟨rfl, rfl, by simp, by simp⟩

/-- C26 at the repository of scenario S1: deleting `a` leaves both mutexes
locked. -/
theorem C26_deferred_trylock_witness :
    (repoWithS1.DeleteApplication teardownOk [] "a").ending = Ending.returns none ∧
    (repoWithS1.DeleteApplication teardownOk [] "a").locks =
      [LockOp.Spin (Mutex.repository "ssh://git@h/r.git"),
          LockOp.Spin (Mutex.application "ssh://git@h/r.git" "a")] ++
        providerUninstallLocks "ssh://git@h/r.git" "a" (some ProviderKind.raw) ++
        [LockOp.TryLock (Mutex.application "ssh://git@h/r.git" "a") false,
          LockOp.TryLock (Mutex.repository "ssh://git@h/r.git") false] ∧
    Mutex.repository "ssh://git@h/r.git" ∈ (repoWithS1.DeleteApplication teardownOk [] "a").held ∧
    Mutex.application "ssh://git@h/r.git" "a" ∈
      (repoWithS1.DeleteApplication teardownOk [] "a").held :=
  (C26_deferred_trylock teardownOk [] repoWithS1 "a").2 [] [] storedS1 ProviderKind.raw rfl
    (by simp) (by simp) rfl rfl (by simp) (by simp) (by simp)

/-- C23 on the code: `DeleteApplication` never calls `os.RemoveAll`, whatever the
repository and the name; at the repository of scenario S1 it calls the
provider's `Uninstall` for `a` and takes `a` out of the list, and the storage
directory of `a` is left, whereas `Application.Uninstall`, which
`DeleteRepository` runs for every application, removes that directory. -/
theorem C23_storage_left (env : TeardownEnv) (held : List Mutex) (r : RepositoryConfig)
    (name path : String) (e : Option ExtErr) :
    TeardownEvent.RemoveAll path e ∉ (r.DeleteApplication env held name).trace ∧
    (repoWithS1.DeleteApplication teardownOk [] "a").trace = [TeardownEvent.Uninstall "a" none] ∧
    (repoWithS1.DeleteApplication teardownOk [] "a").repo.Apps = [] ∧
    (storedS1.Uninstall teardownOk).2 =
      [TeardownEvent.Uninstall "a" none, TeardownEvent.RemoveAll "/root/.dummycd/storage/a" none] := by
  refine ⟨?_, by decide, by decide, by decide⟩
  unfold RepositoryConfig.DeleteApplication
  split
  · simp
  · simp
  · split
    · simp only
      split
      · simp
      · split
        · simp
        · split
          · simp
          · split <;> simp
    · simp

/-- C24 on the code: whenever `DeleteApplication` finds the application and
returns, its steps break the lock hierarchy: the last step is the deferred
`TryLock` on the Repository mutex, attempted while the Application mutex is
still held. -/
theorem C24_deferred_trylock_out_of_order (env : TeardownEnv) (held : List Mutex)
    (r : RepositoryConfig) (name : String)
    (hfound : (r.DeleteApplication env held name).locks ≠ [])
    (hret : (r.DeleteApplication env held name).ending = Ending.returns none) :
    topDown [] (r.DeleteApplication env held name).locks = false ∧
    ∃ steps a,
      (r.DeleteApplication env held name).locks =
        steps ++ [LockOp.TryLock (Mutex.repository r.Settings.URL) false] ∧
      Mutex.application r.Settings.URL a ∈ heldAfter [] steps := by
  cases hs : DeleteApplication.scan name r.Apps 0 none with
  | none => simp [RepositoryConfig.DeleteApplication, hs] at hfound
  | some idx =>
  cases idx with
  | none => simp [RepositoryConfig.DeleteApplication, hs] at hfound
  | some i =>
  cases hg : r.Apps[i]? with
  | none => simp [RepositoryConfig.DeleteApplication, hs, List.get?_eq_getElem?, hg] at hfound
  | some slot =>
  cases slot with
  | none => simp [RepositoryConfig.DeleteApplication, hs, List.get?_eq_getElem?, hg] at hfound
  | some application =>
  by_cases h1 : Mutex.repository r.Settings.URL ∈ held
  · simp [RepositoryConfig.DeleteApplication, hs, List.get?_eq_getElem?, hg, h1] at hret
  by_cases h2 : Mutex.application r.Settings.URL application.Name ∈ held
  · simp [RepositoryConfig.DeleteApplication, hs, List.get?_eq_getElem?, hg, h1, h2] at hret
  cases hk : application.deliveryProvider with
  | none => simp [RepositoryConfig.DeleteApplication, hs, List.get?_eq_getElem?, hg, h1, h2, hk] at hret
  | some kind =>
  by_cases h3 : kind = ProviderKind.raw ∧ Mutex.provider r.Settings.URL application.Name ∈ held
  · simp [RepositoryConfig.DeleteApplication, hs, List.get?_eq_getElem?, hg, h1, h2, hk, h3] at hret
  have hlocks : (r.DeleteApplication env held name).locks =
      [LockOp.Spin (Mutex.repository r.Settings.URL),
          LockOp.Spin (Mutex.application r.Settings.URL application.Name)] ++
        providerUninstallLocks r.Settings.URL application.Name (some kind) ++
        [LockOp.TryLock (Mutex.application r.Settings.URL application.Name) false,
          LockOp.TryLock (Mutex.repository r.Settings.URL) false] := by
    simp only [RepositoryConfig.DeleteApplication, hs, List.get?_eq_getElem?, hg, h1, h2, hk, h3, if_false]
  rw [hlocks]
  cases kind with
  | raw =>
    refine ⟨by simp [topDown, providerUninstallLocks, LockOp.attempts, LockOp.apply,
        Mutex.tier, Tier.rank],
      [LockOp.Spin (Mutex.repository r.Settings.URL),
        LockOp.Spin (Mutex.application r.Settings.URL application.Name),
        LockOp.Spin (Mutex.provider r.Settings.URL application.Name),
        LockOp.Unlock (Mutex.provider r.Settings.URL application.Name),
        LockOp.TryLock (Mutex.application r.Settings.URL application.Name) false],
      application.Name, by simp [providerUninstallLocks], ?_⟩
    simp [heldAfter, LockOp.apply]
  | helm =>
    refine ⟨by simp [topDown, providerUninstallLocks, LockOp.attempts, LockOp.apply,
        Mutex.tier, Tier.rank],
      [LockOp.Spin (Mutex.repository r.Settings.URL),
        LockOp.Spin (Mutex.application r.Settings.URL application.Name),
        LockOp.TryLock (Mutex.application r.Settings.URL application.Name) false],
      application.Name, by simp [providerUninstallLocks], ?_⟩
    simp [heldAfter, LockOp.apply]

/-- C24 at the repository of scenario S1: deleting `a` ends with a `TryLock` on
the Repository mutex while the Application mutex of `a` is held. -/
theorem C24_deferred_trylock_out_of_order_witness :
    topDown [] (repoWithS1.DeleteApplication teardownOk [] "a").locks = false ∧
    ∃ steps a,
      (repoWithS1.DeleteApplication teardownOk [] "a").locks =
        steps ++ [LockOp.TryLock (Mutex.repository repoWithS1.Settings.URL) false] ∧
      Mutex.application repoWithS1.Settings.URL a ∈ heldAfter [] steps :=
  C24_deferred_trylock_out_of_order teardownOk [] repoWithS1 "a" (by decide) (by decide)

/-! ## A failed rebuild -/

/-- C27: on the rebuild path (the scan ends on the existing application `a`,
which differs from the declaration), with the mutexes of the repository and of
`a` free: when the storage directory is removed and `NewApplication` fails,
`AddOrUpdateApplication` returns that error and the list is the old list with
nil in the slot of `a`, so of the same length and with the same other entries;
when the removal of the storage directory fails, it returns that error and the
repository is as it was, with `a` in its slot. -/
theorem C27_failed_rebuild (env : BuildEnv) (held : List Mutex) (r : RepositoryConfig)
    (d a : Application)
    (pre post : List (Option Application)) (hl : r.Apps = pre ++ some a :: post)
    (hpre : ∀ x ∈ pre, ∃ b, x = some b ∧ b.Name ≠ d.Name) (ha : a.Name = d.Name)
    (hdiff : cmpEqual a d = false)
    (hrepo : Mutex.repository r.Settings.URL ∉ held)
    (happ : Mutex.application r.Settings.URL a.Name ∉ held) :
    (∀ e t, env.RemoveAll a.storagePath = none → NewApplication env d = (Go.err e, t) →
      (r.AddOrUpdateApplication env held d).ending = Ending.returns (some e) ∧
      (r.AddOrUpdateApplication env held d).repo.Apps = pre ++ none :: post ∧
      (r.AddOrUpdateApplication env held d).repo.Apps.length = r.Apps.length ∧
      (r.AddOrUpdateApplication env held d).repo.Apps.get? pre.length = some none) ∧
    (∀ e, env.RemoveAll a.storagePath = some e →
      (r.AddOrUpdateApplication env held d).ending = Ending.returns (some (Err.ext e)) ∧
      (r.AddOrUpdateApplication env held d).repo = r ∧
      (r.AddOrUpdateApplication env held d).repo.Apps.get? pre.length = some (some a)) := by
  have hset := set_append_cons_length pre (some a) none post
  rw [AddOrUpdateApplication_found env held r d a pre post hl hpre ha]
  simp only [hdiff, Bool.false_eq_true, if_false, AddOrUpdateApplication.rebuild, hrepo, happ]
  constructor
  · intro e t hrm hnew
    simp only [hrm, hnew, hl, hset]
    refine ⟨trivial, trivial, by simp, get?_append_cons_length pre none post⟩
  · intro e hrm
    simp only [hrm, hl]
    exact ⟨trivial, trivial, get?_append_cons_length pre (some a) post⟩

/-- C27 at scenario S1: the reference is changed and the clone fails, so the
call returns the error of the clone and leaves a nil slot in place of `a`. -/
theorem C27_failed_rebuild_witness :
    (repoWithS1.AddOrUpdateApplication envCloneFails []
        { declS1 false with Reference := "dev" }).ending =
      Ending.returns (some (Err.ext (ExtErr.other "authentication required"))) ∧
    (repoWithS1.AddOrUpdateApplication envCloneFails []
      { declS1 false with Reference := "dev" }).repo.Apps = [none] :=
  have h := (C27_failed_rebuild envCloneFails [] repoWithS1 { declS1 false with Reference := "dev" }
    storedS1 [] [] rfl (by simp) rfl (by decide) (by simp) (by simp)).1
      (Err.ext (ExtErr.other "authentication required"))
      [BuildEvent.NewGitRepository "/root/.dummycd/storage/a"
        (some (ExtErr.other "authentication required"))] rfl (by decide)
  ⟨h.1, h.2.1⟩

/-! ## The labels of a manifest -/

/-- C28: for a provider built by `NewRawProvider` and taken through any run of
deliveries, whatever labels the manifests declare, the labels of every object
sent to `Create` or `Update` are exactly the two entries `dummy.cd/app` and
`dummy.cd/revision`. -/
theorem C28_labels_replaced (fs : FsEnv) (env : ClusterEnv) (appName resourcePath ns : String)
    (appRevision : Hash) (p : RawProvider) (calls : List (Hash × FsEnv × ClusterEnv))
    (hbuilt : NewRawProvider fs env appName resourcePath ns appRevision = Go.ok p) :
    ∀ run ∈ p.deliveries calls, ∀ ev ∈ run.2.applied, ∀ obj, ev.sent = some obj →
      obj.labels = [("dummy.cd/app", appName), ("dummy.cd/revision", run.1.String)] ∧
      obj.labels.map Prod.fst = ["dummy.cd/app", "dummy.cd/revision"] := by
  intro run hrun ev hev obj hobj
  obtain ⟨hname, hlabels⟩ := NewRawProvider_labels fs env appName resourcePath ns appRevision p hbuilt
  have h := RawProvider.deliveries_labels appName calls p hname (Or.inl hlabels) run hrun ev hev
    obj hobj
  rw [h]
  exact ⟨rfl, rfl⟩

/-- C28 at a manifest that declares the label `team`: the config map sent to
`Create` carries the two labels of the engine and not `team`. -/
theorem C28_labels_replaced_witness :
    cmAOwnLabel.labels = [("team", "payments")] ∧
    cmALabelled.labels = [("dummy.cd/app", "a"), ("dummy.cd/revision", Hash.String ⟨7⟩)] ∧
    cmALabelled.labels.map Prod.fst = ["dummy.cd/app", "dummy.cd/revision"] :=
  have h := C28_labels_replaced fsOwnLabel (clusterS5 none) "a" "deploy" "ns" ZeroHash rawOwnLabel
    [(⟨7⟩, fsOwnLabel, clusterS5 none)] (by decide)
    (⟨7⟩, ({ rawOwnLabel with appRevision := ⟨7⟩ } : RawProvider).Delivery fsOwnLabel
      (clusterS5 none))
    (by simp [RawProvider.deliveries])
    (RawEvent.Create { Group := "", Version := "v1", Resource := "configmaps" } "ns" cmALabelled none)
    (by decide) cmALabelled rfl
  ⟨rfl, h.1, h.2⟩

/-! ## Names within a repository -/

/-- The scan of `AddOrUpdateApplication` panics, or meets no application with the
name, or ends on the first application with the name. -/
theorem AddOrUpdateApplication.scan_cases (name : String) (l : List (Option Application)) :
    ∀ i,
      AddOrUpdateApplication.scan name l i = none ∨
      ((∀ x ∈ l, ∃ b, x = some b ∧ b.Name ≠ name) ∧
        AddOrUpdateApplication.scan name l i = some none) ∨
      ∃ pre a post, l = pre ++ some a :: post ∧ (∀ x ∈ pre, ∃ b, x = some b ∧ b.Name ≠ name) ∧
        a.Name = name ∧ AddOrUpdateApplication.scan name l i = some (some (i + pre.length)) := by
  induction l with
  | nil => intro i; right; left; simp [AddOrUpdateApplication.scan]
  | cons x rest ih =>
    intro i
    cases x with
    | none => left; simp [AddOrUpdateApplication.scan]
    | some b =>
      by_cases hb : b.Name = name
      · right; right
        exact ⟨[], b, rest, rfl, by simp, hb, by simp [AddOrUpdateApplication.scan, hb]⟩
      · rcases ih (i + 1) with hs | ⟨hno, hs⟩ | ⟨pre, a, post, hl, hpre, ha, hs⟩
        · left
          simp [AddOrUpdateApplication.scan, hb, hs]
        · right; left
          refine ⟨?_, by simp [AddOrUpdateApplication.scan, hb, hs]⟩
          intro y hy
          rcases List.mem_cons.1 hy with rfl | hy
          · exact ⟨b, rfl, hb⟩
          · exact hno y hy
        · right; right
          refine ⟨some b :: pre, a, post, by simp [hl], ?_, ha, ?_⟩
          · intro y hy
            rcases List.mem_cons.1 hy with rfl | hy
            · exact ⟨b, rfl, hb⟩
            · exact hpre y hy
          · simp only [AddOrUpdateApplication.scan, hb, if_false, hs, List.length_cons]
            rw [Nat.add_assoc, Nat.add_comm 1]

/-- An application that `NewApplication` returns has the declared name and the
storage directory that `path.Join` makes of the workspace and the name. -/
theorem NewApplication_ok (env : BuildEnv) (app built : Application) (t : List BuildEvent)
    (h : NewApplication env app = (Go.ok built, t)) :
    built.Name = app.Name ∧ built.storagePath = path.Join env.Workspace app.Name := by
  unfold NewApplication at h
  simp only at h
  split at h
  · simp at h
  · split at h
    · simp at h
    · split at h
      · split at h
        · simp at h
        · simp at h
        · simp only [Prod.mk.injEq, Go.ok.injEq] at h
          rw [← h.1]
          exact ⟨rfl, rfl⟩
      · split at h
        · simp at h
        · split at h
          · simp at h
          · split at h
            · simp at h
            · simp only [Prod.mk.injEq, Go.ok.injEq] at h
              rw [← h.1]
              exact ⟨rfl, rfl⟩

/-- A property of the applications in the slots that the calls keep: it holds for
what `NewApplication` builds, given what it held for. -/
theorem pairwise_replace {R : Option Application → Option Application → Prop}
    (pre post : List (Option Application)) (x y : Option Application)
    (hxy : ∀ z, (R z x → R z y) ∧ (R x z → R y z))
    (h : (pre ++ x :: post).Pairwise R) : (pre ++ y :: post).Pairwise R := by
  rw [List.pairwise_append] at h ⊢
  obtain ⟨hpre, hrest, hcross⟩ := h
  rw [List.pairwise_cons] at hrest ⊢
  refine ⟨hpre, ⟨fun z hz => (hxy z).2 (hrest.1 z hz), hrest.2⟩, ?_⟩
  intro a ha b hb
  rcases List.mem_cons.1 hb with rfl | hb
  · exact (hxy a).1 (hcross a ha x (List.mem_cons_self _ _))
  · exact hcross a ha b (List.mem_cons_of_mem _ hb)

theorem pairwise_swapPop {R : Option Application → Option Application → Prop}
    (hsymm : ∀ x y, R x y → R y x) (pre post : List (Option Application))
    (x : Option Application) (h : (pre ++ x :: post).Pairwise R) :
    (swapPop (pre ++ x :: post) pre.length).Pairwise R := by
  have hsub : (pre ++ post).Pairwise R :=
    List.Pairwise.sublist (List.Sublist.append_left (List.sublist_cons_self x post) pre) h
  exact (List.Perm.pairwise_iff (fun {a b} hab => hsymm a b hab) (swapPop_perm pre x post)).2 hsub

/-- The list that `AddOrUpdateApplication` leaves: the old list, or the old list
followed by the application built, or the old list with the slot of the
application of that name holding the application built or nil. -/
theorem AddOrUpdateApplication_apps (env : BuildEnv) (held : List Mutex) (r : RepositoryConfig)
    (d : Application) :
    (r.AddOrUpdateApplication env held d).repo.Apps = r.Apps ∨
    (∃ built t, NewApplication env d = (Go.ok built, t) ∧
      (∀ x ∈ r.Apps, ∃ b, x = some b ∧ b.Name ≠ d.Name) ∧
      (r.AddOrUpdateApplication env held d).repo.Apps = r.Apps ++ [some built]) ∨
    (∃ pre a post slot, r.Apps = pre ++ some a :: post ∧ a.Name = d.Name ∧
      (r.AddOrUpdateApplication env held d).repo.Apps = pre ++ slot :: post ∧
      (slot = none ∨ ∃ built t, NewApplication env d = (Go.ok built, t) ∧ slot = some built)) := by
  rcases AddOrUpdateApplication.scan_cases d.Name r.Apps 0 with
    hs | ⟨hno, hs⟩ | ⟨pre, a, post, hl, hpre, ha, _⟩
  · left
    simp [RepositoryConfig.AddOrUpdateApplication, hs]
  · rcases hn : NewApplication env d with ⟨res, t⟩
    cases res with
    | ok built =>
      by_cases hrepo : Mutex.repository r.Settings.URL ∈ held
      · left
        simp [RepositoryConfig.AddOrUpdateApplication, AddOrUpdateApplication.add, hs, hn, hrepo]
      · right; left
        exact ⟨built, t, rfl, hno, by
          simp [RepositoryConfig.AddOrUpdateApplication, AddOrUpdateApplication.add, hs, hn, hrepo]⟩
    | err e =>
      left
      simp [RepositoryConfig.AddOrUpdateApplication, AddOrUpdateApplication.add, hs, hn]
    | panic =>
      left
      simp [RepositoryConfig.AddOrUpdateApplication, AddOrUpdateApplication.add, hs, hn]
  · rw [AddOrUpdateApplication_found env held r d a pre post hl hpre ha]
    by_cases hc : cmpEqual a d = true
    · left
      simp [hc]
    simp only [hc, Bool.false_eq_true, if_false, AddOrUpdateApplication.rebuild]
    by_cases hrepo : Mutex.repository r.Settings.URL ∈ held
    · left
      simp [hrepo]
    by_cases happ : Mutex.application r.Settings.URL a.Name ∈ held
    · left
      simp [hrepo, happ]
    simp only [hrepo, happ, if_false]
    cases hrm : env.RemoveAll a.storagePath with
    | some e =>
      left
      rfl
    | none =>
      rcases hn : NewApplication env d with ⟨res, t⟩
      cases res with
      | ok built =>
        right; right
        refine ⟨pre, a, post, some built, hl, ha, ?_, Or.inr ⟨built, t, rfl, rfl⟩⟩
        simp only [hl]
        exact set_append_cons_length pre (some a) (some built) post
      | err e =>
        right; right
        refine ⟨pre, a, post, none, hl, ha, ?_, Or.inl rfl⟩
        simp only [hl]
        exact set_append_cons_length pre (some a) none post
      | panic =>
        left
        rfl

/-- The list that `DeleteApplication` leaves: the old list, or the old list with
one application of that name swapped out. -/
theorem DeleteApplication_apps (env : TeardownEnv) (held : List Mutex) (r : RepositoryConfig)
    (name : String) :
    (r.DeleteApplication env held name).repo.Apps = r.Apps ∨
    ∃ pre a post, r.Apps = pre ++ some a :: post ∧ a.Name = name ∧
      (r.DeleteApplication env held name).repo.Apps =
        swapPop (pre ++ some a :: post) pre.length := by
  rcases DeleteApplication.scan_outcome name r.Apps 0 none with
    ⟨_, hs⟩ | ⟨_, hs⟩ | ⟨pre, a, post, hl, _, ha, _, hs⟩
  · left
    simp [RepositoryConfig.DeleteApplication, hs]
  · left
    simp [RepositoryConfig.DeleteApplication, hs]
  · rw [Nat.zero_add] at hs
    have hg := get?_append_cons_length pre (some a) post
    rw [← hl, List.get?_eq_getElem?] at hg
    by_cases h1 : Mutex.repository r.Settings.URL ∈ held
    · left
      simp [RepositoryConfig.DeleteApplication, hs, List.get?_eq_getElem?, hg, h1, if_true]
    by_cases h2 : Mutex.application r.Settings.URL a.Name ∈ held
    · left
      simp [RepositoryConfig.DeleteApplication, hs, List.get?_eq_getElem?, hg, h1, h2, if_true, if_false]
    cases hk : a.deliveryProvider with
    | none =>
      left
      simp [RepositoryConfig.DeleteApplication, hs, List.get?_eq_getElem?, hg, h1, h2, hk, if_false]
    | some kind =>
      by_cases h3 : kind = ProviderKind.raw ∧ Mutex.provider r.Settings.URL a.Name ∈ held
      · left
        simp [RepositoryConfig.DeleteApplication, hs, List.get?_eq_getElem?, hg, h1, h2, hk, h3, if_true, if_false]
      · right
        refine ⟨pre, a, post, hl, ha, ?_⟩
        simp only [RepositoryConfig.DeleteApplication, hs, List.get?_eq_getElem?, hg, h1, h2, hk, h3, if_false, Bool.false_eq_true, not_false_eq_true, and_false, false_and]
        rw [hl]

theorem AppCall.run_distinctNames (r : RepositoryConfig) (call : AppCall)
    (h : distinctNames r.Apps) : distinctNames (call.run r).1.Apps := by
  cases call with
  | addOrUpdate env held d =>
    simp only [AppCall.run]
    rcases AddOrUpdateApplication_apps env held r d with
      he | ⟨built, t, hn, hno, he⟩ | ⟨pre, a, post, slot, hl, ha, he, hslot⟩
    · rw [he]; exact h
    · rw [he]
      unfold distinctNames at h ⊢
      rw [List.pairwise_append]
      refine ⟨h, List.pairwise_singleton _ _, ?_⟩
      intro x hx y hy a b hxa hyb
      rw [List.mem_singleton] at hy
      obtain ⟨c, hc, hcn⟩ := hno x hx
      have hac : a = c := by
        rw [hxa] at hc
        exact Option.some.inj hc
      have hb : b = built := by
        rw [hy] at hyb
        exact (Option.some.inj hyb).symm
      rw [hac, hb, (NewApplication_ok env d built t hn).1]
      exact hcn
    · rw [he]
      rw [hl] at h
      unfold distinctNames at h ⊢
      refine pairwise_replace pre post (some a) slot ?_ h
      intro z
      rcases hslot with rfl | ⟨built, t, hn, rfl⟩
      · exact ⟨fun _ x y _ hy => (by cases hy), fun _ x y hx _ => (by cases hx)⟩
      · have hname : built.Name = a.Name := by rw [(NewApplication_ok env d built t hn).1, ha]
        refine ⟨fun hz x y hx hy => ?_, fun hz x y hx hy => ?_⟩
        · cases hy
          rw [hname]
          exact hz x a hx rfl
        · cases hx
          rw [hname]
          exact hz a y rfl hy
  | delete env held name =>
    simp only [AppCall.run]
    rcases DeleteApplication_apps env held r name with he | ⟨pre, a, post, hl, _, he⟩
    · rw [he]; exact h
    · rw [he]
      rw [hl] at h
      exact pairwise_swapPop (fun x y hxy a b hya hxb => (hxy b a hxb hya).symm) pre post (some a) h

theorem runAppCalls_distinctNames (calls : List AppCall) :
    ∀ r : RepositoryConfig, distinctNames r.Apps → distinctNames (runAppCalls r calls).Apps := by
  induction calls with
  | nil => intro r h; exact h
  | cons call rest ih =>
    intro r h
    have h1 := AppCall.run_distinctNames r call h
    simp only [runAppCalls]
    split
    · exact ih _ h1
    · exact h1

/-- C21: for a repository as `NewRepositoryConfig` makes it, after any finite
sequence of `AddOrUpdateApplication` and `DeleteApplication` calls, whatever
they answer, no two applications in the application list share a name. -/
theorem C21_names_unique (name : String) (settings : RepositorySettings) (calls : List AppCall) :
    distinctNames (runAppCalls { Name := name, Settings := settings, Apps := [] } calls).Apps :=
  runAppCalls_distinctNames calls _ List.Pairwise.nil

/-! ## Storage directories -/

theorem splitOn_ne_nil (sep : Char) (l : List Char) : splitOn sep l ≠ [] := by
  cases l with
  | nil => simp [splitOn]
  | cons c cs =>
    unfold splitOn
    split
    · simp
    · split <;> simp

theorem splitOn_append (sep : Char) (a b : List Char) :
    splitOn sep (a ++ sep :: b) = splitOn sep a ++ splitOn sep b := by
  induction a with
  | nil => simp [splitOn]
  | cons c cs ih =>
    by_cases hc : c = sep
    · simp [splitOn, hc, ih]
    · simp only [List.cons_append, splitOn, hc, if_false]
      change (match splitOn sep (cs ++ sep :: b) with
        | [] => [[c]]
        | piece :: pieces => (c :: piece) :: pieces) = _
      rw [ih]
      cases hs : splitOn sep cs with
      | nil => exact absurd hs (splitOn_ne_nil sep cs)
      | cons piece pieces => rfl

theorem path.slashed_concat (xs : List (List Char)) (n : List Char) :
    path.slashed (xs ++ [n]) = (xs.map (fun e => e ++ ['/'])).flatten ++ n := by
  induction xs with
  | nil => rfl
  | cons e rest ih =>
    cases rest with
    | nil => simp [path.slashed]
    | cons e2 rest2 =>
      have h : path.slashed (e :: e2 :: rest2 ++ [n]) =
          e ++ '/' :: path.slashed (e2 :: rest2 ++ [n]) := rfl
      rw [h, ih]
      simp

theorem path.Clean.step_element (rooted : Bool) (kept : List (List Char)) (n : String)
    (hn : path.isElement n) : path.Clean.step rooted kept n.data = n.data :: kept := by
  obtain ⟨h0, _, h1, h2⟩ := hn
  simp [path.Clean.step, h0, h1, h2]

/-- The path that `path.Join` makes of a first element `w` and a name that is
one element is a prefix that depends on `w` alone, followed by the name. -/
theorem path.Join_element (w : String) :
    ∃ pre : List Char, ∀ n, path.isElement n → (path.Join w n).data = pre ++ n.data := by
  by_cases hw : w = ""
  · refine ⟨[], fun n hn => ?_⟩
    have hne : n ≠ "" := fun h => hn.1 (by rw [h])
    have hhead : ¬ n.data.head? = some '/' := by
      intro hh
      exact hn.2.1 (List.mem_of_mem_head? hh)
    simp only [path.Join, hw, if_true, hne, if_false, path.Clean, hhead,
      splitOn_not_mem '/' n.data hn.2.1, List.foldl_cons, List.foldl_nil,
      path.Clean.step_element false [] n hn]
    simp [path.slashed]
  · have hwd : w.data ≠ [] := fun h => hw (String.ext h)
    refine ⟨(if w.data.head? = some '/' then ['/'] else []) ++
      ((((splitOn '/' w.data).foldl
        (path.Clean.step (decide (w.data.head? = some '/'))) []).reverse).map
          (fun e => e ++ ['/'])).flatten, fun n hn => ?_⟩
    have hne : w ++ "/" ++ n ≠ "" := by
      intro h
      have hd := congrArg String.data h
      simp only [String.data_append] at hd
      cases hw1 : w.data with
      | nil => exact hwd hw1
      | cons c cs => rw [hw1] at hd; simp at hd
    have hdata : (w ++ "/" ++ n).data = w.data ++ '/' :: n.data := by
      simp [String.data_append]
    have hhead : (w.data ++ '/' :: n.data).head? = w.data.head? := by
      cases hw1 : w.data with
      | nil => exact absurd hw1 hwd
      | cons c cs => rfl
    simp only [path.Join, hw, if_false, path.Clean, hne, hdata, hhead, splitOn_append,
      splitOn_not_mem '/' n.data hn.2.1, List.foldl_append, List.foldl_cons, List.foldl_nil,
      path.Clean.step_element _ _ n hn, List.reverse_cons, path.slashed_concat]
    by_cases hr : w.data.head? = some '/'
    · simp [hr]
    · simp [hr]

theorem path.Join_injective (w n1 n2 : String) (h1 : path.isElement n1) (h2 : path.isElement n2)
    (h : path.Join w n1 = path.Join w n2) : n1 = n2 := by
  obtain ⟨pre, hpre⟩ := path.Join_element w
  have hd := congrArg String.data h
  rw [hpre n1 h1, hpre n2 h2] at hd
  exact String.ext (List.append_cancel_left hd)

theorem AppCall.run_storageUnder (w : String) (r : RepositoryConfig) (call : AppCall)
    (huses : call.uses w) (h : storageUnder w r.Apps) : storageUnder w (call.run r).1.Apps := by
  cases call with
  | addOrUpdate env held d =>
    obtain ⟨hw, hel⟩ := huses
    have hbuilt : ∀ built t, NewApplication env d = (Go.ok built, t) →
        path.isElement built.Name ∧ built.storagePath = path.Join w built.Name := by
      intro built t hn
      obtain ⟨h1, h2⟩ := NewApplication_ok env d built t hn
      rw [h2, h1, hw]
      exact ⟨hel, rfl⟩
    simp only [AppCall.run]
    rcases AddOrUpdateApplication_apps env held r d with
      he | ⟨built, t, hn, _, he⟩ | ⟨pre, a, post, slot, hl, _, he, hslot⟩
    · rw [he]; exact h
    · rw [he]
      intro b hb
      rcases List.mem_append.1 hb with hb | hb
      · exact h b hb
      · rw [List.mem_singleton] at hb
        rw [Option.some.inj hb]
        exact hbuilt built t hn
    · rw [he]
      rw [hl] at h
      intro b hb
      rcases List.mem_append.1 hb with hb | hb
      · exact h b (List.mem_append_left _ hb)
      · rcases List.mem_cons.1 hb with hb | hb
        · rcases hslot with rfl | ⟨built, t, hn, rfl⟩
          · cases hb
          · rw [Option.some.inj hb]
            exact hbuilt built t hn
        · exact h b (List.mem_append_right _ (List.mem_cons_of_mem _ hb))
  | delete env held name =>
    simp only [AppCall.run]
    rcases DeleteApplication_apps env held r name with he | ⟨pre, a, post, hl, _, he⟩
    · rw [he]; exact h
    · rw [he]
      rw [hl] at h
      intro b hb
      have hb1 : some b ∈ pre ++ post := (swapPop_perm pre (some a) post).subset hb
      rcases List.mem_append.1 hb1 with hb1 | hb1
      · exact h b (List.mem_append_left _ hb1)
      · exact h b (List.mem_append_right _ (List.mem_cons_of_mem _ hb1))

theorem runAppCalls_storageUnder (w : String) (calls : List AppCall) :
    ∀ r : RepositoryConfig, (∀ c ∈ calls, c.uses w) → storageUnder w r.Apps →
      storageUnder w (runAppCalls r calls).Apps := by
  induction calls with
  | nil => intro r _ h; exact h
  | cons call rest ih =>
    intro r huses h
    have h1 := AppCall.run_storageUnder w r call (huses call (List.mem_cons_self _ _)) h
    simp only [runAppCalls]
    split
    · exact ih _ (fun c hc => huses c (List.mem_cons_of_mem _ hc)) h1
    · exact h1

/-- C22, as stated, fails, across repositories and within one.  The application
`a` is declared in two repositories; both are built, they are two applications,
and both have the storage directory `/root/.dummycd/storage/a`.  In one
repository the applications `a` and `a/` are declared; both are built, their
names differ, and `path.Join` gives both the same storage directory. -/
theorem C22_counterexample :
    repoS1.Settings.URL ≠ repoS2.Settings.URL ∧
    (repoS1.AddOrUpdateApplication envBuild [] (declS1 false)).repo.Apps = [some storedS1] ∧
    (repoS2.AddOrUpdateApplication envBuild [] declS2).repo.Apps =
      [some { storedS1 with URL := "ssh://git@h/other.git"
                            RepositoryConfig := some "ssh://git@h/other.git" }] ∧
    storedS1 ≠ { storedS1 with URL := "ssh://git@h/other.git"
                               RepositoryConfig := some "ssh://git@h/other.git" } ∧
    storedS1.storagePath =
      ({ storedS1 with URL := "ssh://git@h/other.git"
                       RepositoryConfig := some "ssh://git@h/other.git" } : Application).storagePath ∧
    (runAppCalls repoS1
      [AppCall.addOrUpdate envBuild [] (declS1 false),
        AppCall.addOrUpdate envBuild [] { declS1 false with Name := "a/" }]).Apps =
      [some storedS1, some { storedS1 with Name := "a/" }] ∧
    storedS1.storagePath = ({ storedS1 with Name := "a/" } : Application).storagePath := by
  decide

/-- C22, amended: in one repository, built from an empty list by any sequence of
`AddOrUpdateApplication` and `DeleteApplication` calls under one workspace, with
declared names that are each one element of a path (not empty, without a slash,
neither `.` nor `..`), no two applications in the list share a storage
directory. -/
theorem C22_storage_within_repository (w : String) (name : String)
    (settings : RepositorySettings) (calls : List AppCall) (huses : ∀ c ∈ calls, c.uses w) :
    distinctStorage (runAppCalls { Name := name, Settings := settings, Apps := [] } calls).Apps := by
  have hnames := runAppCalls_distinctNames calls
    { Name := name, Settings := settings, Apps := [] } List.Pairwise.nil
  have hstore := runAppCalls_storageUnder w calls
    { Name := name, Settings := settings, Apps := [] } huses (by intro b hb; cases hb)
  unfold distinctStorage
  unfold distinctNames at hnames
  refine List.Pairwise.imp_of_mem ?_ hnames
  intro x y hx hy hxy a b hxa hyb hpath
  subst hxa
  subst hyb
  rw [(hstore a hx).2, (hstore b hy).2] at hpath
  exact hxy a b rfl rfl (path.Join_injective w a.Name b.Name (hstore a hx).1 (hstore b hy).1 hpath)

/-- C22, amended, at a repository in which `a` and `b` are declared under the
workspace `/root/.dummycd/storage`. -/
theorem C22_storage_within_repository_witness :
    distinctStorage (runAppCalls repoS1
      [AppCall.addOrUpdate envBuild [] (declS1 false),
        AppCall.addOrUpdate envBuild [] { declS1 false with Name := "b" }]).Apps :=
  C22_storage_within_repository "/root/.dummycd/storage" "r" repoS1.Settings
    [AppCall.addOrUpdate envBuild [] (declS1 false),
      AppCall.addOrUpdate envBuild [] { declS1 false with Name := "b" }]
    (by
      intro c hc
      simp only [List.mem_cons, List.mem_singleton, List.not_mem_nil, or_false] at hc
      rcases hc with rfl | rfl
      · exact ⟨rfl, by decide⟩
      · exact ⟨rfl, by decide⟩)

/-! ## The scheduler tick -/

theorem tickApps_balanced (url : String) (apps : List (Option Application)) :
    ∀ st : TickState, st.panicked = false → st.balanced → (tickApps url apps st).balanced := by
  induction apps with
  | nil => intro st _ h; exact h
  | cons slot rest ih =>
    intro st hp h
    obtain ⟨hc, h0⟩ := h hp
    cases slot with
    | none =>
      intro hpan
      simp [tickApps] at hpan
    | some a =>
      simp only [tickApps]
      split
      · split
        · rename_i hpan
          intro hnot
          rw [hnot] at hpan
          exact absurd hpan (by decide)
        · rename_i hpan
          simp only [Bool.not_eq_true] at hpan
          refine ih _ hpan ?_
          intro _
          simp only [TickState.Add, decide_eq_false_iff_not, not_lt] at hpan
          simp only [TickState.Add, List.length_append, List.length_singleton]
          constructor
          · push_cast
            omega
          · exact hpan
      · refine ih _ ?_ ?_
        · simp only [TickState.Add, decide_eq_false_iff_not, not_lt]
          omega
        · intro _
          simp only [TickState.Add, List.length_append, List.length_singleton]
          constructor
          · push_cast
            omega
          · omega

theorem tickRepos_balanced (repos : List RepositoryConfig) :
    ∀ st : TickState, st.panicked = false → st.balanced → (tickRepos repos st).balanced := by
  induction repos with
  | nil => intro st _ h; exact h
  | cons r rest ih =>
    intro st hp h
    simp only [tickRepos]
    split
    · exact ih _ hp (fun hq => h hq)
    · have h1 := tickApps_balanced r.Settings.URL r.Apps
        { st with locks := st.locks ++ [LockOp.TryLock (Mutex.repository r.Settings.URL) true]
                  held := Mutex.repository r.Settings.URL :: st.held } hp (fun hq => h hq)
      split
      · rename_i hpan
        intro hnot
        rw [hnot] at hpan
        exact absurd hpan (by decide)
      · rename_i hpan
        simp only [Bool.not_eq_true] at hpan
        exact ih _ hpan (fun hq => h1 hq)

theorem tickJoin_busy (tasks : List (String × String)) :
    ∀ st : TickState, (tickJoin tasks st).busy = st.busy := by
  induction tasks with
  | nil => intro st; rfl
  | cons task rest ih =>
    intro st
    obtain ⟨url, name⟩ := task
    simp only [tickJoin]
    split
    · rfl
    · rw [ih]
      rfl

theorem tickJoin_short (tasks : List (String × String)) :
    ∀ st : TickState, 0 ≤ st.counter → st.counter < (tasks.length : Int) →
      (tickJoin tasks st).panicked = true := by
  induction tasks with
  | nil =>
    intro st h0 hlt
    simp only [List.length_nil, Nat.cast_zero] at hlt
    omega
  | cons task rest ih =>
    intro st h0 hlt
    obtain ⟨url, name⟩ := task
    simp only [tickJoin]
    split
    · rename_i hpan
      exact hpan
    · rename_i hpan
      simp only [Bool.not_eq_true, TickState.Add, decide_eq_false_iff_not, not_lt] at hpan
      refine ih _ ?_ ?_
      · simp only [TickState.Add]
        exact hpan
      · simp only [TickState.Add, List.length_cons, Nat.cast_add, Nat.cast_one] at hlt ⊢
        omega

/-- C25 on the code: a tick that meets a busy application always ends in the
panic of the wait group, because the scheduler calls `wg.Done()` for an
application it did not add; with the repository of scenario S1 free and the
mutex of its application `a` held, the tick starts no task, the counter drops
from zero to `-1`, and the tick panics with the Registry and the Repository
mutex still locked. -/
theorem C25_busy_application_panics :
    (∀ (h : RepositoryHandler) (held : List Mutex),
      (h.tick held).busy ≠ [] → (h.tick held).panicked = true) ∧
    ({ Repos := [repoWithS1] } : RepositoryHandler).tick
        [Mutex.application "ssh://git@h/r.git" "a"] =
      { panicked := true
        counter := -1
        counters := [-1]
        dispatched := []
        busy := [("ssh://git@h/r.git", "a")]
        locks := [LockOp.TryLock Mutex.registry true,
          LockOp.TryLock (Mutex.repository "ssh://git@h/r.git") true,
          LockOp.TryLock (Mutex.application "ssh://git@h/r.git" "a") false]
        held := [Mutex.repository "ssh://git@h/r.git", Mutex.registry,
          Mutex.application "ssh://git@h/r.git" "a"] } := by
  refine ⟨?_, by decide⟩
  intro h held hbusy
  unfold RepositoryHandler.tick at hbusy ⊢
  split at hbusy
  · simp at hbusy
  · rename_i hreg
    simp only [hreg, if_false] at hbusy ⊢
    have hbal := tickRepos_balanced h.Repos
      { held := Mutex.registry :: held, locks := [LockOp.TryLock Mutex.registry true] } rfl
      (fun _ => ⟨by simp, by simp⟩)
    split
    · rename_i hpan
      exact hpan
    · rename_i hpan
      simp only [Bool.not_eq_true] at hpan
      simp only [hpan, Bool.false_eq_true, if_false] at hbusy
      obtain ⟨hc, h0⟩ := hbal hpan
      split
      · rename_i hj
        exact hj
      · rename_i hj
        exfalso
        simp only [hj, if_false] at hbusy
        rw [tickJoin_busy] at hbusy
        have hlen : 0 < (tickRepos h.Repos
            { held := Mutex.registry :: held,
              locks := [LockOp.TryLock Mutex.registry true] }).busy.length :=
          List.length_pos.2 hbusy
        have := tickJoin_short (tickRepos h.Repos
            { held := Mutex.registry :: held,
              locks := [LockOp.TryLock Mutex.registry true] }).dispatched _ h0
          (by rw [hc]; omega)
        exact hj this

end DummyCD
